import Mathlib

/-!
Verification of the elliptic-curve group engine of btclib (src/btclib/curvegroup.py).

The development shallowly embeds the Python code: Python arbitrary-precision
integers become `ℤ`, the Python modulo operator `%` on a positive modulus is
`Int.emod` (both return a representative in `[0, p)`), tuples become products,
lists become `List`, and code that can raise becomes `Except String`-valued.
Semantic reasoning happens in `ZMod p` via the canonical ring morphism and in
the Mathlib group of nonsingular affine points of a Weierstrass curve.
-/

namespace Btclib

/-- Affine point: pair of Python integers, as in btclib.alias. -/
abbrev Point := ℤ × ℤ

/-- Jacobian point: triple of Python integers, as in btclib.alias. -/
abbrev JacPoint := ℤ × ℤ × ℤ

/-- Modelled from the spec: the constant INF of btclib.alias (the file is not under src/).
The spec fixes only the encoding (a vanishing y-coordinate marks the affine infinity);
the concrete constant must have an x-component that is nonzero modulo every supported
field prime, since the repository test-suite (src/btclib/tests/test_curve.py, e.g.
test_assorted_mult passing INF to double_mult) fails for an (0, 0)-style constant,
whose Jacobian image (0, 0, 0) triggers the doubling branch of add_jac. -/
def INF : Point := (1, 0)

/-- Modelled from the spec: the constant INFJ of btclib.alias (the file is not under src/).
The spec says a vanishing Z marks the Jacobian infinity; as for INF the repository
tests force a first component that is nonzero modulo p. The triple (1, 1, 0) is a
literal fixed point of the Jacobian doubling formula, matching the test
assertion that doubling INFJ is jac-equal to INFJ. -/
def INFJ : JacPoint := (1, 1, 0)

/-- Curve parameters, as validated and stored by CurveGroup.__init__
(src/btclib/curvegroup.py). Only the stored data; the constructor checks are
captured by `CurveGroup.valid` below. -/
structure CurveGroup where
  p : ℤ
  a : ℤ
  b : ℤ
deriving DecidableEq, Repr

/-- The checks performed by CurveGroup.__init__: p at least 2 and odd
(the constructor also runs a base-2 Fermat test; per the data model of the
spec p is an odd prime, which theorems below carry as a hypothesis),
a and b in [0, p), and nonzero discriminant 4a^3 + 27b^2 mod p. -/
def CurveGroup.valid (ec : CurveGroup) : Prop :=
  2 ≤ ec.p ∧ ec.p % 2 = 1 ∧
    0 ≤ ec.a ∧ ec.a < ec.p ∧ 0 ≤ ec.b ∧ ec.b < ec.p ∧
    (4 * ec.a ^ 3 + 27 * ec.b ^ 2) % ec.p ≠ 0

instance (ec : CurveGroup) : Decidable ec.valid :=
  inferInstanceAs (Decidable (_ ∧ _))

/-- Derived attribute psize of CurveGroup: the byte length ceil(p.bit_length() / 8). -/
def CurveGroup.psize (ec : CurveGroup) : ℕ :=
  (Nat.size ec.p.toNat + 7) / 8

/-- Derived attribute pIsThreeModFour of CurveGroup. -/
def CurveGroup.pIsThreeModFour (ec : CurveGroup) : Prop :=
  ec.p % 4 = 3

instance (ec : CurveGroup) : Decidable ec.pIsThreeModFour :=
  inferInstanceAs (Decidable (ec.p % 4 = 3))

/-- Modelled from the spec: mod_inv of btclib.numbertheory (the file is not under src/).
The spec says it returns the multiplicative inverse of a modulo p, failing when
a vanishes mod p. The model computes the canonical representative of the field
inverse in ZMod p by Fermat exponentiation, which agrees with the inverse for
the odd prime moduli of every verified use (and is 0 when a vanishes; no
verified operation reaches the failing case, every call site supplies a value
that is nonzero mod p). -/
def mod_inv (a m : ℤ) : ℤ :=
  (((a : ZMod m.toNat) ^ (m.toNat - 2)).val : ℤ)

/-- Modelled from the spec: legendre_symbol of btclib.numbertheory (not under src/):
plus 1 for a quadratic residue, minus 1 otherwise, 0 when a vanishes mod p.
The residue test is an executable search for a square root. -/
def legendre_symbol (a p : ℤ) : ℤ :=
  if a % p = 0 then 0
  else if (List.range p.toNat).any (fun r => ((r : ℤ) * r - a) % p = 0) then 1 else -1

/-- Modelled from the spec: mod_sqrt of btclib.numbertheory (not under src/):
returns r with r * r congruent to a, failing when a is a non-residue. For
p congruent to 3 mod 4 the spec names the direct formula a ^ ((p + 1) / 4); the
Tonelli-Shanks branch for other p is modelled as an executable root search
(no verified claim exercises it: y_quadratic_residue rejects such p first). -/
def mod_sqrt (a p : ℤ) : Except String ℤ :=
  if p % 4 = 3 then
    let r := (a ^ (((p + 1) / 4).toNat)) % p
    if (r * r) % p = a % p then .ok r else .error "no root for a"
  else
    match (List.range p.toNat).find? (fun r => ((r : ℤ) * r - a) % p = 0) with
    | some r => .ok (r : ℤ)
    | none => .error "no root for a"

/-! Translations of the functions and methods of src/btclib/curvegroup.py.
Leading underscores of the Python names are dropped. The tuple-arity TypeError
branches of negate/negate_jac/has_square_y are unrepresentable here because the
embedding is typed. A check of the form `if m < 0: raise` guarding a scalar is
rendered by taking the scalar in ℕ where every verified claim restricts to
nonnegative scalars anyway; the negative-scalar check of multi_mult, which a
claim is about, is kept (its scalars stay in ℤ). -/

/-- Embeds jac_from_aff: the Z component is 1 when y is truthy (nonzero), else 0. -/
def jac_from_aff (Q : Point) : JacPoint :=
  (Q.1, Q.2, if Q.2 ≠ 0 then 1 else 0)

/-- Embeds CurveGroup.negate (the y-coordinate is negated mod p). -/
def negate (ec : CurveGroup) (Q : Point) : Point :=
  (Q.1, (ec.p - Q.2) % ec.p)

/-- Embeds CurveGroup.negate_jac. -/
def negate_jac (ec : CurveGroup) (Q : JacPoint) : JacPoint :=
  (Q.1, (ec.p - Q.2.1) % ec.p, Q.2.2)

/-- Embeds CurveGroup.aff_from_jac. -/
def aff_from_jac (ec : CurveGroup) (Q : JacPoint) : Point :=
  if Q.2.2 = 0 then INF
  else
    let Z2 := Q.2.2 * Q.2.2
    ((Q.1 * mod_inv Z2 ec.p) % ec.p, (Q.2.1 * mod_inv (Z2 * Q.2.2) ec.p) % ec.p)

/-- Embeds CurveGroup.x_aff_from_jac (raises on the Jacobian infinity). -/
def x_aff_from_jac (ec : CurveGroup) (Q : JacPoint) : Except String ℤ :=
  if Q.2.2 = 0 then .error "infinity point has no x-coordinate"
  else .ok ((Q.1 * mod_inv (Q.2.2 * Q.2.2) ec.p) % ec.p)

/-- Embeds CurveGroup.jac_equality: projective equivalence by cross-multiplication. -/
def jac_equality (ec : CurveGroup) (QJ PJ : JacPoint) : Bool :=
  let PJ2 := PJ.2.2 * PJ.2.2
  let QJ2 := QJ.2.2 * QJ.2.2
  if (QJ.1 * PJ2) % ec.p ≠ (PJ.1 * QJ2) % ec.p then false
  else (QJ.2.1 * (PJ2 * PJ.2.2)) % ec.p = (PJ.2.1 * (QJ2 * QJ.2.2)) % ec.p

/-- Embeds CurveGroup.add_jac. The source computes the incomplete formula
unconditionally and then selects among four candidates by the two Z-is-zero
flags, except that the doubling branch (same affine x and y residues) returns
early, before the selection. The final list indexing
ret_values[(Q[2]==0) + (R[2]==0)*2] is written as two nested conditionals. -/
def add_jac (ec : CurveGroup) (Q R : JacPoint) : JacPoint :=
  let RZ2 := R.2.2 * R.2.2
  let RZ3 := RZ2 * R.2.2
  let QZ2 := Q.2.2 * Q.2.2
  let QZ3 := QZ2 * Q.2.2
  let M := Q.1 * RZ2
  let N := R.1 * QZ2
  let T := Q.2.1 * RZ3
  let U := R.2.1 * QZ3
  if M % ec.p = N % ec.p ∧ T % ec.p = U % ec.p then
    let QY2 := Q.2.1 * Q.2.1
    let W := 3 * Q.1 * Q.1 + ec.a * QZ2 * QZ2
    let V := 4 * Q.1 * QY2
    let X := W * W - 2 * V
    let Y := W * (V - X) - 8 * QY2 * QY2
    let Z := 2 * Q.2.1 * Q.2.2
    (X % ec.p, Y % ec.p, Z % ec.p)
  else
    let W := U - T
    let V := N - M
    let V2 := V * V
    let V3 := V2 * V
    let MV2 := M * V2
    let X := (W * W - V3 - 2 * MV2) % ec.p
    let Y := (W * (MV2 - X) - T * V3) % ec.p
    let Z := (V * Q.2.2 * R.2.2) % ec.p
    if Q.2.2 = 0 then (if R.2.2 = 0 then INFJ else R)
    else (if R.2.2 = 0 then Q else (X, Y, Z))

/-- Embeds CurveGroup.double_jac. -/
def double_jac (ec : CurveGroup) (Q : JacPoint) : JacPoint :=
  let QZ2 := Q.2.2 * Q.2.2
  let QY2 := Q.2.1 * Q.2.1
  let W := 3 * Q.1 * Q.1 + ec.a * QZ2 * QZ2
  let V := 4 * Q.1 * QY2
  let X := W * W - 2 * V
  let Y := W * (V - X) - 8 * QY2 * QY2
  let Z := 2 * Q.2.1 * Q.2.2
  (X % ec.p, Y % ec.p, Z % ec.p)

/-- Embeds CurveGroup.double_aff. -/
def double_aff (ec : CurveGroup) (Q : Point) : Point :=
  if Q.2 = 0 then INF
  else
    let lam := (3 * Q.1 * Q.1 + ec.a) * mod_inv (2 * Q.2) ec.p
    let x := lam * lam - Q.1 - Q.1
    let y := lam * (Q.1 - x) - Q.2
    (x % ec.p, y % ec.p)

/-- Embeds CurveGroup.add_aff. -/
def add_aff (ec : CurveGroup) (Q R : Point) : Point :=
  if R.2 = 0 then Q
  else if Q.2 = 0 then R
  else if R.1 = Q.1 then
    if R.2 = Q.2 then double_aff ec R else INF
  else
    let lam := (R.2 - Q.2) * mod_inv (R.1 - Q.1) ec.p
    let x := lam * lam - Q.1 - R.1
    let y := lam * (Q.1 - x) - Q.2
    (x % ec.p, y % ec.p)

/-- Embeds the private method CurveGroup.y2: the right-hand side of the curve
equation, reduced mod p. -/
def y2 (ec : CurveGroup) (x : ℤ) : ℤ :=
  ((x ^ 2 + ec.a) * x + ec.b) % ec.p

/-- Embeds CurveGroup.y: x-range check, then a modular square root, with any
square-root failure converted to an invalid x-coordinate error. -/
def y (ec : CurveGroup) (x : ℤ) : Except String ℤ :=
  if ¬(0 ≤ x ∧ x < ec.p) then .error "x-coordinate not in 0..p-1"
  else
    match mod_sqrt (y2 ec x) ec.p with
    | .ok r => .ok r
    | .error _ => .error "invalid x-coordinate"

/-- Embeds CurveGroup.is_on_curve: a vanishing y is the infinity point and
returns true; a finite y must be in [1, p-1] or a ValueError is raised; the
x-coordinate is never range-checked and feeds the curve equation directly. -/
def is_on_curve (ec : CurveGroup) (Q : Point) : Except String Bool :=
  if Q.2 = 0 then .ok true
  else if ¬(0 < Q.2 ∧ Q.2 < ec.p) then .error "y-coordinate not in 1..p-1"
  else .ok (y2 ec Q.1 = (Q.2 * Q.2) % ec.p)

/-- Embeds CurveGroup.require_on_curve. -/
def require_on_curve (ec : CurveGroup) (Q : Point) : Except String Unit := do
  let b ← is_on_curve ec Q
  if b then pure () else throw "point not on curve"

/-- Embeds CurveGroup.add: validates both inputs, then the affine primitive. -/
def add (ec : CurveGroup) (Q1 Q2 : Point) : Except String Point := do
  require_on_curve ec Q1
  require_on_curve ec Q2
  pure (add_aff ec Q1 Q2)

/-- Embeds CurveGroup.has_square_y for an affine point. -/
def has_square_y (ec : CurveGroup) (Q : Point) : Bool :=
  legendre_symbol Q.2 ec.p = 1

/-- Embeds CurveGroup.require_p_ThreeModFour. -/
def require_p_ThreeModFour (ec : CurveGroup) : Except String Unit :=
  if ec.pIsThreeModFour then .ok () else .error "field prime is not equal to 3 mod 4"

/-- Embeds CurveGroup.y_odd. -/
def y_odd (ec : CurveGroup) (x odd1even0 : ℤ) : Except String ℤ :=
  if odd1even0 ≠ 0 ∧ odd1even0 ≠ 1 then .error "odd1even0 must be bool or 1/0"
  else do
    let root ← y ec x
    pure (if root % 2 = odd1even0 then root else ec.p - root)

/-- Embeds CurveGroup.y_quadratic_residue: argument check, the p mod 4
requirement, y-recovery, then the Legendre-symbol driven root selection. -/
def y_quadratic_residue (ec : CurveGroup) (x quad_res : ℤ) : Except String ℤ :=
  if quad_res ≠ 0 ∧ quad_res ≠ 1 then .error "quad_res must be bool or 1/0"
  else do
    require_p_ThreeModFour ec
    let root ← y ec x
    let legendre := legendre_symbol root ec.p
    pure (if legendre = quad_res then root else ec.p - root)

/-! Scalar multiplication algorithms and precomputation tables. -/

/-- Embeds the while loop of convert_number_to_base before the final reversal:
the least-significant-first digit list. For base at least 2 this is Nat.digits;
the guard on base below 2 (where the Python loop would not terminate, a case no
claim is about) makes the recursion total. -/
def digits_rev (base : ℕ) (i : ℕ) : List ℕ :=
  if _h : i = 0 ∨ base < 2 then [] else (i % base) :: digits_rev base (i / base)
termination_by i
decreasing_by
  exact Nat.div_lt_self (Nat.pos_of_ne_zero (by omega)) (by omega)

theorem digits_rev_unfold (base i : ℕ) :
    digits_rev base i = if i = 0 ∨ base < 2 then []
      else (i % base) :: digits_rev base (i / base) := by
  rw [digits_rev]
  split <;> rfl

/-- Embeds convert_number_to_base: big-endian digits, with at least one digit
(the loop body runs once even for i = 0, appending a single 0). -/
def convert_number_to_base (i base : ℕ) : List ℕ :=
  let digits := digits_rev base i
  if digits = [] then [0] else digits.reverse

/-- Embeds the Python bin(m)[2:] digit extraction used by mult_mont_ladder:
most-significant-bit-first binary digits, with [0] for m = 0. -/
def bin_digits (m : ℕ) : List ℕ :=
  if m = 0 then [0] else (Nat.digits 2 m).reverse

/-- Embeds the loop body of mult_jac and mult_aff, which maintains only the
slot R[0] (the ancillary slot R[1] is written but never read): at each step the
base point is doubled, the addition is computed, and it is committed to R[0]
exactly when the current low bit of m is 1. -/
def mult_jac_loop (ec : CurveGroup) (m : ℕ) (Qv R0 : JacPoint) : JacPoint :=
  if _h : m = 0 then R0
  else
    let Q2 := double_jac ec Qv
    let A := add_jac ec R0 Q2
    mult_jac_loop ec (m / 2) Q2 (if m % 2 = 1 then A else R0)
termination_by m
decreasing_by
  exact Nat.div_lt_self (Nat.pos_of_ne_zero (by omega)) (by omega)

/-- Embeds mult_jac: double and add, right-to-left binary, Jacobian
coordinates. The initial assignment R[not (m and 1)] = Q leaves R[0] = INFJ
exactly when the low bit of m is 0. The m < 0 check of the source is rendered
by the ℕ-typed scalar. -/
def mult_jac (ec : CurveGroup) (m : ℕ) (Q : JacPoint) : JacPoint :=
  mult_jac_loop ec (m / 2) Q (if m % 2 = 1 then Q else INFJ)

/-- Embeds the loop of mult_aff, exactly parallel to mult_jac_loop. -/
def mult_aff_loop (ec : CurveGroup) (m : ℕ) (Qv R0 : Point) : Point :=
  if _h : m = 0 then R0
  else
    let Q2 := double_aff ec Qv
    let A := add_aff ec R0 Q2
    mult_aff_loop ec (m / 2) Q2 (if m % 2 = 1 then A else R0)
termination_by m
decreasing_by
  exact Nat.div_lt_self (Nat.pos_of_ne_zero (by omega)) (by omega)

/-- Embeds mult_aff: double and add, right-to-left binary, affine coordinates. -/
def mult_aff (ec : CurveGroup) (m : ℕ) (Q : Point) : Point :=
  mult_aff_loop ec (m / 2) Q (if m % 2 = 1 then Q else INF)

/-- Embeds mult_mont_ladder: Montgomery ladder, left-to-right binary. For bit
i the source updates R[not i] := R[i] + R[not i] and then R[i] := 2 R[i], the
doubling reading the not-yet-updated slot. -/
def mont_step (ec : CurveGroup) (R : JacPoint × JacPoint) (i : ℕ) : JacPoint × JacPoint :=
  if i = 1 then (add_jac ec R.2 R.1, double_jac ec R.2)
  else (double_jac ec R.1, add_jac ec R.1 R.2)

def mult_mont_ladder (ec : CurveGroup) (m : ℕ) (Q : JacPoint) : JacPoint :=
  (List.foldl (mont_step ec) (INFJ, Q) (bin_digits m)).1

/-- Embeds mult_base_3: triple and add, left-to-right ternary, over the table
T = [INFJ, Q, 2Q]. Every digit is below 3, so the list lookup never leaves the
table (the default of getD is never returned). -/
def mult_base_3 (ec : CurveGroup) (m : ℕ) (Q : JacPoint) : JacPoint :=
  let T := [INFJ, Q, double_jac ec Q]
  let digits := convert_number_to_base m 3
  let R := T.getD (digits.headD 0) INFJ
  List.foldl
    (fun R i =>
      let R2 := double_jac ec R
      let R3 := add_jac ec R2 R
      add_jac ec R3 (T.getD i INFJ))
    R digits.tail

/-- Embeds the loop of multiples: each iteration i = 3, 5, ... of
range(3, k * 2, 2) appends the double of T[(i - 1) // 2] and then that value
plus Q; on loop entry the length of T is i - 1, so (i - 1) // 2 is half the
current length. The argument n counts the remaining iterations. -/
def multiples_go (ec : CurveGroup) (Q : JacPoint) : ℕ → List JacPoint → List JacPoint
  | 0, T => T
  | n + 1, T =>
    let d := double_jac ec (T.getD (T.length / 2) INFJ)
    let s := add_jac ec d Q
    multiples_go ec Q n (T ++ [d, s])

/-- Embeds the body of multiples after the size check: with (k, odd) =
divmod(size, 2) the loop range(3, k * 2, 2) runs k - 1 times from T = [INFJ, Q],
and an odd size appends one final doubling of T[(size - 1) // 2]. -/
def multiples_list (ec : CurveGroup) (Q : JacPoint) (size : ℕ) : List JacPoint :=
  let k := size / 2
  let T := multiples_go ec Q (k - 1) [INFJ, Q]
  if size % 2 = 1 then T ++ [double_jac ec (T.getD ((size - 1) / 2) INFJ)] else T

/-- Embeds multiples: the table [0 * Q, 1 * Q, ..., (size - 1) * Q] in Jacobian
coordinates; sizes below 2 raise a ValueError. -/
def multiples (ec : CurveGroup) (Q : JacPoint) (size : ℤ) : Except String (List JacPoint) :=
  if size < 2 then .error "size too low"
  else .ok (multiples_list ec Q size.toNat)

/-- Embeds cached_multiples: the multiples table for the fixed maximum window
width 5 (32 entries); the lru_cache memoization is semantically transparent. -/
def cached_multiples (ec : CurveGroup) (Q : JacPoint) : List JacPoint :=
  multiples_go ec Q 15 [INFJ, Q]

/-- Embeds the per-window loop of cached_multiples_fixwind: n windows starting
from the running base point K; each window table is built exactly like
multiples(K, 2 ^ w) (the inner range(3, 2 ^ w, 2) runs 2 ^ (w - 1) - 1 times),
and the next base point is the double of sublist[2 ^ (w - 1)]. -/
def cmf_go (ec : CurveGroup) (w : ℕ) : ℕ → JacPoint → List (List JacPoint)
  | 0, _ => []
  | n + 1, K =>
    let sublist := multiples_go ec K (2 ^ (w - 1) - 1) [INFJ, K]
    let K2 := double_jac ec (sublist.getD (2 ^ (w - 1)) INFJ)
    sublist :: cmf_go ec w n K2

/-- Embeds cached_multiples_fixwind: (ec.psize * 8) // w + 1 window tables of
2 ^ w digit multiples each. -/
def cached_multiples_fixwind (ec : CurveGroup) (Q : JacPoint) (w : ℕ := 4) :
    List (List JacPoint) :=
  cmf_go ec w ((ec.psize * 8) / w + 1) Q

/-- Embeds mult_fixed_window with cached=False (the default): left-to-right
base 2 ^ w digits over the table multiples(Q, 2 ^ w), w doublings and one
addition per digit. Scalars are ℕ (the m < 0 raise) and theorems carry w at
least 1 (the w <= 0 raise). Digits are below 2 ^ w, so the lookups never leave
the table. -/
def mult_fixed_window (ec : CurveGroup) (m : ℕ) (Q : JacPoint) (w : ℕ := 4) : JacPoint :=
  let T := multiples_list ec Q (2 ^ w)
  let digits := convert_number_to_base m (2 ^ w)
  let R := T.getD (digits.headD 0) INFJ
  List.foldl
    (fun R i =>
      add_jac ec ((double_jac ec)^[w] R) (T.getD i INFJ))
    R digits.tail

/-- Embeds the binding mult = mult_fixed_window of the source (default w = 4). -/
def mult (ec : CurveGroup) (m : ℕ) (Q : JacPoint) : JacPoint :=
  mult_fixed_window ec m Q 4

/-- Table lookup T[k][i] of mult_fixed_window_cached; an out-of-range index is
the Python IndexError. -/
def table_get (T : List (List JacPoint)) (k i : ℕ) : Except String JacPoint :=
  match T[k]? with
  | none => .error "IndexError"
  | some sub =>
    match sub[i]? with
    | none => .error "IndexError"
    | some v => .ok v

/-- Embeds the addition loop of mult_fixed_window_cached: for each remaining
digit the window index k decreases by one and T[k][digit] is added. -/
def mfwc_loop (ec : CurveGroup) (T : List (List JacPoint)) :
    List ℕ → ℕ → JacPoint → Except String JacPoint
  | [], _, R => .ok R
  | d :: rest, k, R => do
    let t ← table_get T (k - 1) d
    mfwc_loop ec T rest (k - 1) (add_jac ec R t)

/-- Embeds mult_fixed_window_cached: only additions against the per-window
cached tables; the digit count of m decides whether every T[k] lookup is in
range. -/
def mult_fixed_window_cached (ec : CurveGroup) (m : ℕ) (Q : JacPoint) (w : ℕ := 4) :
    Except String JacPoint := do
  let T := cached_multiples_fixwind ec Q w
  let digits := convert_number_to_base m (2 ^ w)
  let k := digits.length - 1
  let R ← table_get T k (digits.headD 0)
  mfwc_loop ec T digits.tail k R

/-- Embeds the joint digit extraction of double_mult: the binary digit strings
of u and v are left-padded with zeros to a common length and combined
position-wise as u-bit + 2 * v-bit. -/
def joint_digits (u v : ℕ) : List ℕ :=
  let ub := bin_digits u
  let vb := bin_digits v
  let l := max ub.length vb.length
  let up := List.replicate (l - ub.length) 0 ++ ub
  let vp := List.replicate (l - vb.length) 0 ++ vb
  (up.zip vp).map fun jk => jk.1 + 2 * jk.2

/-- Embeds double_mult: Shamir-Strauss over the table [INFJ, H, Q, H + Q],
one doubling and one table addition per joint digit. -/
def double_mult (ec : CurveGroup) (u : ℕ) (HJ : JacPoint) (v : ℕ) (QJ : JacPoint) :
    JacPoint :=
  let T := [INFJ, HJ, QJ, add_jac ec HJ QJ]
  let digits := joint_digits u v
  let R := T.getD (digits.headD 0) INFJ
  List.foldl (fun R i => add_jac ec (double_jac ec R) (T.getD i INFJ)) R digits.tail

/-! Model of the CPython heapq module, which multi_mult uses through
heapify, heappop and heappush on pairs (negated scalar, Jacobian point).
Python orders such pairs lexicographically (full tuple comparison, so ties on
the scalar compare the point triples); the functions below are the list-state
versions of CPython _siftdown, _siftup, heappush, heappop and heapify. -/

/-- Heap entry of multi_mult: the pair (-n, PJ). -/
structure Entry where
  n : ℤ
  pt : JacPoint
deriving DecidableEq, Repr, Inhabited

/-- The lexicographic key realizing the Python tuple comparison on entries. -/
def Entry.key (e : Entry) : Lex (ℤ × Lex (ℤ × Lex (ℤ × ℤ))) :=
  toLex (e.n, toLex (e.pt.1, toLex (e.pt.2.1, e.pt.2.2)))

theorem Entry.key_injective : Function.Injective Entry.key := by
  rintro ⟨n₁, x₁, y₁, z₁⟩ ⟨n₂, x₂, y₂, z₂⟩ h
  simpa [Entry.key, Prod.ext_iff] using h

instance : LinearOrder Entry := LinearOrder.lift' Entry.key Entry.key_injective

theorem Entry.le_def (e₁ e₂ : Entry) : e₁ ≤ e₂ ↔ e₁.key ≤ e₂.key := Iff.rfl

theorem Entry.lt_def (e₁ e₂ : Entry) : e₁ < e₂ ↔ e₁.key < e₂.key := by
  rw [lt_iff_le_not_le, lt_iff_le_not_le, Entry.le_def, Entry.le_def]

/-- The first components of ordered entries are ordered: tuple comparison
looks at later components only on ties. -/
theorem Entry.n_le_of_le {e₁ e₂ : Entry} (h : e₁ ≤ e₂) : e₁.n ≤ e₂.n := by
  rw [Entry.le_def, Entry.key] at h
  rcases (Prod.Lex.le_iff _ _).mp h with h1 | h1
  · exact le_of_lt h1
  · exact le_of_eq h1.1

section Heapq

variable {α : Type} [LinearOrder α] [Inhabited α]

/-- CPython heapq._siftdown: newitem moves from pos toward startpos, shifting
down every strictly larger ancestor it passes. -/
def siftdown_go (newitem : α) (startpos : ℕ) (heap : List α) (pos : ℕ) : List α :=
  if h : startpos < pos then
    let parentpos := (pos - 1) / 2
    let parent := heap.getD parentpos default
    if newitem < parent then siftdown_go newitem startpos (heap.set pos parent) parentpos
    else heap.set pos newitem
  else heap.set pos newitem
termination_by pos
decreasing_by
  calc (pos - 1) / 2 ≤ pos - 1 := Nat.div_le_self _ _
    _ < pos := by omega

/-- CPython heapq._siftup, first phase: the hole at pos is repeatedly filled
with the smaller child, until reaching a leaf; returns the final hole position
(with newitem written there, as the source does before calling _siftdown). -/
def siftup_go (newitem : α) (heap : List α) (pos : ℕ) : List α × ℕ :=
  if h : 2 * pos + 1 < heap.length then
    let childpos := 2 * pos + 1
    let rightpos := childpos + 1
    let c := if rightpos < heap.length ∧
        ¬ heap.getD childpos default < heap.getD rightpos default
      then rightpos else childpos
    siftup_go newitem (heap.set pos (heap.getD c default)) c
  else (heap.set pos newitem, pos)
termination_by heap.length - pos
decreasing_by
  simp only [List.length_set]
  split <;> omega

/-- CPython heapq._siftup: sink the hole to a leaf, then bubble the item up. -/
def siftup (heap : List α) (pos : ℕ) : List α :=
  let r := siftup_go (heap.getD pos default) heap pos
  siftdown_go (heap.getD pos default) pos r.1 r.2

/-- CPython heapq.heappush. -/
def heappush (heap : List α) (item : α) : List α :=
  siftdown_go item 0 (heap ++ [item]) heap.length

/-- CPython heapq.heappop: pop the last element; if the heap remains nonempty
return the root after moving the last element there and sifting it up.
The IndexError on an empty heap is modelled by a default value; every call
site below is guarded by a nonemptiness check. -/
def heappop (heap : List α) : α × List α :=
  let lastelt := heap.getLast?.getD default
  let rem := heap.dropLast
  if rem.isEmpty then (lastelt, [])
  else (rem.headD default, siftup (rem.set 0 lastelt) 0)

/-- CPython heapq.heapify: siftup at n / 2 - 1, n / 2 - 2, ..., 0. -/
def heapify_go (heap : List α) : ℕ → List α
  | 0 => heap
  | i + 1 => heapify_go (siftup heap i) i

/-- CPython heapq.heapify. -/
def heapify (x : List α) : List α :=
  heapify_go x (x.length / 2)

end Heapq

/-- Embeds the filtering loop of multi_mult: zero scalars are dropped, a
negative scalar raises, and each kept pair is stored as (-n, PJ), in order. -/
def build_entries : List (ℤ × JacPoint) → Except String (List Entry)
  | [] => .ok []
  | nPJ :: rest =>
    if nPJ.1 = 0 then build_entries rest
    else if nPJ.1 < 0 then .error "negative coefficient"
    else do
      let x ← build_entries rest
      pure (⟨-nPJ.1, nPJ.2⟩ :: x)

/-- Embeds the Bos-Coster while loop of multi_mult. Termination of the Python
loop rests on the total scalar mass strictly decreasing (every kept scalar is
positive); the fuel argument is chosen by the caller to dominate that mass, and
a lemma shows the fuel-exhausted branch is unreachable from valid inputs. -/
def bc_loop (ec : CurveGroup) : ℕ → List Entry → Except String (List Entry)
  | 0, h => if h.length ≤ 1 then .ok h else .error "loop fuel exhausted"
  | fuel + 1, h =>
    if h.length ≤ 1 then .ok h
    else
      let r1 := heappop h
      let r2 := heappop r1.2
      let n1 := -r1.1.n
      let p1 := r1.1.pt
      let n2 := -r2.1.n
      let p2 := add_jac ec p1 r2.1.pt
      let h3 := if 0 < n1 - n2 then heappush r2.2 ⟨-(n1 - n2), p1⟩ else r2.2
      bc_loop ec fuel (heappush h3 ⟨-n2, p2⟩)

/-- Embeds multi_mult: length check, zero-dropping and negativity check while
building the (-n, PJ) heap entries, the Bos-Coster difference loop, and a final
single-scalar multiplication (the remaining scalar is positive, so the toNat
cast is exact). -/
def multi_mult (ec : CurveGroup) (scalars : List ℤ) (JPoints : List JacPoint) :
    Except String JacPoint := do
  if scalars.length ≠ JPoints.length then
    throw "mismatch between number of scalars and points"
  let x ← build_entries (scalars.zip JPoints)
  if x.isEmpty then pure INFJ
  else
    let fin ← bc_loop ec (scalars.map Int.toNat).sum (heapify x)
    let r := heappop fin
    pure (mult ec (-r.1.n).toNat r.1.pt)

/-! Semantic layer: residues in ZMod p and the Mathlib group of nonsingular
points of the short Weierstrass curve with coefficients a, b. -/

/-- The field size as a natural number. -/
abbrev CurveGroup.pn (ec : CurveGroup) : ℕ := ec.p.toNat

/-- The residue field (a field when p is prime). -/
abbrev CurveGroup.F (ec : CurveGroup) := ZMod ec.pn

/-- The conditions all semantic theorems assume: the constructor checks
(CurveGroup.valid) together with primality of p, which the constructor
establishes only probabilistically but the data model of the spec asserts. -/
def good (ec : CurveGroup) : Prop := ec.valid ∧ Nat.Prime ec.pn

instance (ec : CurveGroup) : Decidable (good ec) := inferInstanceAs (Decidable (_ ∧ _))

/-- The Mathlib short Weierstrass curve y^2 = x^3 + a x + b over the residue field. -/
def Wc (ec : CurveGroup) : WeierstrassCurve.Affine ec.F :=
  { a₁ := 0, a₂ := 0, a₃ := 0, a₄ := (ec.a : ec.F), a₆ := (ec.b : ec.F) }

section BridgeBasics

variable {ec : CurveGroup}

theorem pn_pos (h : good ec) : 0 < ec.pn :=
  h.2.pos

theorem p_eq_pn (h : good ec) : ec.p = (ec.pn : ℤ) :=
  (Int.toNat_of_nonneg (by have := h.1.1; omega)).symm

theorem p_ge_three (h : good ec) : 3 ≤ ec.p := by
  have h2 := h.1.1
  have hodd := h.1.2.1
  omega

/-- Reduction mod p is transparent to the residue map. -/
theorem cast_emod (h : good ec) (x : ℤ) : ((x % ec.p : ℤ) : ec.F) = (x : ec.F) := by
  rw [p_eq_pn h]
  exact_mod_cast (ZMod.intCast_eq_intCast_iff (x % (ec.pn : ℤ)) x ec.pn).mpr
    (Int.emod_emod_of_dvd x dvd_rfl)

theorem emod_nonneg_lt (h : good ec) (x : ℤ) : 0 ≤ x % ec.p ∧ x % ec.p < ec.p :=
  ⟨Int.emod_nonneg x (by have := h.1.1; omega), Int.emod_lt_of_pos x (by have := h.1.1; omega)⟩

/-- A residue-zero reduced integer is the literal zero. -/
theorem eq_zero_of_reduced (h : good ec) {x : ℤ} (h0 : 0 ≤ x) (hlt : x < ec.p)
    (hc : (x : ec.F) = 0) : x = 0 := by
  haveI : NeZero ec.pn := ⟨(pn_pos h).ne.symm⟩
  have : x % ec.p = x := Int.emod_eq_of_lt h0 hlt
  rw [p_eq_pn h] at this hlt
  have hdvd : (ec.pn : ℤ) ∣ x := by
    rwa [ZMod.intCast_zmod_eq_zero_iff_dvd] at hc
  rcases hdvd with ⟨c, rfl⟩
  rcases lt_trichotomy c 0 with hc' | hc' | hc'
  · nlinarith
  · simp [hc']
  · nlinarith

/-- The canonical reduced integer representative of a residue. -/
def canon (ec : CurveGroup) (u : ec.F) : ℤ := (u.val : ℤ)

theorem canon_range (h : good ec) (u : ec.F) : 0 ≤ canon ec u ∧ canon ec u < ec.p := by
  haveI : NeZero ec.pn := ⟨(pn_pos h).ne.symm⟩
  refine ⟨Int.ofNat_nonneg _, ?_⟩
  rw [p_eq_pn h]
  simp only [canon]
  exact_mod_cast ZMod.val_lt u

theorem cast_canon (h : good ec) (u : ec.F) : ((canon ec u : ℤ) : ec.F) = u := by
  haveI : NeZero ec.pn := ⟨(pn_pos h).ne.symm⟩
  simpa [canon] using ZMod.natCast_val u

/-- A reduced integer is determined by its residue. -/
theorem reduced_eq_canon (h : good ec) {x : ℤ} (h0 : 0 ≤ x) (hlt : x < ec.p) :
    x = canon ec ((x : ℤ) : ec.F) := by
  haveI : NeZero ec.pn := ⟨(pn_pos h).ne.symm⟩
  have h1 : ((x - canon ec ((x : ℤ) : ec.F) : ℤ) : ec.F) = 0 := by
    push_cast
    rw [cast_canon h]
    ring
  have h2 := canon_range h ((x : ℤ) : ec.F)
  have hdvd : (ec.pn : ℤ) ∣ (x - canon ec ((x : ℤ) : ec.F)) := by
    rwa [ZMod.intCast_zmod_eq_zero_iff_dvd] at h1
  have hp := p_eq_pn h
  rcases hdvd with ⟨c, hc⟩
  rcases lt_trichotomy c 0 with hc' | hc' | hc'
  · nlinarith
  · simp [hc'] at hc
    omega
  · nlinarith

/-- The residue of mod_inv is the field inverse. -/
theorem cast_mod_inv (h : good ec) (w : ℤ) :
    ((mod_inv w ec.p : ℤ) : ec.F) = ((w : ℤ) : ec.F)⁻¹ := by
  haveI : Fact (Nat.Prime ec.pn) := ⟨h.2⟩
  have h3 := p_ge_three h
  rw [mod_inv]
  push_cast
  rw [ZMod.natCast_val, ZMod.cast_id]
  have h4 : 3 ≤ ec.pn := by
    show 3 ≤ ec.p.toNat
    omega
  by_cases ha : ((w : ℤ) : ec.F) = 0
  · have hne : ec.pn - 2 ≠ 0 := by omega
    rw [ha, inv_zero, zero_pow hne]
  · have hfer := ZMod.pow_card_sub_one_eq_one ha
    have hsplit : ec.pn - 1 = (ec.pn - 2) + 1 := by omega
    rw [hsplit, pow_succ] at hfer
    exact eq_inv_of_mul_eq_one_left hfer

end BridgeBasics

section CurveBridge

variable {ec : CurveGroup}

theorem emod_eq_zero_iff_cast (h : good ec) (x : ℤ) :
    x % ec.p = 0 ↔ (x : ec.F) = 0 := by
  constructor
  · intro hx
    rw [← cast_emod h, hx]
    simp
  · intro hx
    have h1 := emod_nonneg_lt h x
    refine eq_zero_of_reduced h h1.1 h1.2 ?_
    rw [cast_emod h, hx]

theorem two_ne_zero_F (h : good ec) : (2 : ec.F) ≠ 0 := by
  intro h2
  rw [show ((2 : ec.F)) = ((2 : ℕ) : ec.F) by norm_cast,
    ZMod.natCast_zmod_eq_zero_iff_dvd] at h2
  have hle : ec.pn ≤ 2 := Nat.le_of_dvd (by norm_num) h2
  have hodd := h.1.2.1
  have hp := p_eq_pn h
  have h1 := h.1.1
  omega

theorem equation_iff_F (ec : CurveGroup) (x y : ec.F) :
    (Wc ec).Equation x y ↔ y ^ 2 = x ^ 3 + (ec.a : ec.F) * x + (ec.b : ec.F) := by
  rw [WeierstrassCurve.Affine.equation_iff]
  simp [Wc]

theorem Delta_ne_zero (h : good ec) : (Wc ec).Δ ≠ 0 := by
  haveI : Fact (Nat.Prime ec.pn) := ⟨h.2⟩
  have hΔ : (Wc ec).Δ = -16 * ((4 * ec.a ^ 3 + 27 * ec.b ^ 2 : ℤ) : ec.F) := by
    simp only [WeierstrassCurve.Δ, WeierstrassCurve.b₂, WeierstrassCurve.b₄,
      WeierstrassCurve.b₆, WeierstrassCurve.b₈, Wc]
    push_cast
    ring
  rw [hΔ]
  have h16 : (-16 : ec.F) ≠ 0 := by
    have h2 := two_ne_zero_F h
    intro hx
    apply h2
    have : (-16 : ec.F) = -(2 ^ 4) := by norm_num
    rw [this] at hx
    have : (2 : ec.F) ^ 4 = 0 := by
      have := neg_eq_zero.mp hx
      exact this
    exact pow_eq_zero_iff (by norm_num) |>.mp this
  have hd : ((4 * ec.a ^ 3 + 27 * ec.b ^ 2 : ℤ) : ec.F) ≠ 0 :=
    fun hx => h.1.2.2.2.2.2.2 ((emod_eq_zero_iff_cast h _).mpr hx)
  exact mul_ne_zero h16 hd

theorem nonsingular_of_equation (h : good ec) {x y : ec.F}
    (heq : (Wc ec).Equation x y) : (Wc ec).Nonsingular x y :=
  WeierstrassCurve.Affine.nonsingular_of_Δ_ne_zero (Wc ec) heq (Delta_ne_zero h)

/-- On a nonzero-discriminant curve a two-torsion point has nonvanishing
tangent numerator (the cubic and its derivative share no root). -/
theorem tangent_num_ne_zero (h : good ec) {x : ec.F}
    (hns : (Wc ec).Nonsingular x 0) : 3 * x ^ 2 + (ec.a : ec.F) ≠ 0 := by
  have h2 := (WeierstrassCurve.Affine.nonsingular_iff _ _ _).mp hns |>.2
  rcases h2 with h2 | h2
  · intro hx
    apply h2
    simp only [Wc] at *
    linear_combination -hx
  · exact absurd (by simp [Wc]) h2

/-- The negation formula of the Mathlib curve is plain y-negation here. -/
theorem negY_F (ec : CurveGroup) (x y : ec.F) : (Wc ec).negY x y = -y := by
  simp [WeierstrassCurve.Affine.negY, Wc]

/-- Rewriting a some-point along coordinate equalities. -/
theorem some_congr {x₁ y₁ x₂ y₂ : ec.F} (hx : x₁ = x₂) (hy : y₁ = y₂)
    (h₁ : (Wc ec).Nonsingular x₁ y₁) :
    ∃ h₂ : (Wc ec).Nonsingular x₂ y₂,
      WeierstrassCurve.Affine.Point.some h₁ = WeierstrassCurve.Affine.Point.some h₂ := by
  subst hx
  subst hy
  exact ⟨h₁, rfl⟩

end CurveBridge

/-! The Jacobian representation relation: JacRepr ec J P states that the
integer triple J is a well-formed Jacobian representative (as produced and
consumed by the curvegroup code) of the Mathlib point P. A finite
representative (Z nonzero) has reduced coordinates and carries the curve
equation at the affine image (the residues x, y with x Z^2 = X and
y Z^3 = Y); an infinity representative (Z = 0) has X = t^2 and Y = t^3 mod p
for some nonzero t, the shape of INFJ = (1, 1, 0) and of every Z = 0 triple
the addition and doubling formulas emit, which keeps X nonzero mod p and
hence keeps the early doubling branch of add_jac from firing against it. -/
def JacRepr (ec : CurveGroup) (J : JacPoint) (P : (Wc ec).Point) : Prop :=
  (0 ≤ J.1 ∧ J.1 < ec.p ∧ 0 ≤ J.2.1 ∧ J.2.1 < ec.p ∧ 0 ≤ J.2.2 ∧ J.2.2 < ec.p) ∧
    ((J.2.2 = 0 ∧ P = 0 ∧
        ∃ t : ec.F, t ≠ 0 ∧ (J.1 : ec.F) = t ^ 2 ∧ (J.2.1 : ec.F) = t ^ 3) ∨
      (J.2.2 ≠ 0 ∧
        ∃ (x y : ec.F) (hns : (Wc ec).Nonsingular x y),
          x * ((J.2.2 : ec.F)) ^ 2 = (J.1 : ec.F) ∧
          y * ((J.2.2 : ec.F)) ^ 3 = (J.2.1 : ec.F) ∧
          P = WeierstrassCurve.Affine.Point.some hns))

theorem JacRepr_INFJ {ec : CurveGroup} (h : good ec) : JacRepr ec INFJ 0 := by
  have h3 := p_ge_three h
  refine ⟨by simp [INFJ]; omega, Or.inl ⟨rfl, rfl, 1, ?_, by simp [INFJ], by simp [INFJ]⟩⟩
  haveI : Fact (Nat.Prime ec.pn) := ⟨h.2⟩
  exact one_ne_zero

section JacOps

variable {ec : CurveGroup}

theorem cast_ne_zero_of_range (h : good ec) {z : ℤ} (h0 : 0 ≤ z) (hlt : z < ec.p)
    (hz : z ≠ 0) : (z : ec.F) ≠ 0 :=
  fun hc => hz (eq_zero_of_reduced h h0 hlt hc)

theorem emod_ne_zero_iff_cast (h : good ec) (x : ℤ) :
    x % ec.p ≠ 0 ↔ (x : ec.F) ≠ 0 :=
  not_congr (emod_eq_zero_iff_cast h x)

set_option maxHeartbeats 1000000 in
/-- Doubling a well-formed Jacobian representative yields a well-formed
representative of the doubled group point. -/
theorem double_jac_repr [hp : Fact (Nat.Prime ec.pn)] (hv : ec.valid)
    {Q : JacPoint} {P : (Wc ec).Point}
    (hQ : JacRepr ec Q P) : JacRepr ec (double_jac ec Q) (P + P) := by
  have h : good ec := ⟨hv, hp.out⟩
  obtain ⟨X, Y, Z⟩ := Q
  obtain ⟨⟨hx0, hx1, hy0, hy1, hz0, hz1⟩, hQ2⟩ := hQ
  simp only at hx0 hx1 hy0 hy1 hz0 hz1 hQ2
  simp only [double_jac, JacRepr]
  refine ⟨⟨(emod_nonneg_lt h _).1, (emod_nonneg_lt h _).2, (emod_nonneg_lt h _).1,
    (emod_nonneg_lt h _).2, (emod_nonneg_lt h _).1, (emod_nonneg_lt h _).2⟩, ?_⟩
  rcases hQ2 with ⟨hz, hP, t, ht, hxt, hyt⟩ | ⟨hz, x, y, hns, hx, hy, hP⟩
  · -- infinity representative: Z = 0 literally, the result is again one
    subst hz hP
    refine Or.inl ⟨by simp, by rw [add_zero], t ^ 4, pow_ne_zero _ ht, ?_, ?_⟩
    · rw [cast_emod h]
      push_cast
      rw [hxt, hyt]
      ring
    · rw [cast_emod h]
      push_cast
      rw [hxt, hyt]
      ring
  · -- finite representative
    have hzF : (Z : ec.F) ≠ 0 := cast_ne_zero_of_range h hz0 hz1 hz
    have h2F : (2 : ec.F) ≠ 0 := two_ne_zero_F h
    by_cases hY : y = 0
    · -- two-torsion: the double is an infinity representative
      subst hY hP
      have hY0 : Y = 0 := by
        refine eq_zero_of_reduced h hy0 hy1 ?_
        rw [← hy]
        ring
      subst hY0
      have htan := tangent_num_ne_zero h hns
      have hW : (3 * (X : ec.F) * (X : ec.F) +
          (ec.a : ec.F) * ((Z : ec.F) * (Z : ec.F)) * ((Z : ec.F) * (Z : ec.F))) ≠ 0 := by
        have hwz : (3 * (X : ec.F) * (X : ec.F) +
            (ec.a : ec.F) * ((Z : ec.F) * (Z : ec.F)) * ((Z : ec.F) * (Z : ec.F))) =
            ((Z : ec.F)) ^ 4 * (3 * x ^ 2 + (ec.a : ec.F)) := by
          rw [← hx]
          ring
        rw [hwz]
        exact mul_ne_zero (pow_ne_zero _ hzF) htan
      refine Or.inl ⟨by simp, ?_, ?_⟩
      · rw [WeierstrassCurve.Affine.Point.add_of_Y_eq rfl (by rw [negY_F]; simp)]
      · refine ⟨-(3 * (X : ec.F) * (X : ec.F) +
          (ec.a : ec.F) * ((Z : ec.F) * (Z : ec.F)) * ((Z : ec.F) * (Z : ec.F))), ?_, ?_, ?_⟩
        · rwa [neg_ne_zero]
        · rw [cast_emod h]
          push_cast
          ring
        · rw [cast_emod h]
          push_cast
          ring
    · -- ordinary doubling
      have hy2 : y ≠ (Wc ec).negY x y := by
        rw [negY_F]
        intro hc
        apply hY
        have hmul : (2 : ec.F) * y = 0 := by linear_combination hc
        rcases mul_eq_zero.mp hmul with hc2 | hc2
        · exact absurd hc2 h2F
        · exact hc2
      have hYF : (Y : ec.F) ≠ 0 := by
        rw [← hy]
        exact mul_ne_zero hY (pow_ne_zero _ hzF)
      have hadd : P + P = WeierstrassCurve.Affine.Point.some
          (WeierstrassCurve.Affine.nonsingular_add hns hns (fun _ => hy2)) := by
        rw [hP]
        exact WeierstrassCurve.Affine.Point.add_self_of_Y_ne hy2
      have hL : (Wc ec).slope x x y y = (3 * x ^ 2 + (ec.a : ec.F)) / (2 * y) := by
        rw [WeierstrassCurve.Affine.slope_of_Y_ne rfl hy2, negY_F]
        simp only [Wc]
        ring_nf
      refine Or.inr ⟨?_, ?_⟩
      · rw [emod_ne_zero_iff_cast h]
        push_cast
        exact mul_ne_zero (mul_ne_zero h2F hYF) hzF
      · refine ⟨(Wc ec).addX x x ((Wc ec).slope x x y y),
          (Wc ec).addY x x y ((Wc ec).slope x x y y),
          WeierstrassCurve.Affine.nonsingular_add hns hns (fun _ => hy2), ?_, ?_, hadd⟩
        · rw [hL, cast_emod h, cast_emod h]
          simp only [WeierstrassCurve.Affine.addX, Wc]
          push_cast
          rw [← hx, ← hy]
          field_simp
          ring
        · rw [hL, cast_emod h, cast_emod h]
          simp only [WeierstrassCurve.Affine.addY, WeierstrassCurve.Affine.negAddY,
            WeierstrassCurve.Affine.addX, WeierstrassCurve.Affine.negY, Wc]
          push_cast
          rw [← hx, ← hy]
          field_simp
          ring

theorem emod_eq_emod_iff_cast (h : good ec) (a b : ℤ) :
    a % ec.p = b % ec.p ↔ (a : ec.F) = (b : ec.F) := by
  rw [p_eq_pn h]
  exact ⟨fun hx => (ZMod.intCast_eq_intCast_iff a b ec.pn).mpr hx,
    fun hx => (ZMod.intCast_eq_intCast_iff a b ec.pn).mp hx⟩

/-- Two curve points with the same x-coordinate have opposite or equal
y-coordinates. -/
theorem y_eq_or_neg [hp : Fact (Nat.Prime ec.pn)] {x y₁ y₂ : ec.F}
    (h₁ : (Wc ec).Equation x y₁) (h₂ : (Wc ec).Equation x y₂) :
    y₂ = y₁ ∨ y₂ = -y₁ := by
  have e₁ := (equation_iff_F ec x y₁).mp h₁
  have e₂ := (equation_iff_F ec x y₂).mp h₂
  have hfac : (y₂ - y₁) * (y₂ + y₁) = 0 := by linear_combination e₂ - e₁
  rcases mul_eq_zero.mp hfac with hc | hc
  · left
    linear_combination hc
  · right
    linear_combination hc

set_option maxHeartbeats 1600000 in
/-- Adding well-formed Jacobian representatives yields a well-formed
representative of the group sum: the central correctness statement for
add_jac, covering the early doubling branch, the infinity selection and the
incomplete addition formula. -/
theorem add_jac_repr [hp : Fact (Nat.Prime ec.pn)] (hv : ec.valid)
    {Q R : JacPoint} {PQ PR : (Wc ec).Point}
    (hQ : JacRepr ec Q PQ) (hR : JacRepr ec R PR) :
    JacRepr ec (add_jac ec Q R) (PQ + PR) := by
  have h : good ec := ⟨hv, hp.out⟩
  obtain ⟨QX, QY, QZ⟩ := Q
  obtain ⟨RX, RY, RZ⟩ := R
  obtain ⟨⟨hqx0, hqx1, hqy0, hqy1, hqz0, hqz1⟩, hQ2⟩ := hQ
  obtain ⟨⟨hrx0, hrx1, hry0, hry1, hrz0, hrz1⟩, hR2⟩ := hR
  simp only at hqx0 hqx1 hqy0 hqy1 hqz0 hqz1 hQ2 hrx0 hrx1 hry0 hry1 hrz0 hrz1 hR2
  rcases hQ2 with ⟨hqz, hPQ, t, ht, hqxt, hqyt⟩ | ⟨hqz, x₁, y₁, hns₁, hx₁, hy₁, hPQ⟩
  · rcases hR2 with ⟨hrz, hPR, s, hs, hrxs, hrys⟩ | ⟨hrz, x₂, y₂, hns₂, hx₂, hy₂, hPR⟩
    · -- infinity plus infinity: the doubling branch fires and doubles Q
      subst hqz hrz
      have heq : add_jac ec (QX, QY, 0) (RX, RY, 0) = double_jac ec (QX, QY, 0) := by
        simp only [add_jac, double_jac]
        rw [if_pos (by norm_num)]
      rw [heq, hPQ, hPR]
      have hd : JacRepr ec (double_jac ec (QX, QY, 0)) ((0 : (Wc ec).Point) + 0) :=
        double_jac_repr hv ⟨⟨hqx0, hqx1, hqy0, hqy1, hqz0, hqz1⟩,
          Or.inl ⟨rfl, rfl, t, ht, hqxt, hqyt⟩⟩
      simpa using hd
    · -- infinity plus finite: the selection returns R
      subst hqz
      have hrzF : (RZ : ec.F) ≠ 0 := cast_ne_zero_of_range h hrz0 hrz1 hrz
      have hMN : ¬ ((QX * (RZ * RZ)) % ec.p = (RX * (0 * 0)) % ec.p ∧
          (QY * (RZ * RZ * RZ)) % ec.p = (RY * (0 * 0 * 0)) % ec.p) := by
        rintro ⟨hc, -⟩
        rw [emod_eq_emod_iff_cast h] at hc
        push_cast at hc
        rw [hqxt] at hc
        exact mul_ne_zero (pow_ne_zero 2 ht) (mul_ne_zero hrzF hrzF) (by linear_combination hc)
      have heq : add_jac ec (QX, QY, 0) (RX, RY, RZ) = (RX, RY, RZ) := by
        simp only [add_jac]
        rw [if_neg hMN]
        simp [hrz]
      rw [heq, hPQ, zero_add]
      exact ⟨⟨hrx0, hrx1, hry0, hry1, hrz0, hrz1⟩,
        Or.inr ⟨hrz, x₂, y₂, hns₂, hx₂, hy₂, hPR⟩⟩
  · rcases hR2 with ⟨hrz, hPR, s, hs, hrxs, hrys⟩ | ⟨hrz, x₂, y₂, hns₂, hx₂, hy₂, hPR⟩
    · -- finite plus infinity: the selection returns Q
      subst hrz
      have hqzF : (QZ : ec.F) ≠ 0 := cast_ne_zero_of_range h hqz0 hqz1 hqz
      have hMN : ¬ ((QX * (0 * 0)) % ec.p = (RX * (QZ * QZ)) % ec.p ∧
          (QY * (0 * 0 * 0)) % ec.p = (RY * (QZ * QZ * QZ)) % ec.p) := by
        rintro ⟨hc, -⟩
        rw [emod_eq_emod_iff_cast h] at hc
        push_cast at hc
        rw [hrxs] at hc
        exact mul_ne_zero (pow_ne_zero 2 hs) (mul_ne_zero hqzF hqzF) (by linear_combination - hc)
      have heq : add_jac ec (QX, QY, QZ) (RX, RY, 0) = (QX, QY, QZ) := by
        simp only [add_jac]
        rw [if_neg hMN]
        simp [hqz]
      rw [heq, hPR, add_zero]
      exact ⟨⟨hqx0, hqx1, hqy0, hqy1, hqz0, hqz1⟩,
        Or.inr ⟨hqz, x₁, y₁, hns₁, hx₁, hy₁, hPQ⟩⟩
    · -- finite plus finite
      have hqzF : (QZ : ec.F) ≠ 0 := cast_ne_zero_of_range h hqz0 hqz1 hqz
      have hrzF : (RZ : ec.F) ≠ 0 := cast_ne_zero_of_range h hrz0 hrz1 hrz
      have h2F : (2 : ec.F) ≠ 0 := two_ne_zero_F h
      by_cases hxx : x₁ = x₂
      · have hMN : (QX * (RZ * RZ)) % ec.p = (RX * (QZ * QZ)) % ec.p := by
          rw [emod_eq_emod_iff_cast h]
          push_cast
          rw [← hx₁, ← hx₂, hxx]
          ring
        by_cases hyy : y₂ = y₁
        · -- the same affine point: the doubling branch fires
          have hTU : (QY * (RZ * RZ * RZ)) % ec.p = (RY * (QZ * QZ * QZ)) % ec.p := by
            rw [emod_eq_emod_iff_cast h]
            push_cast
            rw [← hy₁, ← hy₂, hyy]
            ring
          have heq : add_jac ec (QX, QY, QZ) (RX, RY, RZ) = double_jac ec (QX, QY, QZ) := by
            simp only [add_jac, double_jac]
            rw [if_pos ⟨hMN, hTU⟩]
          have hPP : PR = PQ := by
            rw [hPQ, hPR]
            subst hxx
            subst hyy
            rfl
          rw [heq, hPP]
          exact double_jac_repr hv ⟨⟨hqx0, hqx1, hqy0, hqy1, hqz0, hqz1⟩,
            Or.inr ⟨hqz, x₁, y₁, hns₁, hx₁, hy₁, hPQ⟩⟩
        · -- opposite points: the incomplete formula emits a Z = 0 triple
          subst hxx
          have hyy2 : y₂ = -y₁ := by
            rcases y_eq_or_neg hns₁.1 hns₂.1 with hc | hc
            · exact absurd hc hyy
            · exact hc
          subst hyy2
          have hy1ne : y₁ ≠ 0 := by
            intro hc
            exact hyy (by rw [hc, neg_zero])
          have hTU : ¬ ((QY * (RZ * RZ * RZ)) % ec.p = (RY * (QZ * QZ * QZ)) % ec.p) := by
            intro hc
            rw [emod_eq_emod_iff_cast h] at hc
            push_cast at hc
            rw [← hy₁, ← hy₂] at hc
            have hfac : (2 * y₁) * ((QZ : ec.F) ^ 3 * (RZ : ec.F) ^ 3) = 0 := by
              linear_combination hc
            rcases mul_eq_zero.mp hfac with hc2 | hc2
            · rcases mul_eq_zero.mp hc2 with hc3 | hc3
              · exact h2F hc3
              · exact hy1ne hc3
            · rcases mul_eq_zero.mp hc2 with hc3 | hc3
              · exact pow_ne_zero 3 hqzF hc3
              · exact pow_ne_zero 3 hrzF hc3
          have hcond : ¬ ((QX * (RZ * RZ)) % ec.p = (RX * (QZ * QZ)) % ec.p ∧
              (QY * (RZ * RZ * RZ)) % ec.p = (RY * (QZ * QZ * QZ)) % ec.p) :=
            fun hc => hTU hc.2
          simp only [add_jac, JacRepr]
          rw [if_neg hcond, if_neg hqz, if_neg hrz]
          refine ⟨⟨(emod_nonneg_lt h _).1, (emod_nonneg_lt h _).2, (emod_nonneg_lt h _).1,
            (emod_nonneg_lt h _).2, (emod_nonneg_lt h _).1, (emod_nonneg_lt h _).2⟩, ?_⟩
          have hZ0 : (RX * (QZ * QZ) - QX * (RZ * RZ)) * QZ * RZ % ec.p = 0 := by
            rw [emod_eq_zero_iff_cast h]
            push_cast
            rw [← hx₁, ← hx₂]
            ring
          refine Or.inl ⟨hZ0, ?_, ?_⟩
          · rw [hPQ, hPR]
            refine WeierstrassCurve.Affine.Point.add_of_Y_eq rfl ?_
            rw [negY_F, neg_neg]
          · refine ⟨(QY : ec.F) * (RZ : ec.F) ^ 3 - (RY : ec.F) * (QZ : ec.F) ^ 3, ?_, ?_, ?_⟩
            · rw [← hy₁, ← hy₂]
              intro hc
              have hfac : (2 * y₁) * ((QZ : ec.F) ^ 3 * (RZ : ec.F) ^ 3) = 0 := by
                linear_combination hc
              rcases mul_eq_zero.mp hfac with hc2 | hc2
              · rcases mul_eq_zero.mp hc2 with hc3 | hc3
                · exact h2F hc3
                · exact hy1ne hc3
              · rcases mul_eq_zero.mp hc2 with hc3 | hc3
                · exact pow_ne_zero 3 hqzF hc3
                · exact pow_ne_zero 3 hrzF hc3
            · push_cast [cast_emod h]
              rw [← hx₁, ← hx₂, ← hy₁, ← hy₂]
              ring
            · push_cast [cast_emod h]
              rw [← hx₁, ← hx₂, ← hy₁, ← hy₂]
              ring
      · -- distinct x-coordinates: the incomplete addition formula
        have hx12 : x₁ - x₂ ≠ 0 := sub_ne_zero.mpr hxx
        have hMN : ¬ ((QX * (RZ * RZ)) % ec.p = (RX * (QZ * QZ)) % ec.p) := by
          intro hc
          rw [emod_eq_emod_iff_cast h] at hc
          push_cast at hc
          rw [← hx₁, ← hx₂] at hc
          have hfac : (x₁ - x₂) * ((QZ : ec.F) ^ 2 * (RZ : ec.F) ^ 2) = 0 := by
            linear_combination hc
          rcases mul_eq_zero.mp hfac with hc2 | hc2
          · exact hx12 hc2
          · rcases mul_eq_zero.mp hc2 with hc3 | hc3
            · exact pow_ne_zero 2 hqzF hc3
            · exact pow_ne_zero 2 hrzF hc3
        have hcond : ¬ ((QX * (RZ * RZ)) % ec.p = (RX * (QZ * QZ)) % ec.p ∧
            (QY * (RZ * RZ * RZ)) % ec.p = (RY * (QZ * QZ * QZ)) % ec.p) :=
          fun hc => hMN hc.1
        have hL : (Wc ec).slope x₁ x₂ y₁ y₂ = (y₁ - y₂) / (x₁ - x₂) :=
          WeierstrassCurve.Affine.slope_of_X_ne hxx
        have hadd : PQ + PR = WeierstrassCurve.Affine.Point.some
            (WeierstrassCurve.Affine.nonsingular_add hns₁ hns₂ (fun hc => absurd hc hxx)) := by
          rw [hPQ, hPR]
          exact WeierstrassCurve.Affine.Point.add_of_X_ne hxx
        simp only [add_jac, JacRepr]
        rw [if_neg hcond, if_neg hqz, if_neg hrz]
        refine ⟨⟨(emod_nonneg_lt h _).1, (emod_nonneg_lt h _).2, (emod_nonneg_lt h _).1,
          (emod_nonneg_lt h _).2, (emod_nonneg_lt h _).1, (emod_nonneg_lt h _).2⟩, ?_⟩
        refine Or.inr ⟨?_, ?_⟩
        · rw [emod_ne_zero_iff_cast h]
          push_cast
          rw [← hx₁, ← hx₂]
          intro hc
          have hfac : ((x₂ - x₁) * ((QZ : ec.F) ^ 2 * (RZ : ec.F) ^ 2)) * ((QZ:ec.F) * (RZ:ec.F)) = 0 := by
            linear_combination hc
          rcases mul_eq_zero.mp hfac with hc2 | hc2
          · rcases mul_eq_zero.mp hc2 with hc3 | hc3
            · exact hx12 (by linear_combination - hc3)
            · rcases mul_eq_zero.mp hc3 with hc4 | hc4
              · exact pow_ne_zero 2 hqzF hc4
              · exact pow_ne_zero 2 hrzF hc4
          · rcases mul_eq_zero.mp hc2 with hc3 | hc3
            · exact hqzF hc3
            · exact hrzF hc3
        · refine ⟨(Wc ec).addX x₁ x₂ ((Wc ec).slope x₁ x₂ y₁ y₂),
            (Wc ec).addY x₁ x₂ y₁ ((Wc ec).slope x₁ x₂ y₁ y₂),
            WeierstrassCurve.Affine.nonsingular_add hns₁ hns₂ (fun hc => absurd hc hxx),
            ?_, ?_, hadd⟩
          · rw [hL]
            simp only [WeierstrassCurve.Affine.addX, Wc]
            push_cast [cast_emod h]
            rw [← hx₁, ← hx₂, ← hy₁, ← hy₂]
            field_simp
            ring
          · rw [hL]
            simp only [WeierstrassCurve.Affine.addY, WeierstrassCurve.Affine.negAddY,
              WeierstrassCurve.Affine.addX, WeierstrassCurve.Affine.negY, Wc]
            push_cast [cast_emod h]
            rw [← hx₁, ← hx₂, ← hy₁, ← hy₂]
            field_simp
            ring

theorem aff_from_jac_zero_z {ec : CurveGroup} {J : JacPoint} (hz : J.2.2 = 0) :
    aff_from_jac ec J = INF := by
  simp [aff_from_jac, hz]

/-- The affine image of a finite representative is the canonical reduced
coordinate pair of its residue point. -/
theorem aff_from_jac_finite (h : good ec) {J : JacPoint} {x y : ec.F} (hz : J.2.2 ≠ 0)
    (hx : x * ((J.2.2 : ec.F)) ^ 2 = (J.1 : ec.F))
    (hy : y * ((J.2.2 : ec.F)) ^ 3 = (J.2.1 : ec.F))
    (hzr0 : 0 ≤ J.2.2) (hzr1 : J.2.2 < ec.p) :
    aff_from_jac ec J = (canon ec x, canon ec y) := by
  haveI : Fact (Nat.Prime ec.pn) := ⟨h.2⟩
  have hzF : (J.2.2 : ec.F) ≠ 0 := cast_ne_zero_of_range h hzr0 hzr1 hz
  simp only [aff_from_jac, if_neg hz]
  have hφ1 : (((J.1 * mod_inv (J.2.2 * J.2.2) ec.p) % ec.p : ℤ) : ec.F) = x := by
    rw [cast_emod h]
    push_cast
    rw [cast_mod_inv h, ← hx]
    push_cast
    field_simp
    left
    ring
  have hφ2 : (((J.2.1 * mod_inv (J.2.2 * J.2.2 * J.2.2) ec.p) % ec.p : ℤ) : ec.F) = y := by
    rw [cast_emod h]
    push_cast
    rw [cast_mod_inv h, ← hy]
    push_cast
    field_simp
    left
    ring
  refine Prod.ext ?_ ?_
  · show (J.1 * mod_inv (J.2.2 * J.2.2) ec.p) % ec.p = canon ec x
    calc (J.1 * mod_inv (J.2.2 * J.2.2) ec.p) % ec.p
        = canon ec (((J.1 * mod_inv (J.2.2 * J.2.2) ec.p) % ec.p : ℤ) : ec.F) :=
          reduced_eq_canon h (emod_nonneg_lt h _).1 (emod_nonneg_lt h _).2
      _ = canon ec x := by rw [hφ1]
  · show (J.2.1 * mod_inv (J.2.2 * J.2.2 * J.2.2) ec.p) % ec.p = canon ec y
    calc (J.2.1 * mod_inv (J.2.2 * J.2.2 * J.2.2) ec.p) % ec.p
        = canon ec (((J.2.1 * mod_inv (J.2.2 * J.2.2 * J.2.2) ec.p) % ec.p : ℤ) : ec.F) :=
          reduced_eq_canon h (emod_nonneg_lt h _).1 (emod_nonneg_lt h _).2
      _ = canon ec y := by rw [hφ2]

/-- Any two well-formed representatives of the same group point have the same
affine image: the basis for the pairwise agreement of the multiplication
algorithms. -/
theorem aff_eq_of_repr (h : good ec) {J K : JacPoint} {P : (Wc ec).Point}
    (hJ : JacRepr ec J P) (hK : JacRepr ec K P) :
    aff_from_jac ec J = aff_from_jac ec K := by
  obtain ⟨hJr, hJ2⟩ := hJ
  obtain ⟨hKr, hK2⟩ := hK
  rcases hJ2 with ⟨hz₁, hP₁, -⟩ | ⟨hz₁, x₁, y₁, hns₁, hx₁, hy₁, hP₁⟩ <;>
    rcases hK2 with ⟨hz₂, hP₂, -⟩ | ⟨hz₂, x₂, y₂, hns₂, hx₂, hy₂, hP₂⟩
  · rw [aff_from_jac_zero_z hz₁, aff_from_jac_zero_z hz₂]
  · rw [hP₁] at hP₂
    exact absurd hP₂.symm (WeierstrassCurve.Affine.Point.some_ne_zero hns₂)
  · rw [hP₂] at hP₁
    exact absurd hP₁.symm (WeierstrassCurve.Affine.Point.some_ne_zero hns₁)
  · rw [hP₁] at hP₂
    have hinj := hP₂
    injection hinj with hx hy
    subst hx
    subst hy
    rw [aff_from_jac_finite h hz₁ hx₁ hy₁ hJr.2.2.2.2.1 hJr.2.2.2.2.2,
      aff_from_jac_finite h hz₂ hx₂ hy₂ hKr.2.2.2.2.1 hKr.2.2.2.2.2]

/-- A representative of the zero point has a vanishing Z component. -/
theorem repr_zero_z (h : good ec) {J : JacPoint} (hJ : JacRepr ec J 0) : J.2.2 = 0 := by
  rcases hJ.2 with ⟨hz, -⟩ | ⟨-, x, y, hns, -, -, hP⟩
  · exact hz
  · exact absurd hP.symm (WeierstrassCurve.Affine.Point.some_ne_zero hns)

/-! The affine representation relation and the correctness of the affine
primitives. The affine code conflates every point with vanishing y with the
infinity; on a curve whose cubic has no root (no_two_torsion) the only
zero-y values that ever arise are the INF constant itself, and the affine
primitives realize the group law. -/

/-- The curve has no rational two-torsion: the cubic has no root. The spec
itself relies on this (its data model argues y = 0 cannot occur on curves of
interest); on a curve with a rational root of the cubic the affine encoding
collapses a genuine two-torsion point with the infinity. -/
def no_two_torsion (ec : CurveGroup) : Prop :=
  ∀ u : ec.F, u ^ 3 + (ec.a : ec.F) * u + (ec.b : ec.F) ≠ 0

/-- AffRepr ec P Pt: the integer pair P is the canonical affine encoding of
the group point Pt: the INF constant for zero, else reduced coordinates with
nonzero y satisfying the curve equation. -/
def AffRepr (ec : CurveGroup) (P : Point) (Pt : (Wc ec).Point) : Prop :=
  (P = INF ∧ Pt = 0) ∨
    (0 ≤ P.1 ∧ P.1 < ec.p ∧ 0 < P.2 ∧ P.2 < ec.p ∧
      ∃ hns : (Wc ec).Nonsingular ((P.1 : ℤ) : ec.F) ((P.2 : ℤ) : ec.F),
        Pt = WeierstrassCurve.Affine.Point.some hns)

theorem reduced_cast_inj (h : good ec) {a b : ℤ} (ha0 : 0 ≤ a) (ha1 : a < ec.p)
    (hb0 : 0 ≤ b) (hb1 : b < ec.p) (hc : (a : ec.F) = (b : ec.F)) : a = b := by
  rw [reduced_eq_canon h ha0 ha1, reduced_eq_canon h hb0 hb1, hc]

/-- Existence transfer for some-points along coordinate equalities. -/
theorem some_eq_of_coords {x₁ y₁ x₂ y₂ : ec.F}
    (h₁ : (Wc ec).Nonsingular x₁ y₁) {P : (Wc ec).Point}
    (hP : P = WeierstrassCurve.Affine.Point.some h₁) (hx : x₁ = x₂) (hy : y₁ = y₂) :
    ∃ h₂ : (Wc ec).Nonsingular x₂ y₂, P = WeierstrassCurve.Affine.Point.some h₂ := by
  subst hx
  subst hy
  exact ⟨h₁, hP⟩

/-- A finite result of the group-law formulas cannot have a vanishing
y-coordinate on a curve without two-torsion. -/
theorem result_y_ne_zero [hp : Fact (Nat.Prime ec.pn)] (hnt : no_two_torsion ec)
    {x y : ec.F} (hns : (Wc ec).Nonsingular x y) : y ≠ 0 := by
  intro hc
  have heq := (equation_iff_F ec x y).mp hns.1
  rw [hc] at heq
  exact hnt x (by linear_combination - heq)

set_option maxHeartbeats 1000000 in
/-- The affine doubling primitive realizes the group law on canonical
representatives, on a curve without two-torsion. -/
theorem double_aff_repr [hp : Fact (Nat.Prime ec.pn)] (hv : ec.valid)
    (hnt : no_two_torsion ec) {P : Point} {Pt : (Wc ec).Point}
    (hP : AffRepr ec P Pt) : AffRepr ec (double_aff ec P) (Pt + Pt) := by
  have h : good ec := ⟨hv, hp.out⟩
  obtain ⟨X, Y⟩ := P
  rcases hP with ⟨hP, hPt⟩ | ⟨hx0, hx1, hy0, hy1, hns, hPt⟩
  · rw [hP, hPt]
    exact Or.inl ⟨by simp [double_aff, INF], by rw [add_zero]⟩
  · simp only at hx0 hx1 hy0 hy1 hns hPt
    have hYne : Y ≠ 0 := by omega
    have hYF : ((Y : ℤ) : ec.F) ≠ 0 := cast_ne_zero_of_range h (by omega) hy1 hYne
    have h2F : (2 : ec.F) ≠ 0 := two_ne_zero_F h
    have hy2 : ((Y : ℤ) : ec.F) ≠ (Wc ec).negY ((X : ℤ) : ec.F) ((Y : ℤ) : ec.F) := by
      rw [negY_F]
      intro hc
      apply hYF
      have hmul : (2 : ec.F) * ((Y : ℤ) : ec.F) = 0 := by linear_combination hc
      rcases mul_eq_zero.mp hmul with hc2 | hc2
      · exact absurd hc2 h2F
      · exact hc2
    have hadd : Pt + Pt = WeierstrassCurve.Affine.Point.some
        (WeierstrassCurve.Affine.nonsingular_add hns hns (fun _ => hy2)) := by
      rw [hPt]
      exact WeierstrassCurve.Affine.Point.add_self_of_Y_ne hy2
    have hL : (Wc ec).slope ((X : ℤ) : ec.F) ((X : ℤ) : ec.F) ((Y : ℤ) : ec.F) ((Y : ℤ) : ec.F) =
        (3 * ((X : ℤ) : ec.F) ^ 2 + (ec.a : ec.F)) / (2 * ((Y : ℤ) : ec.F)) := by
      rw [WeierstrassCurve.Affine.slope_of_Y_ne rfl hy2, negY_F]
      simp only [Wc]
      ring_nf
    simp only [double_aff, if_neg hYne]
    have hxeq : (Wc ec).addX ((X : ℤ) : ec.F) ((X : ℤ) : ec.F)
        ((Wc ec).slope ((X : ℤ) : ec.F) ((X : ℤ) : ec.F) ((Y : ℤ) : ec.F) ((Y : ℤ) : ec.F)) =
        ((((3 * X * X + ec.a) * mod_inv (2 * Y) ec.p) *
          ((3 * X * X + ec.a) * mod_inv (2 * Y) ec.p) - X - X) % ec.p : ℤ) := by
      rw [hL]
      simp only [WeierstrassCurve.Affine.addX, Wc]
      push_cast [cast_emod h, cast_mod_inv h]
      field_simp
      ring
    have hyeq : (Wc ec).addY ((X : ℤ) : ec.F) ((X : ℤ) : ec.F) ((Y : ℤ) : ec.F)
        ((Wc ec).slope ((X : ℤ) : ec.F) ((X : ℤ) : ec.F) ((Y : ℤ) : ec.F) ((Y : ℤ) : ec.F)) =
        ((((3 * X * X + ec.a) * mod_inv (2 * Y) ec.p) *
          (X - (((3 * X * X + ec.a) * mod_inv (2 * Y) ec.p) *
            ((3 * X * X + ec.a) * mod_inv (2 * Y) ec.p) - X - X)) - Y) % ec.p : ℤ) := by
      rw [hL]
      simp only [WeierstrassCurve.Affine.addY, WeierstrassCurve.Affine.negAddY,
        WeierstrassCurve.Affine.addX, WeierstrassCurve.Affine.negY, Wc]
      push_cast [cast_emod h, cast_mod_inv h]
      field_simp
      ring
    obtain ⟨hns2, hsome⟩ := some_eq_of_coords _ hadd hxeq hyeq
    have hy'ne : ((((3 * X * X + ec.a) * mod_inv (2 * Y) ec.p) *
        (X - (((3 * X * X + ec.a) * mod_inv (2 * Y) ec.p) *
          ((3 * X * X + ec.a) * mod_inv (2 * Y) ec.p) - X - X)) - Y) % ec.p) ≠ 0 := by
      intro hc
      exact result_y_ne_zero hnt hns2 (by rw [hc]; exact Int.cast_zero)
    refine Or.inr ⟨(emod_nonneg_lt h _).1, (emod_nonneg_lt h _).2, ?_,
      (emod_nonneg_lt h _).2, hns2, hsome⟩
    have hge := (emod_nonneg_lt h ((((3 * X * X + ec.a) * mod_inv (2 * Y) ec.p) *
      (X - (((3 * X * X + ec.a) * mod_inv (2 * Y) ec.p) *
        ((3 * X * X + ec.a) * mod_inv (2 * Y) ec.p) - X - X)) - Y))).1
    omega

set_option maxHeartbeats 1600000 in
/-- The affine addition primitive realizes the group law on canonical
representatives, on a curve without two-torsion. -/
theorem add_aff_repr [hp : Fact (Nat.Prime ec.pn)] (hv : ec.valid)
    (hnt : no_two_torsion ec) {P R : Point} {Pt Rt : (Wc ec).Point}
    (hP : AffRepr ec P Pt) (hR : AffRepr ec R Rt) :
    AffRepr ec (add_aff ec P R) (Pt + Rt) := by
  have h : good ec := ⟨hv, hp.out⟩
  obtain ⟨X₁, Y₁⟩ := P
  obtain ⟨X₂, Y₂⟩ := R
  rcases hR with ⟨hR, hRt⟩ | ⟨hx20, hx21, hy20, hy21, hns₂, hRt⟩
  · -- the second argument is INF: the first branch returns the first argument
    rw [hR, hRt]
    rw [show add_aff ec (X₁, Y₁) INF = (X₁, Y₁) by simp [add_aff, INF], add_zero]
    exact hP
  · simp only at hx20 hx21 hy20 hy21 hns₂ hRt
    have hY2ne : Y₂ ≠ 0 := by omega
    rcases hP with ⟨hP, hPt⟩ | ⟨hx10, hx11, hy10, hy11, hns₁, hPt⟩
    · -- the first argument is INF: the second branch returns the second argument
      rw [hP, hPt]
      rw [show add_aff ec INF (X₂, Y₂) = (X₂, Y₂) by simp [add_aff, INF, hY2ne], zero_add]
      exact Or.inr ⟨hx20, hx21, hy20, hy21, hns₂, hRt⟩
    · simp only at hx10 hx11 hy10 hy11 hns₁ hPt
      have hY1ne : Y₁ ≠ 0 := by omega
      have h2F : (2 : ec.F) ≠ 0 := two_ne_zero_F h
      by_cases hxx : X₂ = X₁
      · subst hxx
        by_cases hyy : Y₂ = Y₁
        · -- the same point: the code doubles its second argument
          subst hyy
          rw [show add_aff ec (X₂, Y₂) (X₂, Y₂) = double_aff ec (X₂, Y₂) by
            simp [add_aff, hY2ne]]
          have hPP : Pt = Rt := by
            rw [hPt, hRt]
          rw [hPP]
          exact double_aff_repr hv hnt (Or.inr ⟨hx20, hx21, hy20, hy21, hns₂, hRt⟩)
        · -- opposite points: the code returns the INF constant
          have hyF : ((Y₂ : ℤ) : ec.F) = -((Y₁ : ℤ) : ec.F) := by
            rcases y_eq_or_neg hns₁.1 hns₂.1 with hc | hc
            · exact absurd (reduced_cast_inj h (by omega) hy21 (by omega) hy11 hc) hyy
            · exact hc
          rw [show add_aff ec (X₂, Y₁) (X₂, Y₂) = INF by
            simp [add_aff, hY2ne, hY1ne, hyy]]
          refine Or.inl ⟨rfl, ?_⟩
          rw [hPt, hRt]
          refine WeierstrassCurve.Affine.Point.add_of_Y_eq rfl ?_
          rw [negY_F, hyF, neg_neg]
      · -- distinct x-coordinates: the secant formula
        have hxxF : ((X₁ : ℤ) : ec.F) ≠ ((X₂ : ℤ) : ec.F) := by
          intro hc
          exact hxx (reduced_cast_inj h hx20 hx21 hx10 hx11 hc.symm)
        have hx12 : ((X₁ : ℤ) : ec.F) - ((X₂ : ℤ) : ec.F) ≠ 0 := sub_ne_zero.mpr hxxF
        have hx21F : ((X₂ : ℤ) : ec.F) - ((X₁ : ℤ) : ec.F) ≠ 0 :=
          fun hc => hx12 (by linear_combination - hc)
        have hadd : Pt + Rt = WeierstrassCurve.Affine.Point.some
            (WeierstrassCurve.Affine.nonsingular_add hns₁ hns₂ (fun hc => absurd hc hxxF)) := by
          rw [hPt, hRt]
          exact WeierstrassCurve.Affine.Point.add_of_X_ne hxxF
        have hL : (Wc ec).slope ((X₁ : ℤ) : ec.F) ((X₂ : ℤ) : ec.F)
            ((Y₁ : ℤ) : ec.F) ((Y₂ : ℤ) : ec.F) =
            (((Y₁ : ℤ) : ec.F) - ((Y₂ : ℤ) : ec.F)) / (((X₁ : ℤ) : ec.F) - ((X₂ : ℤ) : ec.F)) :=
          WeierstrassCurve.Affine.slope_of_X_ne hxxF
        rw [show add_aff ec (X₁, Y₁) (X₂, Y₂) =
            (((Y₂ - Y₁) * mod_inv (X₂ - X₁) ec.p * ((Y₂ - Y₁) * mod_inv (X₂ - X₁) ec.p) -
              X₁ - X₂) % ec.p,
             ((Y₂ - Y₁) * mod_inv (X₂ - X₁) ec.p *
              (X₁ - ((Y₂ - Y₁) * mod_inv (X₂ - X₁) ec.p * ((Y₂ - Y₁) * mod_inv (X₂ - X₁) ec.p) -
                X₁ - X₂)) - Y₁) % ec.p) by
          simp [add_aff, hY2ne, hY1ne, hxx]]
        have hxeq : (Wc ec).addX ((X₁ : ℤ) : ec.F) ((X₂ : ℤ) : ec.F)
            ((Wc ec).slope ((X₁ : ℤ) : ec.F) ((X₂ : ℤ) : ec.F) ((Y₁ : ℤ) : ec.F) ((Y₂ : ℤ) : ec.F)) =
            (((Y₂ - Y₁) * mod_inv (X₂ - X₁) ec.p * ((Y₂ - Y₁) * mod_inv (X₂ - X₁) ec.p) -
              X₁ - X₂) % ec.p : ℤ) := by
          rw [hL]
          simp only [WeierstrassCurve.Affine.addX, Wc]
          push_cast [cast_emod h, cast_mod_inv h]
          field_simp
          ring
        have hyeq : (Wc ec).addY ((X₁ : ℤ) : ec.F) ((X₂ : ℤ) : ec.F) ((Y₁ : ℤ) : ec.F)
            ((Wc ec).slope ((X₁ : ℤ) : ec.F) ((X₂ : ℤ) : ec.F) ((Y₁ : ℤ) : ec.F) ((Y₂ : ℤ) : ec.F)) =
            (((Y₂ - Y₁) * mod_inv (X₂ - X₁) ec.p *
              (X₁ - ((Y₂ - Y₁) * mod_inv (X₂ - X₁) ec.p * ((Y₂ - Y₁) * mod_inv (X₂ - X₁) ec.p) -
                X₁ - X₂)) - Y₁) % ec.p : ℤ) := by
          rw [hL]
          simp only [WeierstrassCurve.Affine.addY, WeierstrassCurve.Affine.negAddY,
            WeierstrassCurve.Affine.addX, WeierstrassCurve.Affine.negY, Wc]
          push_cast [cast_emod h, cast_mod_inv h]
          field_simp
          ring
        obtain ⟨hns2, hsome⟩ := some_eq_of_coords _ hadd hxeq hyeq
        have hy'ne : (((Y₂ - Y₁) * mod_inv (X₂ - X₁) ec.p *
            (X₁ - ((Y₂ - Y₁) * mod_inv (X₂ - X₁) ec.p * ((Y₂ - Y₁) * mod_inv (X₂ - X₁) ec.p) -
              X₁ - X₂)) - Y₁) % ec.p) ≠ 0 := by
          intro hc
          exact result_y_ne_zero hnt hns2 (by rw [hc]; exact Int.cast_zero)
        refine Or.inr ⟨(emod_nonneg_lt h _).1, (emod_nonneg_lt h _).2, ?_,
          (emod_nonneg_lt h _).2, hns2, hsome⟩
        have hge := (emod_nonneg_lt h (((Y₂ - Y₁) * mod_inv (X₂ - X₁) ec.p *
          (X₁ - ((Y₂ - Y₁) * mod_inv (X₂ - X₁) ec.p * ((Y₂ - Y₁) * mod_inv (X₂ - X₁) ec.p) -
            X₁ - X₂)) - Y₁))).1
        omega

end JacOps

/-! Digit and Horner-evaluation lemmas connecting the digit extraction of the
code with the scalar value. -/

theorem digits_rev_eq_digits (base : ℕ) (hb : 2 ≤ base) :
    ∀ i : ℕ, digits_rev base i = Nat.digits base i := by
  intro i
  induction i using Nat.strong_induction_on with
  | _ i ih =>
    rw [digits_rev]
    rcases Nat.eq_zero_or_pos i with hi | hi
    · simp [hi]
    · rw [dif_neg (by omega)]
      rw [ih (i / base) (Nat.div_lt_self hi (by omega)),
        Nat.digits_def' (by omega : 1 < base) hi]

theorem convert_eq_digits_reverse (i base : ℕ) (hb : 2 ≤ base) :
    convert_number_to_base i base =
      if i = 0 then [0] else (Nat.digits base i).reverse := by
  rw [convert_number_to_base, digits_rev_eq_digits base hb]
  rcases Nat.eq_zero_or_pos i with hi | hi
  · simp [hi]
  · have hne : Nat.digits base i ≠ [] := Nat.digits_ne_nil_iff_ne_zero.mpr (by omega)
    rw [if_neg hne, if_neg (by omega)]

/-- Horner evaluation of a big-endian digit list, as the loops of the
multiplication algorithms consume it. -/
def horner (base : ℕ) (v : ℕ) (l : List ℕ) : ℕ :=
  List.foldl (fun a d => base * a + d) v l

theorem horner_append (base v : ℕ) (l₁ l₂ : List ℕ) :
    horner base v (l₁ ++ l₂) = horner base (horner base v l₁) l₂ := by
  simp [horner]

theorem horner_reverse_digits (base : ℕ) (hb : 2 ≤ base) : ∀ (l : List ℕ) (v : ℕ),
    horner base v l.reverse = v * base ^ l.length + Nat.ofDigits base l := by
  intro l
  induction l with
  | nil => simp [horner]
  | cons d rest ih =>
    intro v
    rw [List.reverse_cons, horner_append, ih, Nat.ofDigits_cons]
    simp only [horner, List.foldl_cons, List.foldl_nil, List.length_cons]
    ring

theorem horner_convert (i base : ℕ) (hb : 2 ≤ base) :
    horner base 0 (convert_number_to_base i base) = i := by
  rw [convert_eq_digits_reverse i base hb]
  rcases Nat.eq_zero_or_pos i with hi | hi
  · simp [hi, horner]
  · rw [if_neg (by omega), horner_reverse_digits base hb, Nat.ofDigits_digits]
    simp

theorem convert_digit_lt (i base : ℕ) (hb : 2 ≤ base) :
    ∀ d ∈ convert_number_to_base i base, d < base := by
  rw [convert_eq_digits_reverse i base hb]
  rcases Nat.eq_zero_or_pos i with hi | hi
  · simp [hi]
    omega
  · rw [if_neg (by omega)]
    intro d hd
    exact Nat.digits_lt_base (by omega) (List.mem_reverse.mp hd)

theorem convert_ne_nil (i base : ℕ) (hb : 2 ≤ base) :
    convert_number_to_base i base ≠ [] := by
  rw [convert_eq_digits_reverse i base hb]
  rcases Nat.eq_zero_or_pos i with hi | hi
  · simp [hi]
  · rw [if_neg (by omega)]
    simp [Nat.digits_ne_nil_iff_ne_zero.mpr (by omega : i ≠ 0)]

theorem bin_digits_eq_convert (m : ℕ) : bin_digits m = convert_number_to_base m 2 := by
  rw [bin_digits, convert_eq_digits_reverse m 2 (by omega)]

/-! Correctness of the scalar multiplication algorithms relative to the
Jacobian representation relation. -/

section Algorithms

variable {ec : CurveGroup}

theorem mult_jac_loop_eq (ec : CurveGroup) (m : ℕ) (Qv R0 : JacPoint) :
    mult_jac_loop ec m Qv R0 = if m = 0 then R0 else
      mult_jac_loop ec (m / 2) (double_jac ec Qv)
        (if m % 2 = 1 then add_jac ec R0 (double_jac ec Qv) else R0) := by
  rw [mult_jac_loop]
  rfl

theorem mult_jac_loop_repr [hp : Fact (Nat.Prime ec.pn)] (hv : ec.valid) :
    ∀ (m : ℕ) {Qv R0 : JacPoint} {PQ PR0 : (Wc ec).Point},
      JacRepr ec Qv PQ → JacRepr ec R0 PR0 →
      JacRepr ec (mult_jac_loop ec m Qv R0) (PR0 + (2 * m) • PQ) := by
  intro m
  induction m using Nat.strong_induction_on with
  | _ m ih =>
    intro Qv R0 PQ PR0 hQ hR
    rw [mult_jac_loop_eq]
    rcases Nat.eq_zero_or_pos m with hm | hm
    · subst hm
      simpa [zero_nsmul] using hR
    · rw [if_neg (by omega)]
      have hQ2 := double_jac_repr hv hQ
      have hA := add_jac_repr hv hR hQ2
      have hlt : m / 2 < m := Nat.div_lt_self hm (by omega)
      by_cases hbit : m % 2 = 1
      · rw [if_pos hbit]
        have hres := ih (m / 2) hlt hQ2 hA
        have h2 : PQ + PQ = (2 : ℕ) • PQ := (two_nsmul PQ).symm
        have harith : PR0 + (PQ + PQ) + (2 * (m / 2)) • (PQ + PQ) = PR0 + (2 * m) • PQ := by
          rw [h2, smul_smul, add_assoc, ← add_nsmul]
          have he : 2 + 2 * (m / 2) * 2 = 2 * m := by omega
          rw [he]
        rwa [harith] at hres
      · rw [if_neg hbit]
        have hres := ih (m / 2) hlt hQ2 hR
        have h2 : PQ + PQ = (2 : ℕ) • PQ := (two_nsmul PQ).symm
        have harith : PR0 + (2 * (m / 2)) • (PQ + PQ) = PR0 + (2 * m) • PQ := by
          rw [h2, smul_smul]
          have he : 2 * (m / 2) * 2 = 2 * m := by omega
          rw [he]
        rwa [harith] at hres

/-- mult_jac computes the m-th multiple of the represented point. -/
theorem mult_jac_repr [hp : Fact (Nat.Prime ec.pn)] (hv : ec.valid)
    (m : ℕ) {Q : JacPoint} {PQ : (Wc ec).Point} (hQ : JacRepr ec Q PQ) :
    JacRepr ec (mult_jac ec m Q) (m • PQ) := by
  have h : good ec := ⟨hv, hp.out⟩
  rw [mult_jac]
  by_cases hbit : m % 2 = 1
  · rw [if_pos hbit]
    have hres := mult_jac_loop_repr hv (m / 2) hQ hQ
    have harith : PQ + (2 * (m / 2)) • PQ = m • PQ := by
      have hm2 : m = 1 + 2 * (m / 2) := by omega
      nth_rewrite 2 [hm2]
      rw [add_nsmul, one_nsmul]
    rwa [harith] at hres
  · rw [if_neg hbit]
    have hres := mult_jac_loop_repr hv (m / 2) hQ (JacRepr_INFJ h)
    have harith : (0 : (Wc ec).Point) + (2 * (m / 2)) • PQ = m • PQ := by
      have hm2 : m = 2 * (m / 2) := by omega
      rw [zero_add, ← hm2]
    rwa [harith] at hres

/-- The INF constant canonically encodes the zero point. -/
theorem AffRepr_INF (ec : CurveGroup) : AffRepr ec INF 0 :=
  Or.inl ⟨rfl, rfl⟩

theorem mult_aff_loop_eq (ec : CurveGroup) (m : ℕ) (Qv R0 : Point) :
    mult_aff_loop ec m Qv R0 = if m = 0 then R0 else
      mult_aff_loop ec (m / 2) (double_aff ec Qv)
        (if m % 2 = 1 then add_aff ec R0 (double_aff ec Qv) else R0) := by
  rw [mult_aff_loop]
  rfl

theorem mult_aff_loop_repr [hp : Fact (Nat.Prime ec.pn)] (hv : ec.valid)
    (hnt : no_two_torsion ec) :
    ∀ (m : ℕ) {Qv R0 : Point} {PQ PR0 : (Wc ec).Point},
      AffRepr ec Qv PQ → AffRepr ec R0 PR0 →
      AffRepr ec (mult_aff_loop ec m Qv R0) (PR0 + (2 * m) • PQ) := by
  intro m
  induction m using Nat.strong_induction_on with
  | _ m ih =>
    intro Qv R0 PQ PR0 hQ hR
    rw [mult_aff_loop_eq]
    rcases Nat.eq_zero_or_pos m with hm | hm
    · subst hm
      simpa [zero_nsmul] using hR
    · rw [if_neg (by omega)]
      have hQ2 := double_aff_repr hv hnt hQ
      have hA := add_aff_repr hv hnt hR hQ2
      have hlt : m / 2 < m := Nat.div_lt_self hm (by omega)
      by_cases hbit : m % 2 = 1
      · rw [if_pos hbit]
        have hres := ih (m / 2) hlt hQ2 hA
        have h2 : PQ + PQ = (2 : ℕ) • PQ := (two_nsmul PQ).symm
        have harith : PR0 + (PQ + PQ) + (2 * (m / 2)) • (PQ + PQ) = PR0 + (2 * m) • PQ := by
          rw [h2, smul_smul, add_assoc, ← add_nsmul]
          have he : 2 + 2 * (m / 2) * 2 = 2 * m := by omega
          rw [he]
        rwa [harith] at hres
      · rw [if_neg hbit]
        have hres := ih (m / 2) hlt hQ2 hR
        have h2 : PQ + PQ = (2 : ℕ) • PQ := (two_nsmul PQ).symm
        have harith : PR0 + (2 * (m / 2)) • (PQ + PQ) = PR0 + (2 * m) • PQ := by
          rw [h2, smul_smul]
          have he : 2 * (m / 2) * 2 = 2 * m := by omega
          rw [he]
        rwa [harith] at hres

/-- mult_aff computes the canonical affine encoding of the m-th multiple, on a
curve without two-torsion. -/
theorem mult_aff_repr [hp : Fact (Nat.Prime ec.pn)] (hv : ec.valid)
    (hnt : no_two_torsion ec) (m : ℕ) {Q : Point} {PQ : (Wc ec).Point}
    (hQ : AffRepr ec Q PQ) : AffRepr ec (mult_aff ec m Q) (m • PQ) := by
  rw [mult_aff]
  by_cases hbit : m % 2 = 1
  · rw [if_pos hbit]
    have hres := mult_aff_loop_repr hv hnt (m / 2) hQ hQ
    have harith : PQ + (2 * (m / 2)) • PQ = m • PQ := by
      have hm2 : m = 1 + 2 * (m / 2) := by omega
      nth_rewrite 2 [hm2]
      rw [add_nsmul, one_nsmul]
    rwa [harith] at hres
  · rw [if_neg hbit]
    have hres := mult_aff_loop_repr hv hnt (m / 2) hQ (AffRepr_INF ec)
    have harith : (0 : (Wc ec).Point) + (2 * (m / 2)) • PQ = m • PQ := by
      have hm2 : m = 2 * (m / 2) := by omega
      rw [zero_add, ← hm2]
    rwa [harith] at hres

/-- The canonical encoding of a nonzero point lifts to a well-formed Jacobian
representative with Z = 1. -/
theorem jac_from_aff_repr [hp : Fact (Nat.Prime ec.pn)] (hv : ec.valid)
    {Q : Point} {Pt : (Wc ec).Point} (hQ : AffRepr ec Q Pt) (hfin : Pt ≠ 0) :
    JacRepr ec (jac_from_aff Q) Pt := by
  have h : good ec := ⟨hv, hp.out⟩
  have h3 := p_ge_three h
  rcases hQ with ⟨-, hPt⟩ | ⟨hx0, hx1, hy0, hy1, hns, hPt⟩
  · exact absurd hPt hfin
  · have hyne : Q.2 ≠ 0 := by omega
    refine ⟨?_, Or.inr ⟨?_, _, _, hns, ?_, ?_, hPt⟩⟩
    · simp only [jac_from_aff, if_pos hyne]
      refine ⟨hx0, hx1, by omega, by omega, by omega, by omega⟩
    · simp [jac_from_aff, hyne]
    · simp [jac_from_aff, hyne]
    · simp [jac_from_aff, hyne]

/-- The affine image of a well-formed Jacobian representative is the canonical
encoding of the represented point, on a curve without two-torsion. -/
theorem aff_from_jac_repr [hp : Fact (Nat.Prime ec.pn)] (hv : ec.valid)
    (hnt : no_two_torsion ec) {J : JacPoint} {P : (Wc ec).Point}
    (hJ : JacRepr ec J P) : AffRepr ec (aff_from_jac ec J) P := by
  have h : good ec := ⟨hv, hp.out⟩
  obtain ⟨hr, hJ2⟩ := hJ
  rcases hJ2 with ⟨hz, hP, -⟩ | ⟨hz, x, y, hns, hx, hy, hP⟩
  · rw [aff_from_jac_zero_z hz]
    exact Or.inl ⟨rfl, hP⟩
  · rw [aff_from_jac_finite h hz hx hy hr.2.2.2.2.1 hr.2.2.2.2.2]
    have hyne : y ≠ 0 := result_y_ne_zero hnt hns
    have hcy : 0 < canon ec y := by
      rcases lt_or_eq_of_le (canon_range h y).1 with hlt | heq
      · exact hlt
      · exfalso
        apply hyne
        rw [← cast_canon h y, ← heq]
        simp
    obtain ⟨hns2, hP2⟩ := some_eq_of_coords hns hP (cast_canon h x).symm (cast_canon h y).symm
    exact Or.inr ⟨(canon_range h x).1, (canon_range h x).2, hcy, (canon_range h y).2, hns2, hP2⟩

/-- The canonical affine encoding of a point is unique. -/
theorem AffRepr_unique [hp : Fact (Nat.Prime ec.pn)] (hv : ec.valid)
    {P₁ P₂ : Point} {Pt : (Wc ec).Point}
    (h₁ : AffRepr ec P₁ Pt) (h₂ : AffRepr ec P₂ Pt) : P₁ = P₂ := by
  have h : good ec := ⟨hv, hp.out⟩
  rcases h₁ with ⟨hP₁, hPt₁⟩ | ⟨ha0, ha1, hb0, hb1, hns₁, hPt₁⟩ <;>
    rcases h₂ with ⟨hP₂, hPt₂⟩ | ⟨hc0, hc1, hd0, hd1, hns₂, hPt₂⟩
  · rw [hP₁, hP₂]
  · rw [hPt₁] at hPt₂
    exact absurd hPt₂.symm (WeierstrassCurve.Affine.Point.some_ne_zero hns₂)
  · rw [hPt₂] at hPt₁
    exact absurd hPt₁.symm (WeierstrassCurve.Affine.Point.some_ne_zero hns₁)
  · rw [hPt₁] at hPt₂
    injection hPt₂ with hx hy
    exact Prod.ext (reduced_cast_inj h ha0 ha1 hc0 hc1 hx)
      (reduced_cast_inj h (le_of_lt hb0) hb1 (le_of_lt hd0) hd1 hy)

/-! Behaviour of the algorithms at the infinity encodings: the affine code maps
INF to INF, and the Jacobian code keeps Z = 0 triples at Z = 0, so all
algorithms send representatives of zero to representatives of zero even via the
non-canonical triple (x, 0, 0) that jac_from_aff makes of INF. -/

theorem double_aff_INF (ec : CurveGroup) : double_aff ec INF = INF := by
  simp [double_aff, INF]

theorem add_aff_INF_right (ec : CurveGroup) (Q : Point) : add_aff ec Q INF = Q := by
  simp [add_aff, INF]

theorem mult_aff_loop_INF (ec : CurveGroup) :
    ∀ (m : ℕ) (R0 : Point), mult_aff_loop ec m INF R0 = R0 := by
  intro m
  induction m using Nat.strong_induction_on with
  | _ m ih =>
    intro R0
    rw [mult_aff_loop_eq]
    rcases Nat.eq_zero_or_pos m with hm | hm
    · rw [if_pos hm]
    · rw [if_neg (by omega), double_aff_INF, add_aff_INF_right,
        ih (m / 2) (Nat.div_lt_self hm (by omega))]
      split <;> rfl

theorem mult_aff_INF (ec : CurveGroup) (m : ℕ) : mult_aff ec m INF = INF := by
  rw [mult_aff, mult_aff_loop_INF]
  split <;> rfl

theorem double_jac_zero_z (ec : CurveGroup) {Q : JacPoint} (hz : Q.2.2 = 0) :
    (double_jac ec Q).2.2 = 0 := by
  simp [double_jac, hz]

theorem add_jac_zero_z (ec : CurveGroup) {Q R : JacPoint}
    (hzQ : Q.2.2 = 0) (hzR : R.2.2 = 0) : (add_jac ec Q R).2.2 = 0 := by
  simp [add_jac, hzQ, hzR, INFJ]

theorem mult_jac_loop_zero_z (ec : CurveGroup) :
    ∀ (m : ℕ) {Qv R0 : JacPoint}, Qv.2.2 = 0 → R0.2.2 = 0 →
      (mult_jac_loop ec m Qv R0).2.2 = 0 := by
  intro m
  induction m using Nat.strong_induction_on with
  | _ m ih =>
    intro Qv R0 hQ hR
    rw [mult_jac_loop_eq]
    rcases Nat.eq_zero_or_pos m with hm | hm
    · rwa [if_pos hm]
    · rw [if_neg (by omega)]
      refine ih (m / 2) (Nat.div_lt_self hm (by omega)) (double_jac_zero_z ec hQ) ?_
      split
      · exact add_jac_zero_z ec hR (double_jac_zero_z ec hQ)
      · exact hR

theorem mult_jac_zero_z (ec : CurveGroup) (m : ℕ) {Q : JacPoint} (hz : Q.2.2 = 0) :
    (mult_jac ec m Q).2.2 = 0 := by
  rw [mult_jac]
  refine mult_jac_loop_zero_z ec (m / 2) hz ?_
  split
  · exact hz
  · rfl

/-- The Montgomery ladder invariant: the two slots hold consecutive multiples,
the first being the value of the consumed digit prefix. -/
theorem mont_fold_repr [hp : Fact (Nat.Prime ec.pn)] (hv : ec.valid) :
    ∀ (l : List ℕ), (∀ d ∈ l, d < 2) →
      ∀ {R0 R1 : JacPoint} {v : ℕ} {PQ : (Wc ec).Point},
      JacRepr ec R0 (v • PQ) → JacRepr ec R1 ((v + 1) • PQ) →
      JacRepr ec (List.foldl (mont_step ec) (R0, R1) l).1 ((horner 2 v l) • PQ) ∧
      JacRepr ec (List.foldl (mont_step ec) (R0, R1) l).2 ((horner 2 v l + 1) • PQ) := by
  intro l
  induction l with
  | nil =>
    intro _ R0 R1 v PQ h0 h1
    exact ⟨h0, h1⟩
  | cons d rest ih =>
    intro hd R0 R1 v PQ h0 h1
    have hrest : ∀ x ∈ rest, x < 2 := fun x hx => hd x (List.mem_cons_of_mem d hx)
    have hstep : horner 2 v (d :: rest) = horner 2 (2 * v + d) rest := rfl
    rw [List.foldl_cons, hstep]
    by_cases hd1 : d = 1
    · have hA : JacRepr ec (add_jac ec R1 R0) ((2 * v + d) • PQ) := by
        have := add_jac_repr hv h1 h0
        rwa [← add_nsmul, show v + 1 + v = 2 * v + d by omega] at this
      have hD : JacRepr ec (double_jac ec R1) ((2 * v + d + 1) • PQ) := by
        have := double_jac_repr hv h1
        rwa [← add_nsmul, show v + 1 + (v + 1) = 2 * v + d + 1 by omega] at this
      rw [show mont_step ec (R0, R1) d = (add_jac ec R1 R0, double_jac ec R1) by
        simp [mont_step, hd1]]
      exact ih hrest hA hD
    · have hdz : d = 0 := by have := hd d (List.mem_cons_self d rest); omega
      have hD : JacRepr ec (double_jac ec R0) ((2 * v + d) • PQ) := by
        have := double_jac_repr hv h0
        rwa [← add_nsmul, show v + v = 2 * v + d by omega] at this
      have hA : JacRepr ec (add_jac ec R0 R1) ((2 * v + d + 1) • PQ) := by
        have := add_jac_repr hv h0 h1
        rwa [← add_nsmul, show v + (v + 1) = 2 * v + d + 1 by omega] at this
      rw [show mont_step ec (R0, R1) d = (double_jac ec R0, add_jac ec R0 R1) by
        simp [mont_step, hd1]]
      exact ih hrest hD hA

/-- The Montgomery ladder computes the m-th multiple of the represented point. -/
theorem mult_mont_ladder_repr [hp : Fact (Nat.Prime ec.pn)] (hv : ec.valid)
    (m : ℕ) {Q : JacPoint} {PQ : (Wc ec).Point} (hQ : JacRepr ec Q PQ) :
    JacRepr ec (mult_mont_ladder ec m Q) (m • PQ) := by
  have h : good ec := ⟨hv, hp.out⟩
  have h0 : JacRepr ec INFJ ((0 : ℕ) • PQ) := by
    rw [zero_nsmul]
    exact JacRepr_INFJ h
  have h1 : JacRepr ec Q ((0 + 1 : ℕ) • PQ) := by
    rw [zero_add, one_nsmul]
    exact hQ
  have hd : ∀ d ∈ bin_digits m, d < 2 := by
    rw [bin_digits_eq_convert]
    exact convert_digit_lt m 2 (by omega)
  have hres := (mont_fold_repr hv (bin_digits m) hd h0 h1).1
  rw [mult_mont_ladder]
  have hh : horner 2 0 (bin_digits m) = m := by
    rw [bin_digits_eq_convert]
    exact horner_convert m 2 (by omega)
  rwa [hh] at hres

/-- Generic left-to-right windowed accumulation: if one application of the
step s multiplies the represented point by the base and the table entries
represent the digit values, the fold follows the Horner recurrence at the
level of group points. -/
theorem windowed_fold_repr [hp : Fact (Nat.Prime ec.pn)] (hv : ec.valid)
    (s : JacPoint → JacPoint) (B : ℕ) (T : List JacPoint) (Bnd : ℕ)
    (val : ℕ → (Wc ec).Point)
    (hs : ∀ {R : JacPoint} {P : (Wc ec).Point}, JacRepr ec R P → JacRepr ec (s R) (B • P))
    (hT : ∀ i, i < Bnd → JacRepr ec (T.getD i INFJ) (val i)) :
    ∀ (l : List ℕ), (∀ d ∈ l, d < Bnd) → ∀ {R : JacPoint} {A : (Wc ec).Point},
      JacRepr ec R A →
      JacRepr ec (List.foldl (fun R i => add_jac ec (s R) (T.getD i INFJ)) R l)
        (List.foldl (fun A i => B • A + val i) A l) := by
  intro l
  induction l with
  | nil =>
    intro _ R A hR
    exact hR
  | cons d rest ih =>
    intro hd R A hR
    have hrest : ∀ x ∈ rest, x < Bnd := fun x hx => hd x (List.mem_cons_of_mem d hx)
    rw [List.foldl_cons, List.foldl_cons]
    exact ih hrest (add_jac_repr hv (hs hR) (hT d (hd d (List.mem_cons_self d rest))))

/-- Horner evaluation of the point-level windowed recurrence for the single
point tables: the fold lands on the Horner value times the point. -/
theorem fold_horner_smul {G : Type} [AddCommMonoid G] (B : ℕ) (PQ : G) :
    ∀ (l : List ℕ) (v : ℕ),
      List.foldl (fun A i => B • A + i • PQ) (v • PQ) l = (horner B v l) • PQ := by
  intro l
  induction l with
  | nil => intro v; rfl
  | cons d rest ih =>
    intro v
    rw [List.foldl_cons, show horner B v (d :: rest) = horner B (B * v + d) rest from rfl,
      ← ih (B * v + d), smul_smul, add_nsmul]

/-- mult_base_3 computes the m-th multiple of the represented point. -/
theorem mult_base_3_repr [hp : Fact (Nat.Prime ec.pn)] (hv : ec.valid)
    (m : ℕ) {Q : JacPoint} {PQ : (Wc ec).Point} (hQ : JacRepr ec Q PQ) :
    JacRepr ec (mult_base_3 ec m Q) (m • PQ) := by
  have h : good ec := ⟨hv, hp.out⟩
  obtain ⟨d₀, rest, hcons⟩ :=
    List.exists_cons_of_ne_nil (convert_ne_nil m 3 (by omega))
  have hdlt : ∀ d ∈ convert_number_to_base m 3, d < 3 := convert_digit_lt m 3 (by omega)
  have hd₀ : d₀ < 3 := hdlt d₀ (by rw [hcons]; exact List.mem_cons_self _ _)
  have hrest : ∀ d ∈ rest, d < 3 := fun d hd =>
    hdlt d (by rw [hcons]; exact List.mem_cons_of_mem _ hd)
  have hT : ∀ i, i < 3 →
      JacRepr ec (([INFJ, Q, double_jac ec Q] : List JacPoint).getD i INFJ) (i • PQ) := by
    intro i hi
    interval_cases i
    · rw [zero_nsmul]
      exact JacRepr_INFJ h
    · rw [one_nsmul]
      exact hQ
    · rw [two_nsmul]
      exact double_jac_repr hv hQ
  have hs : ∀ {R : JacPoint} {P : (Wc ec).Point}, JacRepr ec R P →
      JacRepr ec (add_jac ec (double_jac ec R) R) ((3 : ℕ) • P) := by
    intro R P hR
    have h3 : (3 : ℕ) • P = P + P + P := by
      rw [show (3 : ℕ) = 2 + 1 from rfl, add_nsmul, two_nsmul, one_nsmul]
    rw [h3]
    exact add_jac_repr hv (double_jac_repr hv hR) hR
  have hfold := windowed_fold_repr hv (fun R => add_jac ec (double_jac ec R) R) 3
    ([INFJ, Q, double_jac ec Q]) 3 (fun i => i • PQ) hs hT rest hrest (hT d₀ hd₀)
  have hh : horner 3 d₀ rest = m := by
    have hc := horner_convert m 3 (by omega)
    rw [hcons] at hc
    simpa [horner] using hc
  rw [fold_horner_smul 3 PQ rest d₀, hh] at hfold
  rw [mult_base_3]
  simp only [hcons, List.headD_cons, List.tail_cons]
  exact hfold

/-- The loop of multiples: starting from an even-length table whose k-th entry
represents k times the point, each iteration appends the double of the middle
entry and that double plus Q, preserving the representation invariant and
creating the literal doubling/adding recurrence at every appended index. -/
theorem multiples_go_spec [hp : Fact (Nat.Prime ec.pn)] (hv : ec.valid)
    {Q : JacPoint} {PQ : (Wc ec).Point} (hQ : JacRepr ec Q PQ) :
    ∀ (n : ℕ) (T : List JacPoint), 2 ≤ T.length → T.length % 2 = 0 →
      (∀ k, k < T.length → JacRepr ec (T.getD k INFJ) (k • PQ)) →
      (multiples_go ec Q n T).length = T.length + 2 * n ∧
      (∀ k, k < T.length → (multiples_go ec Q n T).getD k INFJ = T.getD k INFJ) ∧
      (∀ k, k < T.length + 2 * n →
        JacRepr ec ((multiples_go ec Q n T).getD k INFJ) (k • PQ)) ∧
      (∀ k, T.length ≤ 2 * k → 2 * k < T.length + 2 * n →
        (multiples_go ec Q n T).getD (2 * k) INFJ =
          double_jac ec ((multiples_go ec Q n T).getD k INFJ) ∧
        (multiples_go ec Q n T).getD (2 * k + 1) INFJ =
          add_jac ec ((multiples_go ec Q n T).getD (2 * k) INFJ) Q) := by
  intro n
  induction n with
  | zero =>
    intro T h2 hev hrep
    exact ⟨by simp [multiples_go], fun k _ => rfl, fun k hk => hrep k (by omega),
      fun k hk1 hk2 => absurd hk2 (by omega)⟩
  | succ n ih =>
    intro T h2 hev hrep
    have hstep : multiples_go ec Q (n + 1) T =
        multiples_go ec Q n (T ++ [double_jac ec (T.getD (T.length / 2) INFJ),
          add_jac ec (double_jac ec (T.getD (T.length / 2) INFJ)) Q]) := rfl
    set d := double_jac ec (T.getD (T.length / 2) INFJ) with hdd
    set s := add_jac ec d Q with hss
    have hlen2 : (T ++ [d, s]).length = T.length + 2 := by simp
    have hjlt : T.length / 2 < T.length := by omega
    have hdrep : JacRepr ec d (T.length • PQ) := by
      have := double_jac_repr hv (hrep (T.length / 2) hjlt)
      rwa [← add_nsmul, show T.length / 2 + T.length / 2 = T.length by omega] at this
    have hsrep : JacRepr ec s ((T.length + 1) • PQ) := by
      have := add_jac_repr hv hdrep hQ
      rwa [show T.length • PQ + PQ = (T.length + 1) • PQ by
        rw [add_nsmul, one_nsmul]] at this
    have hgetd : (T ++ [d, s]).getD T.length INFJ = d := by
      rw [List.getD_append_right _ _ _ _ (le_refl _), Nat.sub_self]
      rfl
    have hgets : (T ++ [d, s]).getD (T.length + 1) INFJ = s := by
      rw [List.getD_append_right _ _ _ _ (by omega), Nat.add_sub_cancel_left]
      rfl
    have hrep2 : ∀ k, k < (T ++ [d, s]).length →
        JacRepr ec ((T ++ [d, s]).getD k INFJ) (k • PQ) := by
      intro k hk
      rw [hlen2] at hk
      rcases Nat.lt_trichotomy k T.length with hlt | heq | hgt
      · rw [List.getD_append _ _ _ _ hlt]
        exact hrep k hlt
      · rw [heq, hgetd]
        exact hdrep
      · have heq1 : k = T.length + 1 := by omega
        rw [heq1, hgets]
        exact hsrep
    obtain ⟨ihlen, ihpre, ihrep, ihrec⟩ := ih (T ++ [d, s]) (by omega) (by omega) hrep2
    rw [hstep]
    refine ⟨by rw [ihlen, hlen2]; ring, ?_, ?_, ?_⟩
    · intro k hk
      rw [ihpre k (by omega), List.getD_append _ _ _ _ hk]
    · intro k hk
      exact ihrep k (by omega)
    · intro k hk1 hk2
      rcases Nat.lt_or_ge (2 * k) (T.length + 2) with hlt | hge
      · have hkT : 2 * k = T.length := by omega
        have hkj : k = T.length / 2 := by omega
        constructor
        · rw [ihpre (2 * k) (by omega), hkT, hgetd, hdd,
            ihpre k (by omega), hkj, List.getD_append _ _ _ _ hjlt]
        · rw [ihpre (2 * k + 1) (by omega), ihpre (2 * k) (by omega), hkT, hgets, hgetd]
      · exact ihrec k (by rw [hlen2]; omega) (by rw [hlen2]; omega)

/-- multiples_list builds the table [0 Q, 1 Q, ..., (size-1) Q], of length
exactly size, with the literal recurrence entries T[2k] = double T[k] and
T[2k+1] = T[2k] + Q at every interior index. -/
theorem multiples_list_spec [hp : Fact (Nat.Prime ec.pn)] (hv : ec.valid)
    {Q : JacPoint} {PQ : (Wc ec).Point} (hQ : JacRepr ec Q PQ)
    (size : ℕ) (hsz : 2 ≤ size) :
    (multiples_list ec Q size).length = size ∧
    (∀ k, k < size → JacRepr ec ((multiples_list ec Q size).getD k INFJ) (k • PQ)) ∧
    (∀ k, 1 ≤ k → 2 * k < size →
      (multiples_list ec Q size).getD (2 * k) INFJ =
        double_jac ec ((multiples_list ec Q size).getD k INFJ)) ∧
    (∀ k, 1 ≤ k → 2 * k + 1 < size →
      (multiples_list ec Q size).getD (2 * k + 1) INFJ =
        add_jac ec ((multiples_list ec Q size).getD (2 * k) INFJ) Q) := by
  have h : good ec := ⟨hv, hp.out⟩
  have hrep0 : ∀ k, k < ([INFJ, Q] : List JacPoint).length →
      JacRepr ec (([INFJ, Q] : List JacPoint).getD k INFJ) (k • PQ) := by
    intro k hk
    simp only [List.length_cons, List.length_nil] at hk
    interval_cases k
    · rw [zero_nsmul]
      exact JacRepr_INFJ h
    · rw [one_nsmul]
      exact hQ
  obtain ⟨hlen, hpre, hrep, hrec⟩ :=
    multiples_go_spec hv hQ (size / 2 - 1) [INFJ, Q] (by simp) (by simp) hrep0
  simp only [List.length_cons, List.length_nil] at hlen hrep hrec
  have hT : multiples_list ec Q size =
      if size % 2 = 1 then
        multiples_go ec Q (size / 2 - 1) [INFJ, Q] ++
          [double_jac ec ((multiples_go ec Q (size / 2 - 1) [INFJ, Q]).getD
            ((size - 1) / 2) INFJ)]
      else multiples_go ec Q (size / 2 - 1) [INFJ, Q] := rfl
  set T := multiples_go ec Q (size / 2 - 1) [INFJ, Q] with hTT
  have hlenT : T.length = 2 * (size / 2) := by omega
  by_cases hodd : size % 2 = 1
  · rw [hT, if_pos hodd]
    set dlast := double_jac ec (T.getD ((size - 1) / 2) INFJ) with hdl
    have hlsz : T.length = size - 1 := by omega
    have hgetlast : (T ++ [dlast]).getD (size - 1) INFJ = dlast := by
      rw [List.getD_append_right _ _ _ _ (by omega), hlsz, Nat.sub_self]
      rfl
    have hdrep : JacRepr ec dlast ((size - 1) • PQ) := by
      have := double_jac_repr hv (hrep ((size - 1) / 2) (by omega))
      rwa [← add_nsmul, show (size - 1) / 2 + (size - 1) / 2 = size - 1 by omega] at this
    refine ⟨by simp [hlsz]; omega, ?_, ?_, ?_⟩
    · intro k hk
      rcases Nat.lt_or_ge k (size - 1) with hlt | hge
      · rw [List.getD_append _ _ _ _ (by omega)]
        exact hrep k (by omega)
      · have hk1 : k = size - 1 := by omega
        rw [hk1, hgetlast]
        exact hdrep
    · intro k hk1 hk2
      rcases Nat.lt_or_ge (2 * k) (size - 1) with hlt | hge
      · rw [List.getD_append _ _ _ _ (by omega), List.getD_append _ _ _ _ (by omega)]
        exact (hrec k (by omega) (by omega)).1
      · have hk2k : 2 * k = size - 1 := by omega
        have hkk : k = (size - 1) / 2 := by omega
        rw [hk2k, hgetlast, hdl, hkk, List.getD_append _ _ _ _ (by omega)]
    · intro k hk1 hk2
      have hlt : 2 * k + 1 < size - 1 := by omega
      rw [List.getD_append _ _ _ _ (by omega), List.getD_append _ _ _ _ (by omega)]
      exact (hrec k (by omega) (by omega)).2
  · rw [hT, if_neg hodd]
    have hlsz : T.length = size := by omega
    refine ⟨hlsz, ?_, ?_, ?_⟩
    · intro k hk
      exact hrep k (by omega)
    · intro k hk1 hk2
      exact (hrec k (by omega) (by omega)).1
    · intro k hk1 hk2
      exact (hrec k (by omega) (by omega)).2

/-- multiples: the size check and the table property. -/
theorem multiples_spec [hp : Fact (Nat.Prime ec.pn)] (hv : ec.valid)
    {Q : JacPoint} {PQ : (Wc ec).Point} (hQ : JacRepr ec Q PQ) (size : ℤ) :
    (size < 2 → multiples ec Q size = .error "size too low") ∧
    (2 ≤ size → multiples ec Q size = .ok (multiples_list ec Q size.toNat)) := by
  constructor
  · intro hsz
    rw [multiples, if_pos hsz]
  · intro hsz
    rw [multiples, if_neg (by omega)]

/-- w-fold doubling multiplies the represented point by 2 ^ w. -/
theorem double_jac_iterate_repr [hp : Fact (Nat.Prime ec.pn)] (hv : ec.valid)
    (w : ℕ) {R : JacPoint} {P : (Wc ec).Point} (hR : JacRepr ec R P) :
    JacRepr ec ((double_jac ec)^[w] R) ((2 ^ w) • P) := by
  induction w with
  | zero =>
    rw [pow_zero, one_nsmul]
    exact hR
  | succ w ih =>
    rw [Function.iterate_succ_apply']
    have := double_jac_repr hv ih
    rwa [← add_nsmul, show 2 ^ w + 2 ^ w = 2 ^ (w + 1) by rw [pow_succ]; omega] at this

/-- mult_fixed_window computes the m-th multiple of the represented point, for
any positive window width. -/
theorem mult_fixed_window_repr [hp : Fact (Nat.Prime ec.pn)] (hv : ec.valid)
    (m : ℕ) {Q : JacPoint} {PQ : (Wc ec).Point} (hQ : JacRepr ec Q PQ)
    (w : ℕ) (hw : 1 ≤ w) :
    JacRepr ec (mult_fixed_window ec m Q w) (m • PQ) := by
  have h : good ec := ⟨hv, hp.out⟩
  have hB : 2 ≤ 2 ^ w := by
    calc 2 = 2 ^ 1 := (pow_one 2).symm
    _ ≤ 2 ^ w := Nat.pow_le_pow_right (by omega) hw
  obtain ⟨d₀, rest, hcons⟩ :=
    List.exists_cons_of_ne_nil (convert_ne_nil m (2 ^ w) hB)
  have hdlt : ∀ d ∈ convert_number_to_base m (2 ^ w), d < 2 ^ w :=
    convert_digit_lt m (2 ^ w) hB
  have hd₀ : d₀ < 2 ^ w := hdlt d₀ (by rw [hcons]; exact List.mem_cons_self _ _)
  have hrest : ∀ d ∈ rest, d < 2 ^ w := fun d hd =>
    hdlt d (by rw [hcons]; exact List.mem_cons_of_mem _ hd)
  obtain ⟨-, hTrep, -, -⟩ := multiples_list_spec hv hQ (2 ^ w) hB
  have hT : ∀ i, i < 2 ^ w →
      JacRepr ec ((multiples_list ec Q (2 ^ w)).getD i INFJ) (i • PQ) := hTrep
  have hs : ∀ {R : JacPoint} {P : (Wc ec).Point}, JacRepr ec R P →
      JacRepr ec ((double_jac ec)^[w] R) ((2 ^ w) • P) :=
    fun hR => double_jac_iterate_repr hv w hR
  have hfold := windowed_fold_repr hv ((double_jac ec)^[w]) (2 ^ w)
    (multiples_list ec Q (2 ^ w)) (2 ^ w) (fun i => i • PQ) hs hT rest hrest (hT d₀ hd₀)
  have hh : horner (2 ^ w) d₀ rest = m := by
    have hc := horner_convert m (2 ^ w) hB
    rw [hcons] at hc
    simpa [horner] using hc
  rw [fold_horner_smul (2 ^ w) PQ rest d₀, hh] at hfold
  rw [mult_fixed_window]
  simp only [hcons, List.headD_cons, List.tail_cons]
  exact hfold

/-- mult is mult_fixed_window at the default width. -/
theorem mult_repr [hp : Fact (Nat.Prime ec.pn)] (hv : ec.valid)
    (m : ℕ) {Q : JacPoint} {PQ : (Wc ec).Point} (hQ : JacRepr ec Q PQ) :
    JacRepr ec (mult ec m Q) (m • PQ) :=
  mult_fixed_window_repr hv m hQ 4 (by omega)

/-- The initial two-entry table [INFJ, K] represents 0 and 1 times the point. -/
theorem init_table_repr [hp : Fact (Nat.Prime ec.pn)] (hv : ec.valid)
    {K : JacPoint} {PK : (Wc ec).Point} (hK : JacRepr ec K PK) :
    ∀ k, k < ([INFJ, K] : List JacPoint).length →
      JacRepr ec (([INFJ, K] : List JacPoint).getD k INFJ) (k • PK) := by
  intro k hk
  simp only [List.length_cons, List.length_nil] at hk
  interval_cases k
  · rw [zero_nsmul]
    exact JacRepr_INFJ ⟨hv, hp.out⟩
  · rw [one_nsmul]
    exact hK

/-- The per-window tables of cached_multiples_fixwind: n tables of 2 ^ w
entries each; the i-th entry of the t-th table represents i (2 ^ w) ^ t times
the base point. -/
theorem cmf_go_spec [hp : Fact (Nat.Prime ec.pn)] (hv : ec.valid)
    (w : ℕ) (hw : 1 ≤ w) :
    ∀ (n : ℕ) {K : JacPoint} {PK : (Wc ec).Point}, JacRepr ec K PK →
      (cmf_go ec w n K).length = n ∧
      (∀ t, t < n → ((cmf_go ec w n K).getD t []).length = 2 ^ w ∧
        ∀ i, i < 2 ^ w → JacRepr ec (((cmf_go ec w n K).getD t []).getD i INFJ)
          ((i * (2 ^ w) ^ t) • PK)) := by
  intro n
  induction n with
  | zero =>
    intro K PK hK
    exact ⟨rfl, fun t ht => absurd ht (by omega)⟩
  | succ n ih =>
    intro K PK hK
    have h2w : 2 * 2 ^ (w - 1) = 2 ^ w := by
      rw [← pow_succ']
      congr 1
      omega
    have hpos : 1 ≤ 2 ^ (w - 1) := Nat.one_le_two_pow
    obtain ⟨hlen, hpre, hrep, hrec⟩ :=
      multiples_go_spec hv hK (2 ^ (w - 1) - 1) [INFJ, K] (by simp) (by simp)
        (init_table_repr hv hK)
    simp only [List.length_cons, List.length_nil] at hlen hrep
    have hstep : cmf_go ec w (n + 1) K =
        multiples_go ec K (2 ^ (w - 1) - 1) [INFJ, K] ::
          cmf_go ec w n (double_jac ec
            ((multiples_go ec K (2 ^ (w - 1) - 1) [INFJ, K]).getD (2 ^ (w - 1)) INFJ)) :=
      rfl
    have hK2 : JacRepr ec (double_jac ec
        ((multiples_go ec K (2 ^ (w - 1) - 1) [INFJ, K]).getD (2 ^ (w - 1)) INFJ))
        ((2 ^ w) • PK) := by
      have := double_jac_repr hv (hrep (2 ^ (w - 1)) (by omega))
      rwa [← add_nsmul, show 2 ^ (w - 1) + 2 ^ (w - 1) = 2 ^ w by omega] at this
    obtain ⟨ihlen, ihtab⟩ := ih hK2
    rw [hstep]
    refine ⟨by rw [List.length_cons, ihlen], ?_⟩
    intro t ht
    match t with
    | 0 =>
      rw [List.getD_cons_zero]
      refine ⟨by omega, ?_⟩
      intro i hi
      rw [pow_zero, mul_one]
      exact hrep i (by omega)
    | t + 1 =>
      rw [List.getD_cons_succ]
      obtain ⟨htl, htr⟩ := ihtab t (by omega)
      refine ⟨htl, ?_⟩
      intro i hi
      have := htr i hi
      rwa [smul_smul, show i * (2 ^ w) ^ t * 2 ^ w = i * (2 ^ w) ^ (t + 1) by
        rw [pow_succ]; ring] at this

/-- In-bounds table lookup. -/
theorem table_get_ok (T : List (List JacPoint)) (k i : ℕ)
    (hk : k < T.length) (hi : i < (T.getD k []).length) :
    table_get T k i = .ok ((T.getD k []).getD i INFJ) := by
  have hgd : T.getD k [] = T[k] := List.getD_eq_getElem T [] hk
  rw [hgd] at hi
  rw [table_get]
  split
  · rename_i heq
    rw [List.getElem?_eq_getElem hk] at heq
    exact absurd heq (by simp)
  · rename_i sub heq
    rw [List.getElem?_eq_getElem hk] at heq
    have hsub : sub = T[k] := (Option.some.inj heq).symm
    subst hsub
    rw [hgd]
    split
    · rename_i heq2
      rw [List.getElem?_eq_getElem hi] at heq2
      exact absurd heq2 (by simp)
    · rename_i v heq2
      rw [List.getElem?_eq_getElem hi] at heq2
      rw [← Option.some.inj heq2]
      exact congrArg Except.ok (List.getD_eq_getElem T[k] INFJ hi).symm

/-- Out-of-bounds window index: the IndexError. -/
theorem table_get_err (T : List (List JacPoint)) (k i : ℕ) (hk : T.length ≤ k) :
    table_get T k i = .error "IndexError" := by
  rw [table_get, List.getElem?_eq_none hk]

/-- The scalar value accumulated by the addition loop of
mult_fixed_window_cached: digit j of the list is worth B ^ (k - 1 - j). -/
def wsum (B : ℕ) : List ℕ → ℕ → ℕ
  | [], _ => 0
  | d :: rest, k => d * B ^ (k - 1) + wsum B rest (k - 1)

theorem horner_eq_wsum (B : ℕ) :
    ∀ (l : List ℕ) (v : ℕ), horner B v l = v * B ^ l.length + wsum B l l.length := by
  intro l
  induction l with
  | nil => intro v; simp [horner, wsum]
  | cons d rest ih =>
    intro v
    rw [show horner B v (d :: rest) = horner B (B * v + d) rest from rfl, ih,
      show wsum B (d :: rest) (d :: rest).length =
        d * B ^ ((d :: rest).length - 1) + wsum B rest ((d :: rest).length - 1) from rfl]
    simp only [List.length_cons, Nat.add_sub_cancel]
    ring

/-- The addition loop of mult_fixed_window_cached: with a table of enough
windows, in-range digits look up in bounds and the accumulated point follows
the wsum scalar. -/
theorem mfwc_loop_repr [hp : Fact (Nat.Prime ec.pn)] (hv : ec.valid)
    {T : List (List JacPoint)} {PK : (Wc ec).Point} {w : ℕ}
    (hTlen : ∀ t, t < T.length → (T.getD t []).length = 2 ^ w)
    (hTrep : ∀ t, t < T.length → ∀ i, i < 2 ^ w →
      JacRepr ec ((T.getD t []).getD i INFJ) ((i * (2 ^ w) ^ t) • PK)) :
    ∀ (ds : List ℕ) (k : ℕ) {R : JacPoint} {PR : (Wc ec).Point},
      JacRepr ec R PR → (∀ d ∈ ds, d < 2 ^ w) → ds.length ≤ k → k ≤ T.length →
      mfwc_loop ec T ds k R =
        .ok (mfwc_loop ec T ds k R).toOption.get! ∧
      JacRepr ec (mfwc_loop ec T ds k R).toOption.get!
        (PR + (wsum (2 ^ w) ds k) • PK) := by
  intro ds
  induction ds with
  | nil =>
    intro k R PR hR _ _ _
    refine ⟨rfl, ?_⟩
    rw [show wsum (2 ^ w) [] k = 0 from rfl, zero_nsmul, add_zero]
    exact hR
  | cons d rest ih =>
    intro k R PR hR hd hlen hk
    have hdlt : d < 2 ^ w := hd d (List.mem_cons_self d rest)
    have hk1 : k - 1 < T.length := by
      have := List.length_cons d rest ▸ hlen
      omega
    have hlu := table_get_ok T (k - 1) d hk1 (by rw [hTlen (k - 1) hk1]; exact hdlt)
    have hstep : mfwc_loop ec T (d :: rest) k R =
        mfwc_loop ec T rest (k - 1) (add_jac ec R ((T.getD (k - 1) []).getD d INFJ)) := by
      rw [mfwc_loop, hlu]
      rfl
    have htab := hTrep (k - 1) hk1 d hdlt
    have hadd : JacRepr ec (add_jac ec R ((T.getD (k - 1) []).getD d INFJ))
        (PR + (d * (2 ^ w) ^ (k - 1)) • PK) := add_jac_repr hv hR htab
    have hrest := ih (k - 1) hadd
      (fun x hx => hd x (List.mem_cons_of_mem d hx))
      (by have := List.length_cons d rest ▸ hlen; omega)
      (by omega)
    rw [hstep]
    refine ⟨hrest.1, ?_⟩
    have := hrest.2
    rwa [add_assoc, ← add_nsmul,
      show d * (2 ^ w) ^ (k - 1) + wsum (2 ^ w) rest (k - 1) =
        wsum (2 ^ w) (d :: rest) k from rfl] at this

/-- mult_fixed_window_cached: success with the correct multiple exactly when
the digit count of the scalar fits the number of cached windows, IndexError
otherwise. -/
theorem mult_fixed_window_cached_spec [hp : Fact (Nat.Prime ec.pn)] (hv : ec.valid)
    {Q : JacPoint} {PQ : (Wc ec).Point} (hQ : JacRepr ec Q PQ) (m w : ℕ) (hw : 1 ≤ w) :
    ((convert_number_to_base m (2 ^ w)).length ≤ ec.psize * 8 / w + 1 →
      ∃ R, mult_fixed_window_cached ec m Q w = .ok R ∧ JacRepr ec R (m • PQ)) ∧
    (ec.psize * 8 / w + 1 < (convert_number_to_base m (2 ^ w)).length →
      mult_fixed_window_cached ec m Q w = .error "IndexError") := by
  have hB : 2 ≤ 2 ^ w := by
    calc 2 = 2 ^ 1 := (pow_one 2).symm
    _ ≤ 2 ^ w := Nat.pow_le_pow_right (by omega) hw
  obtain ⟨hTlen, hTsub⟩ := cmf_go_spec hv w hw (ec.psize * 8 / w + 1) hQ
  have hcache : cached_multiples_fixwind ec Q w =
      cmf_go ec w (ec.psize * 8 / w + 1) Q := rfl
  obtain ⟨d₀, rest, hcons⟩ :=
    List.exists_cons_of_ne_nil (convert_ne_nil m (2 ^ w) hB)
  have hd₀ : d₀ < 2 ^ w :=
    convert_digit_lt m (2 ^ w) hB d₀ (by rw [hcons]; exact List.mem_cons_self _ _)
  have hrest : ∀ d ∈ rest, d < 2 ^ w := fun d hd =>
    convert_digit_lt m (2 ^ w) hB d (by rw [hcons]; exact List.mem_cons_of_mem _ hd)
  have hunf : mult_fixed_window_cached ec m Q w =
      table_get (cmf_go ec w (ec.psize * 8 / w + 1) Q) (rest.length + 1 - 1) d₀ >>=
        fun R => mfwc_loop ec (cmf_go ec w (ec.psize * 8 / w + 1) Q) rest
          (rest.length + 1 - 1) R := by
    rw [mult_fixed_window_cached, hcache, hcons]
    rfl
  have hm : d₀ * (2 ^ w) ^ rest.length + wsum (2 ^ w) rest rest.length = m := by
    have h1 := horner_convert m (2 ^ w) hB
    rw [hcons, horner_eq_wsum] at h1
    rw [show wsum (2 ^ w) (d₀ :: rest) ((d₀ :: rest).length) =
      d₀ * (2 ^ w) ^ ((d₀ :: rest).length - 1) +
        wsum (2 ^ w) rest ((d₀ :: rest).length - 1) from rfl] at h1
    simp only [List.length_cons, Nat.add_sub_cancel, zero_mul, zero_add] at h1
    exact h1
  constructor
  · intro hfit
    rw [hcons, List.length_cons] at hfit
    have hkT : rest.length + 1 - 1 < (cmf_go ec w (ec.psize * 8 / w + 1) Q).length := by
      rw [hTlen]
      omega
    have hsub := hTsub (rest.length + 1 - 1) (by rw [← hTlen]; exact hkT)
    have htg := table_get_ok _ (rest.length + 1 - 1) d₀ hkT (by rw [hsub.1]; exact hd₀)
    have hR₀ := hsub.2 d₀ hd₀
    have hloop := mfwc_loop_repr hv
      (fun t ht => (hTsub t (by rwa [hTlen] at ht)).1)
      (fun t ht => (hTsub t (by rwa [hTlen] at ht)).2)
      rest (rest.length + 1 - 1) hR₀ hrest (by omega) (by rw [hTlen]; omega)
    refine ⟨(mfwc_loop ec (cmf_go ec w (ec.psize * 8 / w + 1) Q) rest
      (rest.length + 1 - 1) (((cmf_go ec w (ec.psize * 8 / w + 1) Q).getD
      (rest.length + 1 - 1) []).getD d₀ INFJ)).toOption.get!, ?_, ?_⟩
    · rw [hunf, htg]
      exact hloop.1
    · have := hloop.2
      rwa [← add_nsmul, show rest.length + 1 - 1 = rest.length from rfl, hm] at this
  · intro hover
    rw [hcons, List.length_cons] at hover
    have htg := table_get_err (cmf_go ec w (ec.psize * 8 / w + 1) Q)
      (rest.length + 1 - 1) d₀ (by rw [hTlen]; omega)
    rw [hunf, htg]
    rfl

/-- The digit count of convert_number_to_base fits a bound of at least one
exactly for scalars below base ^ bound. -/
theorem convert_len_le_iff (m B L : ℕ) (hB : 2 ≤ B) (hL : 1 ≤ L) :
    (convert_number_to_base m B).length ≤ L ↔ m < B ^ L := by
  rw [convert_eq_digits_reverse m B hB]
  by_cases hm : m = 0
  · subst hm
    simp only [if_pos rfl, List.length_singleton]
    exact ⟨fun _ => pow_pos (by omega) L, fun _ => hL⟩
  · rw [if_neg hm, List.length_reverse, Nat.digits_len B m (by omega) hm]
    have hlog : m < B ^ L ↔ Nat.log B m < L := Nat.lt_pow_iff_log_lt (by omega) hm
    omega

theorem horner_replicate_zero (B k : ℕ) : horner B 0 (List.replicate k 0) = 0 := by
  induction k with
  | zero => rfl
  | succ k ih =>
    rw [List.replicate_succ, show horner B 0 (0 :: List.replicate k 0) =
      horner B (B * 0 + 0) (List.replicate k 0) from rfl]
    simpa using ih

/-- The Shamir-Strauss fold of double_mult: consuming one joint digit doubles
both accumulated scalars and adds the digit pair. -/
theorem double_mult_fold_repr [hp : Fact (Nat.Prime ec.pn)] (hv : ec.valid)
    {T : List JacPoint} {PH PQ : (Wc ec).Point}
    (hT : ∀ x y : ℕ, x < 2 → y < 2 →
      JacRepr ec (T.getD (x + 2 * y) INFJ) (x • PH + y • PQ)) :
    ∀ (l : List (ℕ × ℕ)), (∀ q ∈ l, q.1 < 2 ∧ q.2 < 2) →
      ∀ {R : JacPoint} {a b : ℕ}, JacRepr ec R (a • PH + b • PQ) →
      JacRepr ec (List.foldl (fun R i => add_jac ec (double_jac ec R) (T.getD i INFJ)) R
          (l.map fun jk => jk.1 + 2 * jk.2))
        ((horner 2 a (l.map Prod.fst)) • PH + (horner 2 b (l.map Prod.snd)) • PQ) := by
  intro l
  induction l with
  | nil =>
    intro _ R a b hR
    exact hR
  | cons q rest ih =>
    intro hq R a b hR
    obtain ⟨hq1, hq2⟩ := hq q (List.mem_cons_self q rest)
    rw [List.map_cons, List.foldl_cons, List.map_cons, List.map_cons,
      show horner 2 a (q.1 :: rest.map Prod.fst) =
        horner 2 (2 * a + q.1) (rest.map Prod.fst) from rfl,
      show horner 2 b (q.2 :: rest.map Prod.snd) =
        horner 2 (2 * b + q.2) (rest.map Prod.snd) from rfl]
    refine ih (fun x hx => hq x (List.mem_cons_of_mem q hx)) ?_
    have hstep := add_jac_repr hv (double_jac_repr hv hR) (hT q.1 q.2 hq1 hq2)
    rwa [show a • PH + b • PQ + (a • PH + b • PQ) + (q.1 • PH + q.2 • PQ) =
      (2 * a + q.1) • PH + (2 * b + q.2) • PQ by
        simp only [add_nsmul, two_mul, one_nsmul]
        abel] at hstep

/-- double_mult computes u H + v Q on representatives. -/
theorem double_mult_repr [hp : Fact (Nat.Prime ec.pn)] (hv : ec.valid)
    (u v : ℕ) {HJ QJ : JacPoint} {PH PQ : (Wc ec).Point}
    (hH : JacRepr ec HJ PH) (hQ : JacRepr ec QJ PQ) :
    JacRepr ec (double_mult ec u HJ v QJ) (u • PH + v • PQ) := by
  have h : good ec := ⟨hv, hp.out⟩
  have hT : ∀ x y : ℕ, x < 2 → y < 2 →
      JacRepr ec (([INFJ, HJ, QJ, add_jac ec HJ QJ] : List JacPoint).getD (x + 2 * y) INFJ)
        (x • PH + y • PQ) := by
    intro x y hx hy
    interval_cases x <;> interval_cases y
    · simpa [zero_nsmul] using JacRepr_INFJ h
    · simpa [zero_nsmul, one_nsmul, zero_add] using hQ
    · simpa [zero_nsmul, one_nsmul, add_zero] using hH
    · simpa [one_nsmul] using add_jac_repr hv hH hQ
  have hub : ∀ d ∈ bin_digits u, d < 2 := by
    rw [bin_digits_eq_convert]
    exact convert_digit_lt u 2 (by omega)
  have hvb : ∀ d ∈ bin_digits v, d < 2 := by
    rw [bin_digits_eq_convert]
    exact convert_digit_lt v 2 (by omega)
  have hubne : bin_digits u ≠ [] := by
    rw [bin_digits_eq_convert]
    exact convert_ne_nil u 2 (by omega)
  have hlu : (bin_digits u).length ≤ max (bin_digits u).length (bin_digits v).length :=
    le_max_left _ _
  have hlv : (bin_digits v).length ≤ max (bin_digits u).length (bin_digits v).length :=
    le_max_right _ _
  have hup : (List.replicate (max (bin_digits u).length (bin_digits v).length -
      (bin_digits u).length) 0 ++ bin_digits u).length =
      max (bin_digits u).length (bin_digits v).length := by
    simp only [List.length_append, List.length_replicate]
    omega
  have hvp : (List.replicate (max (bin_digits u).length (bin_digits v).length -
      (bin_digits v).length) 0 ++ bin_digits v).length =
      max (bin_digits u).length (bin_digits v).length := by
    simp only [List.length_append, List.length_replicate]
    omega
  set up := List.replicate (max (bin_digits u).length (bin_digits v).length -
    (bin_digits u).length) 0 ++ bin_digits u with hupd
  set vp := List.replicate (max (bin_digits u).length (bin_digits v).length -
    (bin_digits v).length) 0 ++ bin_digits v with hvpd
  have hupval : horner 2 0 up = u := by
    rw [hupd, horner_append, horner_replicate_zero, bin_digits_eq_convert]
    exact horner_convert u 2 (by omega)
  have hvpval : horner 2 0 vp = v := by
    rw [hvpd, horner_append, horner_replicate_zero, bin_digits_eq_convert]
    exact horner_convert v 2 (by omega)
  have huplt : ∀ d ∈ up, d < 2 := by
    intro d hd
    rcases List.mem_append.mp hd with hd | hd
    · have := List.eq_of_mem_replicate hd
      omega
    · exact hub d hd
  have hvplt : ∀ d ∈ vp, d < 2 := by
    intro d hd
    rcases List.mem_append.mp hd with hd | hd
    · have := List.eq_of_mem_replicate hd
      omega
    · exact hvb d hd
  have hzlen : (up.zip vp).length = max (bin_digits u).length (bin_digits v).length := by
    rw [List.length_zip, hup, hvp, min_self]
  have hzne : up.zip vp ≠ [] := by
    intro hc
    have h1 : 1 ≤ (bin_digits u).length := by
      cases hlist : bin_digits u with
      | nil => exact absurd hlist hubne
      | cons a l => simp [hlist]
    have := hzlen
    rw [hc] at this
    simp at this
    omega
  obtain ⟨q₀, zrest, hz⟩ := List.exists_cons_of_ne_nil hzne
  have hfst : (up.zip vp).map Prod.fst = up := List.map_fst_zip up vp (by omega)
  have hsnd : (up.zip vp).map Prod.snd = vp := List.map_snd_zip up vp (by omega)
  have hqmem : ∀ q ∈ up.zip vp, q.1 < 2 ∧ q.2 < 2 := by
    intro q hq
    have h1 := List.of_mem_zip hq
    exact ⟨huplt q.1 h1.1, hvplt q.2 h1.2⟩
  have hq₀ := hqmem q₀ (by rw [hz]; exact List.mem_cons_self _ _)
  have hR₀ : JacRepr ec (([INFJ, HJ, QJ, add_jac ec HJ QJ] : List JacPoint).getD
      (q₀.1 + 2 * q₀.2) INFJ) (q₀.1 • PH + q₀.2 • PQ) := hT q₀.1 q₀.2 hq₀.1 hq₀.2
  have hfold := double_mult_fold_repr hv hT zrest
    (fun q hq => hqmem q (by rw [hz]; exact List.mem_cons_of_mem _ hq)) hR₀
  have hu' : horner 2 q₀.1 (zrest.map Prod.fst) = u := by
    have : horner 2 0 ((q₀ :: zrest).map Prod.fst) =
        horner 2 (2 * 0 + q₀.1) (zrest.map Prod.fst) := rfl
    rw [← hupval, ← hfst, hz, this]
    norm_num
  have hv' : horner 2 q₀.2 (zrest.map Prod.snd) = v := by
    have : horner 2 0 ((q₀ :: zrest).map Prod.snd) =
        horner 2 (2 * 0 + q₀.2) (zrest.map Prod.snd) := rfl
    rw [← hvpval, ← hsnd, hz, this]
    norm_num
  rw [hu', hv'] at hfold
  rw [double_mult, joint_digits]
  simp only [← hupd, ← hvpd, hz, List.map_cons, List.headD_cons, List.tail_cons]
  exact hfold

/-! Verification of the heapq model: permutation facts, the heap-order
invariant, and the root-minimality that the Bos-Coster loop relies on. -/

section HeapqLemmas

variable {α : Type} [LinearOrder α] [Inhabited α]

theorem getD_set_self (l : List α) (i : ℕ) (a : α) (hi : i < l.length) :
    (l.set i a).getD i default = a := by
  rw [List.getD_eq_getElem _ _ (by simpa using hi)]
  exact List.getElem_set_eq _

theorem getD_set_ne (l : List α) {i j : ℕ} (hij : i ≠ j) (a : α) :
    (l.set i a).getD j default = l.getD j default := by
  rcases Nat.lt_or_ge j l.length with hj | hj
  · rw [List.getD_eq_getElem _ _ (by simpa using hj), List.getD_eq_getElem _ _ hj]
    exact List.getElem_set_ne hij _
  · rw [List.getD_eq_default _ _ (by simpa using hj), List.getD_eq_default _ _ hj]

theorem set_getD_self : ∀ (l : List α) (i : ℕ), i < l.length →
    l.set i (l.getD i default) = l := by
  intro l
  induction l with
  | nil => intro i hi; simp at hi
  | cons b t ih =>
    intro i hi
    match i with
    | 0 => rfl
    | i + 1 =>
      simp only [List.set_cons_succ, List.getD_cons_succ]
      rw [ih i (by simpa using hi)]

theorem getD_cons_head_perm : ∀ (l : List α) (j : ℕ), j < l.length → ∀ (b : α),
    (l.getD j default :: l.set j b).Perm (b :: l) := by
  intro l
  induction l with
  | nil => intro j hj; simp at hj
  | cons c t ih =>
    intro j hj b
    match j with
    | 0 => exact List.Perm.swap _ _ _
    | j + 1 =>
      simp only [List.getD_cons_succ, List.set_cons_succ]
      have h1 : (t.getD j default :: c :: t.set j b).Perm
          (c :: t.getD j default :: t.set j b) := List.Perm.swap _ _ _
      have h2 := List.Perm.cons c (ih j (by simpa using hj) b)
      have h3 : (c :: b :: t).Perm (b :: c :: t) := List.Perm.swap _ _ _
      exact (h1.trans h2).trans h3

theorem set_swap_perm : ∀ (l : List α) (i j : ℕ), i < l.length → j < l.length →
    ((l.set i (l.getD j default)).set j (l.getD i default)).Perm l := by
  intro l
  induction l with
  | nil => intro i j hi; simp at hi
  | cons c t ih =>
    intro i j hi hj
    match i, j with
    | 0, 0 =>
      simp only [List.getD_cons_zero, List.set_cons_zero]
      exact List.Perm.refl _
    | 0, j + 1 =>
      simp only [List.getD_cons_zero, List.getD_cons_succ, List.set_cons_zero,
        List.set_cons_succ]
      exact getD_cons_head_perm t j (by simpa using hj) c
    | i + 1, 0 =>
      simp only [List.getD_cons_zero, List.getD_cons_succ, List.set_cons_zero,
        List.set_cons_succ]
      exact getD_cons_head_perm t i (by simpa using hi) c
    | i + 1, j + 1 =>
      simp only [List.getD_cons_succ, List.set_cons_succ]
      exact List.Perm.cons c (ih i j (by simpa using hi) (by simpa using hj))

end HeapqLemmas

/-- pos lies in the subtree rooted at s (the parent chain from pos passes
through s): the relation between startpos and pos maintained by the heapq
routines. -/
def InSub (s : ℕ) (pos : ℕ) : Prop :=
  if _h : pos ≤ s then pos = s else InSub s ((pos - 1) / 2)
termination_by pos
decreasing_by
  omega

theorem InSub_le {s pos : ℕ} : InSub s pos → s ≤ pos := by
  rw [InSub]
  split
  · omega
  · omega

theorem InSub_self (s : ℕ) : InSub s s := by
  rw [InSub]
  simp

theorem InSub_parent {s pos : ℕ} (h : InSub s pos) (hlt : s < pos) :
    InSub s ((pos - 1) / 2) := by
  rw [InSub] at h
  rwa [dif_neg (by omega)] at h

theorem InSub_child {s t c : ℕ} (h : InSub s t) (hc : (c - 1) / 2 = t) (h0 : t < c) :
    InSub s c := by
  have hst := InSub_le h
  rw [InSub, dif_neg (by omega), hc]
  exact h

theorem InSub_zero : ∀ pos, InSub 0 pos := by
  intro pos
  induction pos using Nat.strong_induction_on with
  | _ pos ih =>
    rw [InSub]
    split
    · omega
    · exact ih ((pos - 1) / 2) (by omega)

section HeapOrder

variable {α : Type} [LinearOrder α] [Inhabited α]

/-- All heap edges whose parent index is at least k hold. -/
def HeapFrom (l : List α) (k : ℕ) : Prop :=
  ∀ i, 0 < i → i < l.length → k ≤ (i - 1) / 2 →
    l.getD ((i - 1) / 2) default ≤ l.getD i default

/-- The CPython heap invariant. -/
def IsHeap (l : List α) : Prop := HeapFrom l 0

theorem IsHeap_root_le {l : List α} (h : IsHeap l) :
    ∀ i, i < l.length → l.getD 0 default ≤ l.getD i default := by
  intro i
  induction i using Nat.strong_induction_on with
  | _ i ih =>
    intro hi
    rcases Nat.eq_zero_or_pos i with h0 | h0
    · subst h0
      exact le_refl _
    · exact le_trans (ih ((i - 1) / 2) (by omega) (by omega))
        (h i h0 hi (Nat.zero_le _))

theorem siftdown_go_eq (newitem : α) (s : ℕ) (l : List α) (pos : ℕ) :
    siftdown_go newitem s l pos =
      if s < pos then
        (if newitem < l.getD ((pos - 1) / 2) default
         then siftdown_go newitem s (l.set pos (l.getD ((pos - 1) / 2) default)) ((pos - 1) / 2)
         else l.set pos newitem)
      else l.set pos newitem := by
  rw [siftdown_go]
  rfl

theorem siftdown_go_length (newitem : α) (s : ℕ) :
    ∀ (pos : ℕ) (l : List α), (siftdown_go newitem s l pos).length = l.length := by
  intro pos
  induction pos using Nat.strong_induction_on with
  | _ pos ih =>
    intro l
    rw [siftdown_go_eq]
    split
    · split
      · rw [ih ((pos - 1) / 2) (by omega), List.length_set]
      · exact List.length_set _ _ _
    · exact List.length_set _ _ _

theorem siftdown_go_perm (newitem : α) (s : ℕ) :
    ∀ (pos : ℕ) (l : List α), pos < l.length →
      (siftdown_go newitem s l pos).Perm (l.set pos newitem) := by
  intro pos
  induction pos using Nat.strong_induction_on with
  | _ pos ih =>
    intro l hpos
    rw [siftdown_go_eq]
    split
    · rename_i hpos'
      split
      · rename_i hlt
        have hpp : (pos - 1) / 2 < l.length := by omega
        have hrec := ih ((pos - 1) / 2) (by omega) (l.set pos (l.getD ((pos - 1) / 2) default))
          (by rw [List.length_set]; omega)
        refine hrec.trans ?_
        have hcollapse : (l.set pos (l.getD ((pos - 1) / 2) default)).set ((pos - 1) / 2) newitem
            = ((l.set pos newitem).set pos
                ((l.set pos newitem).getD ((pos - 1) / 2) default)).set ((pos - 1) / 2)
                ((l.set pos newitem).getD pos default) := by
          rw [List.set_set, getD_set_ne _ (by omega) newitem,
            getD_set_self _ _ _ hpos]
        rw [hcollapse]
        exact set_swap_perm (l.set pos newitem) pos ((pos - 1) / 2)
          (by rw [List.length_set]; omega) (by rw [List.length_set]; omega)
      · exact List.Perm.refl _
    · exact List.Perm.refl _

set_option maxHeartbeats 1000000 in
/-- The bubble-up phase restores the heap order: if all edges with parent at
least startpos hold except possibly into pos, the children of pos dominate
newitem, and the grandparent of pos dominates the children of pos, then the
result satisfies the heap property from startpos on. -/
theorem siftdown_go_heap (newitem : α) (s : ℕ) :
    ∀ (pos : ℕ) (l : List α), pos < l.length → InSub s pos →
      (∀ i, 0 < i → i < l.length → i ≠ pos → s ≤ (i - 1) / 2 →
        l.getD ((i - 1) / 2) default ≤ l.getD i default) →
      (∀ c, 0 < c → c < l.length → (c - 1) / 2 = pos → newitem ≤ l.getD c default) →
      (∀ c, 0 < c → c < l.length → (c - 1) / 2 = pos → s < pos →
        l.getD ((pos - 1) / 2) default ≤ l.getD c default) →
      HeapFrom (siftdown_go newitem s l pos) s := by
  intro pos
  induction pos using Nat.strong_induction_on with
  | _ pos ih =>
    intro l hpos hsub hb hc hd
    rw [siftdown_go_eq]
    split
    · rename_i hspos
      split
      · rename_i hlt
        refine ih ((pos - 1) / 2) (by omega) _ (by rw [List.length_set]; omega)
          (InSub_parent hsub hspos) ?_ ?_ ?_
        · intro i h0 hi hine hsle
          rw [List.length_set] at hi
          by_cases hipos : i = pos
          · subst hipos
            rw [getD_set_self _ _ _ hpos, getD_set_ne _ (by omega) _]
          · by_cases hpari : (i - 1) / 2 = pos
            · rw [hpari, getD_set_self _ _ _ hpos, getD_set_ne _ (by omega) _]
              exact hd i h0 hi hpari hspos
            · rw [getD_set_ne _ (by omega) _, getD_set_ne _ (by omega) _]
              exact hb i h0 hi hipos hsle
        · intro c h0 hcl hparc
          rw [List.length_set] at hcl
          by_cases hcpos : c = pos
          · subst hcpos
            rw [getD_set_self _ _ _ hpos]
            exact le_of_lt hlt
          · rw [getD_set_ne _ (by omega) _]
            have hedge := hb c h0 hcl hcpos (by rw [hparc]; exact InSub_le (InSub_parent hsub hspos))
            rw [hparc] at hedge
            exact le_trans (le_of_lt hlt) hedge
        · intro c h0 hcl hparc hsppos
          rw [List.length_set] at hcl
          have hsubpp := InSub_parent hsub hspos
          have hsle2 : s ≤ (((pos - 1) / 2) - 1) / 2 := InSub_le (InSub_parent hsubpp hsppos)
          have hppne : (((pos - 1) / 2) - 1) / 2 ≠ pos := by omega
          have hedgepp := hb ((pos - 1) / 2) (by omega) (by omega) (by omega) hsle2
          by_cases hcpos : c = pos
          · subst hcpos
            rw [getD_set_self _ _ _ hpos, getD_set_ne _ (by omega) _]
            exact hedgepp
          · rw [getD_set_ne _ (by omega) _, getD_set_ne _ (by omega) _]
            have hedge := hb c h0 hcl hcpos (by rw [hparc]; exact InSub_le hsubpp)
            rw [hparc] at hedge
            exact le_trans hedgepp hedge
      · rename_i hnlt
        intro i h0 hi hsle
        rw [List.length_set] at hi
        rename_i hspos
        by_cases hipos : i = pos
        · subst hipos
          rw [getD_set_self _ _ _ hpos, getD_set_ne _ (by omega) _]
          exact le_of_not_lt hnlt
        · by_cases hpari : (i - 1) / 2 = pos
          · rw [hpari, getD_set_self _ _ _ hpos, getD_set_ne _ (by omega) _]
            exact hc i h0 hi hpari
          · rw [getD_set_ne _ (by omega) _, getD_set_ne _ (by omega) _]
            exact hb i h0 hi hipos hsle
    · rename_i hnspos
      have hpeq : pos = s := by
        have := InSub_le hsub
        omega
      subst hpeq
      intro i h0 hi hsle
      rw [List.length_set] at hi
      have hipos : i ≠ pos := by omega
      by_cases hpari : (i - 1) / 2 = pos
      · rw [hpari, getD_set_self _ _ _ hpos, getD_set_ne _ (by omega) _]
        exact hc i h0 hi hpari
      · rw [getD_set_ne _ (by omega) _, getD_set_ne _ (by omega) _]
        exact hb i h0 hi hipos hsle

/-- The child selected by the sink phase: the right child when it exists and
is not larger, else the left child. -/
def pickChild (l : List α) (pos : ℕ) : ℕ :=
  if 2 * pos + 1 + 1 < l.length ∧
      ¬ l.getD (2 * pos + 1) default < l.getD (2 * pos + 1 + 1) default
  then 2 * pos + 1 + 1 else 2 * pos + 1

theorem pickChild_parent (l : List α) (pos : ℕ) : (pickChild l pos - 1) / 2 = pos := by
  rw [pickChild]
  split <;> omega

theorem pickChild_gt (l : List α) (pos : ℕ) : pos < pickChild l pos := by
  rw [pickChild]
  split <;> omega

theorem pickChild_lt_length (l : List α) (pos : ℕ) (h : 2 * pos + 1 < l.length) :
    pickChild l pos < l.length := by
  rw [pickChild]
  split
  · rename_i hcond
    exact hcond.1
  · exact h

theorem pickChild_min (l : List α) (pos : ℕ) :
    ∀ c, 0 < c → c < l.length → (c - 1) / 2 = pos →
      l.getD (pickChild l pos) default ≤ l.getD c default := by
  intro c h0 hcl hpar
  have hcases : c = 2 * pos + 1 ∨ c = 2 * pos + 1 + 1 := by omega
  rw [pickChild]
  split
  · rename_i hcond
    rcases hcases with hc | hc
    · subst hc
      exact le_of_not_lt hcond.2
    · subst hc
      exact le_refl _
  · rename_i hcond
    rcases hcases with hc | hc
    · subst hc
      exact le_refl _
    · subst hc
      rw [not_and_or, not_not] at hcond
      rcases hcond with hlen | hlt
      · exact absurd hcl hlen
      · exact le_of_lt hlt

theorem siftup_go_eq (newitem : α) (l : List α) (pos : ℕ) :
    siftup_go newitem l pos =
      if 2 * pos + 1 < l.length then
        siftup_go newitem (l.set pos (l.getD (pickChild l pos) default)) (pickChild l pos)
      else (l.set pos newitem, pos) := by
  rw [siftup_go, pickChild]
  rfl

set_option maxHeartbeats 1600000 in
/-- The sink phase of _siftup: the hole descends to a leaf along smaller
children; the returned position is a leaf of the subtree of the starting
position holding newitem, the list is the original with newitem written at the
starting position up to permutation, and all heap edges from startpos hold
except possibly into the returned hole. -/
theorem siftup_go_spec (newitem : α) (s : ℕ) :
    ∀ (n : ℕ) (l : List α) (pos : ℕ), l.length - pos = n → pos < l.length → InSub s pos →
      (∀ i, 0 < i → i < l.length → i ≠ pos → (i - 1) / 2 ≠ pos → s ≤ (i - 1) / 2 →
        l.getD ((i - 1) / 2) default ≤ l.getD i default) →
      (∀ c, 0 < c → c < l.length → (c - 1) / 2 = pos → s < pos →
        l.getD ((pos - 1) / 2) default ≤ l.getD c default) →
      (siftup_go newitem l pos).1.length = l.length ∧
      (siftup_go newitem l pos).2 < l.length ∧
      InSub s (siftup_go newitem l pos).2 ∧
      ¬ (2 * (siftup_go newitem l pos).2 + 1 < l.length) ∧
      (siftup_go newitem l pos).1.getD (siftup_go newitem l pos).2 default = newitem ∧
      (∀ i, 0 < i → i < l.length → i ≠ (siftup_go newitem l pos).2 → s ≤ (i - 1) / 2 →
        (siftup_go newitem l pos).1.getD ((i - 1) / 2) default ≤
          (siftup_go newitem l pos).1.getD i default) ∧
      (siftup_go newitem l pos).1.Perm (l.set pos newitem) := by
  intro n
  induction n using Nat.strong_induction_on with
  | _ n ih =>
    intro l pos hn hpos hsub hb hd
    rw [siftup_go_eq]
    split
    · rename_i hchild
      have hc := pickChild_lt_length l pos hchild
      have hcgt := pickChild_gt l pos
      have hcpar := pickChild_parent l pos
      have hcne : pickChild l pos ≠ pos := by omega
      have hppne : pos ≠ pickChild l pos := by omega
      have hb2 : ∀ i, 0 < i → i < (l.set pos (l.getD (pickChild l pos) default)).length →
          i ≠ pickChild l pos → (i - 1) / 2 ≠ pickChild l pos → s ≤ (i - 1) / 2 →
          (l.set pos (l.getD (pickChild l pos) default)).getD ((i - 1) / 2) default ≤
            (l.set pos (l.getD (pickChild l pos) default)).getD i default := by
        intro i h0 hi hic hparic hsle
        rw [List.length_set] at hi
        by_cases hipos : i = pos
        · subst hipos
          have hppar : (i - 1) / 2 ≠ i := by omega
          rw [getD_set_ne _ (by omega) _, getD_set_self _ _ _ hpos]
          have hspos : s < i := by omega
          exact hd (pickChild l i) (by omega) hc hcpar hspos
        · by_cases hpari : (i - 1) / 2 = pos
          · rw [hpari, getD_set_self _ _ _ hpos, getD_set_ne _ (by omega) _]
            exact pickChild_min l pos i h0 hi hpari
          · rw [getD_set_ne _ (by omega) _, getD_set_ne _ (by omega) _]
            exact hb i h0 hi hipos hpari hsle
      have hd2 : ∀ c, 0 < c → c < (l.set pos (l.getD (pickChild l pos) default)).length →
          (c - 1) / 2 = pickChild l pos → s < pickChild l pos →
          (l.set pos (l.getD (pickChild l pos) default)).getD
            ((pickChild l pos - 1) / 2) default ≤
            (l.set pos (l.getD (pickChild l pos) default)).getD c default := by
        intro c h0 hcl hparc hsc
        rw [List.length_set] at hcl
        rw [hcpar, getD_set_self _ _ _ hpos, getD_set_ne _ (by omega) _, ← hparc]
        exact hb c h0 hcl (by omega) (by omega) (by omega)
      obtain ⟨r1, r2, r3, r4, r5, r6, r7⟩ := ih (l.length - pickChild l pos) (by omega)
        (l.set pos (l.getD (pickChild l pos) default)) (pickChild l pos)
        (by rw [List.length_set]) (by rw [List.length_set]; exact hc)
        (InSub_child hsub hcpar (by omega)) hb2 hd2
      rw [List.length_set] at r1 r2 r4 r6
      refine ⟨r1, r2, r3, r4, r5, r6, ?_⟩
      refine r7.trans ?_
      have hcollapse : (l.set pos (l.getD (pickChild l pos) default)).set
            (pickChild l pos) newitem
          = ((l.set pos newitem).set pos
              ((l.set pos newitem).getD (pickChild l pos) default)).set (pickChild l pos)
              ((l.set pos newitem).getD pos default) := by
        rw [List.set_set, getD_set_ne _ hppne _, getD_set_self _ _ _ hpos]
      rw [hcollapse]
      exact set_swap_perm (l.set pos newitem) pos (pickChild l pos)
        (by rw [List.length_set]; omega) (by rw [List.length_set]; omega)
    · rename_i hleaf
      refine ⟨List.length_set _ _ _, hpos, hsub, hleaf, getD_set_self _ _ _ hpos, ?_,
        List.Perm.refl _⟩
      intro i h0 hi hine hsle
      have hparine : (i - 1) / 2 ≠ pos := by omega
      by_cases hipos : i = pos
      · exact absurd hipos hine
      · rw [getD_set_ne _ (by omega) _, getD_set_ne _ (by omega) _]
        exact hb i h0 hi hipos hparine hsle

theorem siftup_eq (l : List α) (pos : ℕ) :
    siftup l pos = siftdown_go (l.getD pos default) pos
      (siftup_go (l.getD pos default) l pos).1
      (siftup_go (l.getD pos default) l pos).2 := by
  rw [siftup]

/-- _siftup restores the heap order at pos given that it holds strictly below
pos, preserving the multiset. -/
theorem siftup_spec (l : List α) (s : ℕ) (hs : s < l.length)
    (hE : ∀ i, 0 < i → i < l.length → s + 1 ≤ (i - 1) / 2 →
      l.getD ((i - 1) / 2) default ≤ l.getD i default) :
    (siftup l s).length = l.length ∧ (siftup l s).Perm l ∧ HeapFrom (siftup l s) s := by
  obtain ⟨r1, r2, r3, r4, r5, r6, r7⟩ := siftup_go_spec (l.getD s default) s
    (l.length - s) l s rfl hs (InSub_self s)
    (fun i h0 hi _ hparine hsle => hE i h0 hi (by omega))
    (fun c _ _ _ hss => absurd hss (lt_irrefl s))
  rw [siftup_eq]
  have hvac : ∀ c, 0 < c → c < (siftup_go (l.getD s default) l s).1.length →
      (c - 1) / 2 = (siftup_go (l.getD s default) l s).2 → False := by
    intro c h0 hcl hpar
    rw [r1] at hcl
    omega
  refine ⟨?_, ?_, ?_⟩
  · rw [siftdown_go_length, r1]
  · have hperm := siftdown_go_perm (l.getD s default) s
      (siftup_go (l.getD s default) l s).2 (siftup_go (l.getD s default) l s).1
      (by rw [r1]; exact r2)
    have hsame := set_getD_self (siftup_go (l.getD s default) l s).1
      (siftup_go (l.getD s default) l s).2 (by rw [r1]; exact r2)
    rw [r5] at hsame
    rw [hsame] at hperm
    refine hperm.trans (r7.trans ?_)
    rw [set_getD_self _ _ hs]
  · refine siftdown_go_heap (l.getD s default) s (siftup_go (l.getD s default) l s).2
      (siftup_go (l.getD s default) l s).1 (by rw [r1]; exact r2) r3 ?_ ?_ ?_
    · intro i h0 hi hine hsle
      rw [r1] at hi
      exact r6 i h0 hi hine hsle
    · intro c h0 hcl hpar
      exact absurd hpar (fun hp => hvac c h0 hcl hp)
    · intro c h0 hcl hpar _
      exact absurd hpar (fun hp => hvac c h0 hcl hp)

/-- heappush preserves the heap order and adds the item. -/
theorem heappush_spec (l : List α) (x : α) (h : IsHeap l) :
    (heappush l x).length = l.length + 1 ∧ (heappush l x).Perm (x :: l) ∧
    IsHeap (heappush l x) := by
  have hlen : (l ++ [x]).length = l.length + 1 := by simp
  have hget : (l ++ [x]).getD l.length default = x := by
    rw [List.getD_append_right _ _ _ _ (le_refl _), Nat.sub_self]
    rfl
  refine ⟨?_, ?_, ?_⟩
  · rw [heappush, siftdown_go_length, hlen]
  · rw [heappush]
    have hperm := siftdown_go_perm x 0 l.length (l ++ [x]) (by rw [hlen]; omega)
    have hsame := set_getD_self (l ++ [x]) l.length (by rw [hlen]; omega)
    rw [hget] at hsame
    rw [hsame] at hperm
    exact hperm.trans (List.perm_append_singleton x l)
  · rw [heappush]
    refine siftdown_go_heap x 0 l.length (l ++ [x]) (by rw [hlen]; omega) (InSub_zero _) ?_ ?_ ?_
    · intro i h0 hi hine _
      rw [hlen] at hi
      have hil : i < l.length := by omega
      have hpil : (i - 1) / 2 < l.length := by omega
      rw [List.getD_append _ _ _ _ hil, List.getD_append _ _ _ _ hpil]
      exact h i h0 hil (Nat.zero_le _)
    · intro c h0 hcl hpar
      rw [hlen] at hcl
      omega
    · intro c h0 hcl hpar _
      rw [hlen] at hcl
      omega

theorem heappop_eq (l : List α) :
    heappop l = if l.dropLast.isEmpty then (l.getLast?.getD default, ([] : List α))
      else (l.dropLast.headD default,
        siftup (l.dropLast.set 0 (l.getLast?.getD default)) 0) := by
  rw [heappop]

/-- heappop returns the root, which is a minimum, and reheapifies the rest. -/
theorem heappop_spec (l : List α) (hne : l ≠ []) (h : IsHeap l) :
    ((heappop l).1 :: (heappop l).2).Perm l ∧
    (heappop l).2.length = l.length - 1 ∧
    IsHeap (heappop l).2 ∧
    (∀ y ∈ (heappop l).2, (heappop l).1 ≤ y) := by
  have hdl : l.dropLast ++ [l.getLast?.getD default] = l := by
    rw [List.getLast?_eq_getLast l hne]
    exact List.dropLast_append_getLast hne
  have hgmem : l.getLast?.getD default ∈ l := by
    rw [List.getLast?_eq_getLast l hne]
    exact List.getLast_mem hne
  by_cases hone : l.dropLast.isEmpty
  · have hrem : l.dropLast = [] := List.isEmpty_iff.mp hone
    obtain ⟨a, t, hat⟩ := List.exists_cons_of_ne_nil hne
    have hlt : t = [] := by
      have h1 := List.length_dropLast l
      rw [hrem, hat] at h1
      simp at h1
      exact List.eq_nil_of_length_eq_zero h1.symm
    subst hlt
    subst hat
    have hpop : heappop [a] = (a, []) := rfl
    rw [hpop]
    refine ⟨List.Perm.refl _, rfl, ?_, ?_⟩
    · intro i h0 hi _
      simp at hi
    · intro y hy
      simp at hy
  · have hremne : l.dropLast ≠ [] := fun hc => hone (by rw [hc]; rfl)
    obtain ⟨h₀, t, hrem⟩ := List.exists_cons_of_ne_nil hremne
    have hlen1 : l.dropLast.length = l.length - 1 := List.length_dropLast l
    have hlen2 : 1 ≤ l.dropLast.length := by
      rw [hrem]
      simp
    have hbase : l.dropLast.set 0 (l.getLast?.getD default) =
        l.getLast?.getD default :: t := by
      rw [hrem, List.set_cons_zero]
    have hlen3 : 2 ≤ l.length := by
      have := l.length_dropLast
      omega
    have hl0 : l.getD 0 default = h₀ := by
      have h1 : l.dropLast.getD 0 default = h₀ := by
        rw [hrem]
        rfl
      rw [← h1, List.getD_eq_getElem _ _ (show (0 : ℕ) < l.length by omega),
        List.getD_eq_getElem _ _ (show (0 : ℕ) < l.dropLast.length by omega),
        List.getElem_dropLast]
    have hE : ∀ i, 0 < i → i < (l.dropLast.set 0 (l.getLast?.getD default)).length →
        0 + 1 ≤ (i - 1) / 2 →
        (l.dropLast.set 0 (l.getLast?.getD default)).getD ((i - 1) / 2) default ≤
          (l.dropLast.set 0 (l.getLast?.getD default)).getD i default := by
      intro i h0 hi hp
      rw [List.length_set] at hi
      have hgi : (l.dropLast.set 0 (l.getLast?.getD default)).getD i default =
          l.getD i default := by
        rw [getD_set_ne _ (by omega) _, List.getD_eq_getElem _ _ (by omega),
          List.getElem_dropLast, ← List.getD_eq_getElem _ default (by omega)]
      have hgp : (l.dropLast.set 0 (l.getLast?.getD default)).getD ((i - 1) / 2) default =
          l.getD ((i - 1) / 2) default := by
        rw [getD_set_ne _ (by omega) _, List.getD_eq_getElem _ _ (by omega),
          List.getElem_dropLast, ← List.getD_eq_getElem _ default (by omega)]
      rw [hgi, hgp]
      exact h i h0 (by omega) (Nat.zero_le _)
    obtain ⟨s1, s2, s3⟩ := siftup_spec (l.dropLast.set 0 (l.getLast?.getD default)) 0
      (by rw [List.length_set]; omega) hE
    rw [heappop_eq, if_neg hone]
    have hhead : l.dropLast.headD default = h₀ := by
      rw [hrem]
      rfl
    refine ⟨?_, ?_, s3, ?_⟩
    · have hp1 : (l.dropLast.headD default ::
          siftup (l.dropLast.set 0 (l.getLast?.getD default)) 0).Perm
          (l.dropLast.headD default :: (l.getLast?.getD default :: t)) := by
        refine List.Perm.cons _ ?_
        rw [← hbase]
        exact s2
      refine hp1.trans ?_
      rw [hhead]
      have hp2 : (h₀ :: l.getLast?.getD default :: t).Perm
          (l.getLast?.getD default :: h₀ :: t) := List.Perm.swap _ _ _
      refine hp2.trans ?_
      have hp3 : ((h₀ :: t) ++ [l.getLast?.getD default]).Perm
          (l.getLast?.getD default :: (h₀ :: t)) := List.perm_append_singleton _ _
      refine hp3.symm.trans ?_
      rw [← hrem, hdl]
    · rw [s1, List.length_set, hlen1]
    · intro y hy
      have hy2 : y ∈ l.getLast?.getD default :: t := by
        rw [← hbase]
        exact s2.mem_iff.mp hy
      have hyl : y ∈ l := by
        rcases List.mem_cons.mp hy2 with hy3 | hy3
        · rw [hy3]
          exact hgmem
        · have hyd : y ∈ l.dropLast := by
            rw [hrem]
            exact List.mem_cons_of_mem _ hy3
          exact (List.dropLast_sublist l).mem hyd
      obtain ⟨i, hi, hiy⟩ := List.mem_iff_getElem.mp hyl
      rw [hhead, ← hl0, ← hiy, ← List.getD_eq_getElem l default hi]
      exact IsHeap_root_le h i hi

/-- heapify_go: processing positions k-1, ..., 0 turns the all-subtrees-from-k
property into the full heap property, preserving the multiset. -/
theorem heapify_go_spec : ∀ (k : ℕ) (l : List α), k ≤ l.length → HeapFrom l k →
    (heapify_go l k).length = l.length ∧ (heapify_go l k).Perm l ∧
    IsHeap (heapify_go l k) := by
  intro k
  induction k with
  | zero =>
    intro l _ hF
    exact ⟨rfl, List.Perm.refl l, hF⟩
  | succ k ih =>
    intro l hk hF
    have hE : ∀ i, 0 < i → i < l.length → k + 1 ≤ (i - 1) / 2 →
        l.getD ((i - 1) / 2) default ≤ l.getD i default :=
      fun i h0 hi hp => hF i h0 hi hp
    obtain ⟨s1, s2, s3⟩ := siftup_spec l k (by omega) hE
    have hh : heapify_go l (k + 1) = heapify_go (siftup l k) k := rfl
    obtain ⟨t1, t2, t3⟩ := ih (siftup l k) (by omega) s3
    rw [hh]
    exact ⟨by rw [t1, s1], t2.trans s2, t3⟩

/-- heapify establishes the heap invariant and permutes the input. -/
theorem heapify_spec (x : List α) :
    (heapify x).length = x.length ∧ (heapify x).Perm x ∧ IsHeap (heapify x) := by
  rw [heapify]
  refine heapify_go_spec (x.length / 2) x (by omega) ?_
  intro i h0 hi hp
  omega

/-! Bos-Coster loop of multi_mult: representation of entry lists. -/

/-- The heap entry e stands for the group point P = (-e.n)-times a point
represented by its Jacobian component; entries always carry negated positive
scalars. -/
def EntOK (ec : CurveGroup) [Fact (Nat.Prime ec.pn)] (e : Entry) (P : (Wc ec).Point) : Prop :=
  e.n < 0 ∧ ∃ PJ, JacRepr ec e.pt PJ ∧ P = (-e.n).toNat • PJ

/-- The entry list stands for the sum S of its entries. -/
def HeapRepr (ec : CurveGroup) [Fact (Nat.Prime ec.pn)] : List Entry → (Wc ec).Point → Prop
  | [], S => S = 0
  | e :: rest, S => ∃ P S', EntOK ec e P ∧ HeapRepr ec rest S' ∧ S = P + S'

theorem HeapRepr_perm {ec : CurveGroup} [Fact (Nat.Prime ec.pn)] {l₁ l₂ : List Entry} (hperm : l₁.Perm l₂) :
    ∀ {S : (Wc ec).Point}, HeapRepr ec l₁ S → HeapRepr ec l₂ S := by
  induction hperm with
  | nil =>
    intro S hS
    exact hS
  | cons x h ih =>
    intro S hS
    obtain ⟨P, S', hE, hR, hsum⟩ := hS
    exact ⟨P, S', hE, ih hR, hsum⟩
  | swap x y l =>
    intro S hS
    obtain ⟨P, S', hE, ⟨P2, S2, hE2, hR2, hsum2⟩, hsum⟩ := hS
    refine ⟨P2, P + S2, hE2, ⟨P, S2, hE, hR2, rfl⟩, ?_⟩
    rw [hsum, hsum2, add_left_comm]
  | trans h₁ h₂ ih₁ ih₂ =>
    intro S hS
    exact ih₂ (ih₁ hS)

/-- Total scalar mass of an entry list, dominating the running time of the
Bos-Coster loop. -/
def entMass (L : List Entry) : ℕ := (L.map (fun e => (-e.n).toNat)).sum

theorem entMass_perm {l₁ l₂ : List Entry} (hperm : l₁.Perm l₂) :
    entMass l₁ = entMass l₂ := by
  rw [entMass, entMass]
  exact (hperm.map _).sum_eq

theorem length_le_entMass {ec : CurveGroup} [Fact (Nat.Prime ec.pn)] :
    ∀ {L : List Entry} {S : (Wc ec).Point}, HeapRepr ec L S → L.length ≤ entMass L := by
  intro L
  induction L with
  | nil =>
    intro S _
    simp [entMass]
  | cons e rest ih =>
    intro S hS
    obtain ⟨P, S', hE, hR, -⟩ := hS
    have h1 : 1 ≤ (-e.n).toNat := by
      have := hE.1
      omega
    have h2 := ih hR
    simp only [entMass, List.map_cons, List.sum_cons, List.length_cons]
    simp only [entMass] at h2
    omega

/-- One iteration of the Bos-Coster loop, written without intermediate
bindings. -/
def bc_step (ec : CurveGroup) (h : List Entry) : List Entry :=
  heappush (if 0 < -(heappop h).1.n - -(heappop (heappop h).2).1.n
    then heappush (heappop (heappop h).2).2
      ⟨-(-(heappop h).1.n - -(heappop (heappop h).2).1.n), (heappop h).1.pt⟩
    else (heappop (heappop h).2).2)
    ⟨-(-(heappop (heappop h).2).1.n),
      add_jac ec (heappop h).1.pt (heappop (heappop h).2).1.pt⟩

theorem bc_loop_eq (ec : CurveGroup) (fuel : ℕ) (h : List Entry) :
    bc_loop ec (fuel + 1) h =
      if h.length ≤ 1 then .ok h else bc_loop ec fuel (bc_step ec h) := rfl

set_option maxHeartbeats 1600000 in
/-- The Bos-Coster loop succeeds on any heap whose mass fits the fuel and
returns a representation of the same total sum, as a heap of at most one
entry, preserving nonemptiness. -/
theorem bc_loop_spec [hp : Fact (Nat.Prime ec.pn)] (hv : ec.valid) :
    ∀ (fuel : ℕ) (L : List Entry) (S : (Wc ec).Point),
      IsHeap L → HeapRepr ec L S → entMass L ≤ fuel →
      ∃ L', bc_loop ec fuel L = .ok L' ∧ L'.length ≤ 1 ∧ HeapRepr ec L' S ∧
        (L ≠ [] → L' ≠ []) := by
  intro fuel
  induction fuel with
  | zero =>
    intro L S hHeap hRepr hMass
    have hlen := length_le_entMass hRepr
    have hlen1 : L.length ≤ 1 := by omega
    refine ⟨L, ?_, hlen1, hRepr, fun h => h⟩
    rw [show bc_loop ec 0 L = if L.length ≤ 1 then .ok L else .error "loop fuel exhausted"
      from rfl, if_pos hlen1]
  | succ fuel ih =>
    intro L S hHeap hRepr hMass
    rw [bc_loop_eq]
    by_cases hlen1 : L.length ≤ 1
    · rw [if_pos hlen1]
      exact ⟨L, rfl, hlen1, hRepr, fun h => h⟩
    · rw [if_neg hlen1]
      have hLne : L ≠ [] := by
        intro hc
        rw [hc] at hlen1
        simp at hlen1
      obtain ⟨q1, q2, q3, q4⟩ := heappop_spec L hLne hHeap
      have hL2ne : (heappop L).2 ≠ [] := by
        intro hc
        rw [hc] at q2
        simp at q2
        omega
      obtain ⟨w1, w2, w3, w4⟩ := heappop_spec (heappop L).2 hL2ne q3
      have hR1 : HeapRepr ec ((heappop L).1 :: (heappop L).2) S := HeapRepr_perm q1.symm hRepr
      obtain ⟨P1, S1, hE1, hRrest1, hsum1⟩ := hR1
      have hR2 : HeapRepr ec ((heappop (heappop L).2).1 :: (heappop (heappop L).2).2) S1 :=
        HeapRepr_perm w1.symm hRrest1
      obtain ⟨P2, S2, hE2, hRrest2, hsum2⟩ := hR2
      obtain ⟨hneg1, PJ1, hJ1, hP1⟩ := hE1
      obtain ⟨hneg2, PJ2, hJ2, hP2⟩ := hE2
      have hmem2 : (heappop (heappop L).2).1 ∈ (heappop L).2 :=
        w1.mem_iff.mp (List.mem_cons_self _ _)
      have hle12 : (heappop L).1 ≤ (heappop (heappop L).2).1 := q4 _ hmem2
      have hn12 : (heappop L).1.n ≤ (heappop (heappop L).2).1.n := Entry.n_le_of_le hle12
      have hp2J : JacRepr ec (add_jac ec (heappop L).1.pt (heappop (heappop L).2).1.pt)
          (PJ1 + PJ2) := add_jac_repr hv hJ1 hJ2
      -- the optional push-back of the difference
      by_cases hdiff : 0 < -(heappop L).1.n - -(heappop (heappop L).2).1.n
      · obtain ⟨u1, u2, u3⟩ := heappush_spec (heappop (heappop L).2).2
          ⟨-(-(heappop L).1.n - -(heappop (heappop L).2).1.n), (heappop L).1.pt⟩ w3
        obtain ⟨v1, v2, v3⟩ := heappush_spec _
          ⟨-(-(heappop (heappop L).2).1.n),
            add_jac ec (heappop L).1.pt (heappop (heappop L).2).1.pt⟩ u3
        have hRmid : HeapRepr ec (heappush (heappop (heappop L).2).2
            ⟨-(-(heappop L).1.n - -(heappop (heappop L).2).1.n), (heappop L).1.pt⟩)
            ((-(heappop L).1.n - -(heappop (heappop L).2).1.n).toNat • PJ1 + S2) := by
          refine HeapRepr_perm u2.symm ⟨_, S2,
            ⟨by show -(-(heappop L).1.n - -(heappop (heappop L).2).1.n) < 0; omega,
              PJ1, hJ1, ?_⟩, hRrest2, rfl⟩
          simp
        have hRfin : HeapRepr ec (bc_step ec L)
            ((-(heappop (heappop L).2).1.n).toNat •
              (PJ1 + PJ2) +
              ((-(heappop L).1.n - -(heappop (heappop L).2).1.n).toNat • PJ1 + S2)) := by
          rw [bc_step, if_pos hdiff]
          refine HeapRepr_perm v2.symm ⟨_, _,
            ⟨by show -(-(heappop (heappop L).2).1.n) < 0; omega,
              PJ1 + PJ2, hp2J, ?_⟩, hRmid, rfl⟩
          simp
        have hSeq : (-(heappop (heappop L).2).1.n).toNat • (PJ1 + PJ2) +
            ((-(heappop L).1.n - -(heappop (heappop L).2).1.n).toNat • PJ1 + S2) = S := by
          rw [hsum1, hsum2, hP1, hP2]
          rw [nsmul_add]
          have hsplit : (-(heappop L).1.n).toNat =
              (-(heappop L).1.n - -(heappop (heappop L).2).1.n).toNat +
                (-(heappop (heappop L).2).1.n).toNat := by omega
          rw [hsplit, add_nsmul]
          abel
        rw [hSeq] at hRfin
        have hIsHeap : IsHeap (bc_step ec L) := by
          rw [bc_step, if_pos hdiff]
          exact v3
        have hMassStep : entMass (bc_step ec L) ≤ fuel := by
          have hm0 : entMass L = entMass ((heappop L).1 :: (heappop L).2) :=
            entMass_perm q1.symm
          have hm1 : entMass (heappop L).2 =
              entMass ((heappop (heappop L).2).1 :: (heappop (heappop L).2).2) :=
            entMass_perm w1.symm
          have hm2 : entMass (bc_step ec L) = entMass (heappush (heappop (heappop L).2).2
              ⟨-(-(heappop L).1.n - -(heappop (heappop L).2).1.n), (heappop L).1.pt⟩) +
              (-(heappop (heappop L).2).1.n).toNat := by
            rw [bc_step, if_pos hdiff]
            have := entMass_perm v2
            simp only [entMass, List.map_cons, List.sum_cons] at this ⊢
            omega
          have hm3 := entMass_perm u2
          simp only [entMass, List.map_cons, List.sum_cons] at hm0 hm1 hm2 hm3 ⊢
          simp only [entMass] at hMass
          omega
        obtain ⟨L', z1, z2, z3, z4⟩ := ih (bc_step ec L) S hIsHeap hRfin hMassStep
        refine ⟨L', z1, z2, z3, fun _ => z4 ?_⟩
        intro hc
        rw [bc_step, if_pos hdiff] at hc
        have hlc := congrArg List.length hc
        rw [v1] at hlc
        simp at hlc
      · obtain ⟨v1, v2, v3⟩ := heappush_spec (heappop (heappop L).2).2
          ⟨-(-(heappop (heappop L).2).1.n),
            add_jac ec (heappop L).1.pt (heappop (heappop L).2).1.pt⟩ w3
        have hneq : -(heappop L).1.n = -(heappop (heappop L).2).1.n := by omega
        have hRfin : HeapRepr ec (bc_step ec L)
            ((-(heappop (heappop L).2).1.n).toNat • (PJ1 + PJ2) + S2) := by
          rw [bc_step, if_neg hdiff]
          refine HeapRepr_perm v2.symm ⟨_, S2,
            ⟨by show -(-(heappop (heappop L).2).1.n) < 0; omega,
              PJ1 + PJ2, hp2J, ?_⟩, hRrest2, rfl⟩
          simp
        have hSeq : (-(heappop (heappop L).2).1.n).toNat • (PJ1 + PJ2) + S2 = S := by
          rw [hsum1, hsum2, hP1, hP2, nsmul_add, hneq]
          abel
        rw [hSeq] at hRfin
        have hIsHeap : IsHeap (bc_step ec L) := by
          rw [bc_step, if_neg hdiff]
          exact v3
        have hMassStep : entMass (bc_step ec L) ≤ fuel := by
          have hm0 : entMass L = entMass ((heappop L).1 :: (heappop L).2) :=
            entMass_perm q1.symm
          have hm1 : entMass (heappop L).2 =
              entMass ((heappop (heappop L).2).1 :: (heappop (heappop L).2).2) :=
            entMass_perm w1.symm
          have hm2 : entMass (bc_step ec L) = entMass (heappop (heappop L).2).2 +
              (-(heappop (heappop L).2).1.n).toNat := by
            rw [bc_step, if_neg hdiff]
            have := entMass_perm v2
            simp only [entMass, List.map_cons, List.sum_cons] at this ⊢
            omega
          simp only [entMass, List.map_cons, List.sum_cons] at hm0 hm1 hm2 ⊢
          simp only [entMass] at hMass
          omega
        obtain ⟨L', z1, z2, z3, z4⟩ := ih (bc_step ec L) S hIsHeap hRfin hMassStep
        refine ⟨L', z1, z2, z3, fun _ => z4 ?_⟩
        intro hc
        rw [bc_step, if_neg hdiff] at hc
        have hlc := congrArg List.length hc
        rw [v1] at hlc
        simp at hlc

/-- The scalar/point input pairs of multi_mult stand for the sum S of the
scalar multiples, with all scalars nonnegative. -/
def PairsRepr (ec : CurveGroup) [Fact (Nat.Prime ec.pn)] :
    List (ℤ × JacPoint) → (Wc ec).Point → Prop
  | [], S => S = 0
  | q :: rest, S => ∃ PJ S', 0 ≤ q.1 ∧ JacRepr ec q.2 PJ ∧ PairsRepr ec rest S' ∧
      S = q.1.toNat • PJ + S'

/-- build_entries on nonnegative scalars: success, the entry list represents
the same sum, and the scalar mass is bounded by the sum of the scalars. -/
theorem build_entries_spec [hp : Fact (Nat.Prime ec.pn)] :
    ∀ (ps : List (ℤ × JacPoint)) (S : (Wc ec).Point), PairsRepr ec ps S →
      ∃ L, build_entries ps = .ok L ∧ HeapRepr ec L S ∧
        entMass L ≤ (ps.map (fun q => q.1.toNat)).sum := by
  intro ps
  induction ps with
  | nil =>
    intro S hS
    exact ⟨[], rfl, hS, by simp [entMass]⟩
  | cons q rest ih =>
    intro S hS
    obtain ⟨PJ, S', hq0, hJ, hrest, hsum⟩ := hS
    obtain ⟨L', hok, hR, hM⟩ := ih S' hrest
    by_cases hq : q.1 = 0
    · have hstep : build_entries (q :: rest) = build_entries rest := by
        rw [build_entries, if_pos hq]
      refine ⟨L', by rw [hstep, hok], ?_, ?_⟩
      · rwa [hsum, hq, Int.toNat_zero, zero_nsmul, zero_add]
      · refine le_trans hM ?_
        simp
    · have hstep : build_entries (q :: rest) =
          (build_entries rest).map (fun x => ⟨-q.1, q.2⟩ :: x) := by
        rw [build_entries, if_neg hq, if_neg (by omega)]
        rfl
      refine ⟨⟨-q.1, q.2⟩ :: L', ?_, ?_, ?_⟩
      · rw [hstep, hok]
        rfl
      · refine ⟨q.1.toNat • PJ, S', ⟨by show -q.1 < 0; omega, PJ, hJ, ?_⟩, hR, hsum⟩
        simp
      · simp only [entMass, List.map_cons, List.sum_cons]
        simp only [entMass] at hM
        have : (- -q.1).toNat = q.1.toNat := by omega
        omega

theorem multi_mult_mismatch (ec : CurveGroup) (scalars : List ℤ) (JPoints : List JacPoint)
    (h : scalars.length ≠ JPoints.length) :
    multi_mult ec scalars JPoints =
      .error "mismatch between number of scalars and points" := by
  rw [multi_mult, if_pos h]
  rfl

theorem multi_mult_ok_eq (ec : CurveGroup) (scalars : List ℤ) (JPoints : List JacPoint)
    (h : scalars.length = JPoints.length) :
    multi_mult ec scalars JPoints =
      (build_entries (scalars.zip JPoints)).bind (fun x =>
        if x.isEmpty then .ok INFJ
        else (bc_loop ec (scalars.map Int.toNat).sum (heapify x)).bind (fun fin =>
          .ok (mult ec (-(heappop fin).1.n).toNat (heappop fin).1.pt))) := by
  rw [multi_mult, if_neg (by simp [h])]
  rfl

/-- multi_mult succeeds on length-matched nonnegative inputs and returns a
Jacobian representative of the total sum. -/
theorem multi_mult_spec [hp : Fact (Nat.Prime ec.pn)] (hv : ec.valid)
    (scalars : List ℤ) (JPoints : List JacPoint) (S : (Wc ec).Point)
    (hlen : scalars.length = JPoints.length)
    (hPR : PairsRepr ec (scalars.zip JPoints) S) :
    ∃ R, multi_mult ec scalars JPoints = .ok R ∧ JacRepr ec R S := by
  have h : good ec := ⟨hv, hp.out⟩
  obtain ⟨L, hok, hR, hM⟩ := build_entries_spec (scalars.zip JPoints) S hPR
  have hfuel : entMass L ≤ (scalars.map Int.toNat).sum := by
    refine le_trans hM ?_
    have hmap : (scalars.zip JPoints).map (fun q => q.1.toNat) = scalars.map Int.toNat := by
      rw [show (fun q : ℤ × JacPoint => q.1.toNat) = Int.toNat ∘ Prod.fst from rfl,
        ← List.map_map, List.map_fst_zip _ _ (le_of_eq hlen)]
    rw [hmap]
  by_cases hemp : L.isEmpty
  · have hLnil : L = [] := List.isEmpty_iff.mp hemp
    have hS0 : S = 0 := by
      rw [hLnil] at hR
      exact hR
    refine ⟨INFJ, ?_, ?_⟩
    · rw [multi_mult_ok_eq ec scalars JPoints hlen, hok]
      show (if L.isEmpty then Except.ok INFJ
        else (bc_loop ec (scalars.map Int.toNat).sum (heapify L)).bind _) = Except.ok INFJ
      rw [if_pos hemp]
    · rw [hS0]
      exact JacRepr_INFJ h
  · have hLne : L ≠ [] := fun hc => hemp (by rw [hc]; rfl)
    obtain ⟨e1, e2, e3⟩ := heapify_spec L
    have hRh : HeapRepr ec (heapify L) S := HeapRepr_perm e2.symm hR
    have hMh : entMass (heapify L) ≤ (scalars.map Int.toNat).sum := by
      rw [entMass_perm e2]
      exact hfuel
    obtain ⟨L', z1, z2, z3, z4⟩ :=
      bc_loop_spec hv (scalars.map Int.toNat).sum (heapify L) S e3 hRh hMh
    have hL'ne : L' ≠ [] := by
      refine z4 ?_
      intro hc
      have := congrArg List.length hc
      rw [e1] at this
      simp at this
      exact hLne this
    obtain ⟨e, t, het⟩ := List.exists_cons_of_ne_nil hL'ne
    have ht : t = [] := by
      have h2 := z2
      rw [het, List.length_cons] at h2
      exact List.eq_nil_of_length_eq_zero (by omega)
    subst ht
    obtain ⟨P, S', ⟨hneg, PJ, hJ, hP⟩, hS', hsum⟩ : HeapRepr ec (e :: []) S := het ▸ z3
    have hS'0 : S' = 0 := hS'
    have hpop : heappop [e] = (e, []) := rfl
    refine ⟨mult ec (-e.n).toNat e.pt, ?_, ?_⟩
    · rw [multi_mult_ok_eq ec scalars JPoints hlen, hok]
      show (if L.isEmpty then Except.ok INFJ
        else (bc_loop ec (scalars.map Int.toNat).sum (heapify L)).bind
          (fun fin => .ok (mult ec (-(heappop fin).1.n).toNat (heappop fin).1.pt))) = _
      rw [if_neg hemp, z1, het]
      show Except.ok (mult ec (-(heappop [e]).1.n).toNat (heappop [e]).1.pt) = _
      rw [hpop]
    · have hres := mult_repr hv (-e.n).toNat hJ
      rw [hsum, hS'0, add_zero, hP]
      exact hres

/-! Code-level facts feeding the claims about multi_mult's edge cases. -/

theorem multiples_go_take (ec : CurveGroup) (Q : JacPoint) :
    ∀ (n : ℕ) (T : List JacPoint) (k : ℕ), k < T.length →
      (multiples_go ec Q n T).getD k INFJ = T.getD k INFJ := by
  intro n
  induction n with
  | zero =>
    intro T k _
    rfl
  | succ n ih =>
    intro T k hk
    have hstep : multiples_go ec Q (n + 1) T =
        multiples_go ec Q n (T ++ [double_jac ec (T.getD (T.length / 2) INFJ),
          add_jac ec (double_jac ec (T.getD (T.length / 2) INFJ)) Q]) := rfl
    rw [hstep, ih _ k (by rw [List.length_append]; omega), List.getD_append _ _ _ _ hk]

/-- The zero scalar multiplies any point to the INFJ constant. -/
theorem mult_zero (ec : CurveGroup) (Q : JacPoint) : mult ec 0 Q = INFJ := by
  rw [mult, mult_fixed_window]
  have hdig : convert_number_to_base 0 (2 ^ 4) = [0] := by
    rw [convert_number_to_base, digits_rev_unfold]
    norm_num
  rw [hdig]
  show (multiples_list ec Q (2 ^ 4)).getD 0 INFJ = INFJ
  rw [multiples_list]
  have hodd : (2 ^ 4) % 2 = 1 ↔ False := by norm_num
  rw [if_neg (by norm_num)]
  rw [multiples_go_take ec Q _ _ 0 (by norm_num)]
  rfl

theorem bc_loop_short (ec : CurveGroup) (fuel : ℕ) (h : List Entry)
    (hlen : h.length ≤ 1) : bc_loop ec fuel h = .ok h := by
  cases fuel with
  | zero =>
    rw [show bc_loop ec 0 h =
      if h.length ≤ 1 then .ok h else .error "loop fuel exhausted" from rfl, if_pos hlen]
  | succ fuel =>
    rw [bc_loop_eq, if_pos hlen]

/-- A negative scalar anywhere in the input makes build_entries fail. -/
theorem build_entries_neg :
    ∀ (ps : List (ℤ × JacPoint)), (∃ q ∈ ps, q.1 < 0) →
      ∃ m, build_entries ps = .error m := by
  intro ps
  induction ps with
  | nil =>
    rintro ⟨q, hq, -⟩
    simp at hq
  | cons q rest ih =>
    rintro ⟨q', hq', hneg⟩
    by_cases hq0 : q.1 = 0
    · have hmem : q' ∈ rest := by
        rcases List.mem_cons.mp hq' with h | h
        · subst h
          omega
        · exact h
      obtain ⟨m, hm⟩ := ih ⟨q', hmem, hneg⟩
      refine ⟨m, ?_⟩
      rw [build_entries, if_pos hq0]
      exact hm
    · by_cases hqneg : q.1 < 0
      · refine ⟨"negative coefficient", ?_⟩
        rw [build_entries, if_neg hq0, if_pos hqneg]
      · have hmem : q' ∈ rest := by
          rcases List.mem_cons.mp hq' with h | h
          · subst h
            omega
          · exact h
        obtain ⟨m, hm⟩ := ih ⟨q', hmem, hneg⟩
        refine ⟨m, ?_⟩
        rw [build_entries, if_neg hq0, if_neg hqneg]
        rw [hm]
        rfl

/-- A negative scalar makes multi_mult fail (on length-matched inputs). -/
theorem multi_mult_neg (ec : CurveGroup) (scalars : List ℤ) (JPoints : List JacPoint)
    (hlen : scalars.length = JPoints.length)
    (hneg : ∃ q ∈ scalars.zip JPoints, q.1 < 0) :
    ∃ m, multi_mult ec scalars JPoints = .error m := by
  obtain ⟨m, hm⟩ := build_entries_neg _ hneg
  refine ⟨m, ?_⟩
  rw [multi_mult_ok_eq ec scalars JPoints hlen, hm]
  rfl

/-- Dropping zero scalars: multi_mult on [k, 0, 0, 0] with points [G, H, G, H]
is literally a single mult of G by k. -/
theorem multi_mult_zero_drop (ec : CurveGroup) (k : ℤ) (hk : 0 ≤ k)
    (G H : JacPoint) :
    multi_mult ec [k, 0, 0, 0] [G, H, G, H] = .ok (mult ec k.toNat G) := by
  by_cases hk0 : k = 0
  · subst hk0
    have hbe : build_entries ([(0 : ℤ), 0, 0, 0].zip [G, H, G, H]) = .ok [] := rfl
    rw [multi_mult_ok_eq ec _ _ rfl, hbe]
    show Except.ok INFJ = Except.ok (mult ec (0 : ℤ).toNat G)
    rw [show (0 : ℤ).toNat = 0 from rfl, mult_zero]
  · have hbe : build_entries ([k, 0, 0, 0].zip [G, H, G, H]) = .ok [⟨-k, G⟩] := by
      show build_entries ((k, G) :: [((0 : ℤ), H), ((0 : ℤ), G), ((0 : ℤ), H)]) = _
      rw [build_entries, if_neg hk0, if_neg (by omega)]
      rfl
    rw [multi_mult_ok_eq ec _ _ rfl, hbe]
    have hne : ([⟨-k, G⟩] : List Entry).isEmpty = false := rfl
    show (if ([⟨-k, G⟩] : List Entry).isEmpty then Except.ok INFJ
      else (bc_loop ec ([k, (0 : ℤ), 0, 0].map Int.toNat).sum
          (heapify [⟨-k, G⟩])).bind (fun fin =>
        .ok (mult ec (-(heappop fin).1.n).toNat (heappop fin).1.pt))) = _
    rw [hne]
    have hheap : heapify ([⟨-k, G⟩] : List Entry) = [⟨-k, G⟩] := by
      rw [heapify, show ([⟨-k, G⟩] : List Entry).length / 2 = 0 by norm_num]
      rfl
    rw [show (if false = true then Except.ok INFJ
      else (bc_loop ec ([k, (0 : ℤ), 0, 0].map Int.toNat).sum
          (heapify [⟨-k, G⟩])).bind (fun fin =>
        .ok (mult ec (-(heappop fin).1.n).toNat (heappop fin).1.pt))) =
      (bc_loop ec ([k, (0 : ℤ), 0, 0].map Int.toNat).sum
          (heapify [⟨-k, G⟩])).bind (fun fin =>
        .ok (mult ec (-(heappop fin).1.n).toNat (heappop fin).1.pt)) from rfl]
    rw [hheap, bc_loop_short ec _ _ (by simp)]
    show Except.ok (mult ec (-(heappop [Entry.mk (-k) G]).1.n).toNat
      (heappop [Entry.mk (-k) G]).1.pt) = _
    rw [show heappop [Entry.mk (-k) G] = (Entry.mk (-k) G, []) from rfl]
    show Except.ok (mult ec (- -k).toNat G) = _
    rw [neg_neg]

/-- multi_mult on the empty input returns the Jacobian infinity constant. -/
theorem multi_mult_nil (ec : CurveGroup) : multi_mult ec [] [] = .ok INFJ := rfl

end HeapOrder

/-! The validation layer: is_on_curve / require_on_curve / add on canonical
encodings, negation, and the affine/Jacobian round trip. -/

theorem is_on_curve_canon [hp : Fact (Nat.Prime ec.pn)] (hv : ec.valid)
    {P : Point} {Pt : (Wc ec).Point} (hP : AffRepr ec P Pt) :
    is_on_curve ec P = .ok true := by
  have h : good ec := ⟨hv, hp.out⟩
  rcases hP with ⟨hP, -⟩ | ⟨hx0, hx1, hy0, hy1, hns, -⟩
  · rw [hP]
    rfl
  · rw [is_on_curve, if_neg (by omega), if_neg (by push_neg; omega)]
    have heqn : y2 ec P.1 = (P.2 * P.2) % ec.p := by
      rw [y2]
      refine (emod_eq_emod_iff_cast h _ _).mpr ?_
      have he := (equation_iff_F ec ((P.1 : ℤ) : ec.F) ((P.2 : ℤ) : ec.F)).mp hns.1
      push_cast
      linear_combination - he
    rw [heqn]
    simp

theorem require_on_curve_canon [hp : Fact (Nat.Prime ec.pn)] (hv : ec.valid)
    {P : Point} {Pt : (Wc ec).Point} (hP : AffRepr ec P Pt) :
    require_on_curve ec P = .ok () := by
  rw [require_on_curve, is_on_curve_canon hv hP]
  rfl

/-- add on validated canonical encodings runs the affine primitive. -/
theorem add_eq_add_aff [hp : Fact (Nat.Prime ec.pn)] (hv : ec.valid)
    {P₁ P₂ : Point} {Pt₁ Pt₂ : (Wc ec).Point}
    (h₁ : AffRepr ec P₁ Pt₁) (h₂ : AffRepr ec P₂ Pt₂) :
    add ec P₁ P₂ = .ok (add_aff ec P₁ P₂) := by
  rw [add, require_on_curve_canon hv h₁, require_on_curve_canon hv h₂]
  rfl

/-- negate maps the canonical encoding of a point to that of its negation. -/
theorem negate_repr [hp : Fact (Nat.Prime ec.pn)] (hv : ec.valid)
    {P : Point} {Pt : (Wc ec).Point} (hP : AffRepr ec P Pt) :
    AffRepr ec (negate ec P) (-Pt) := by
  have h : good ec := ⟨hv, hp.out⟩
  have h3 := p_ge_three h
  rcases hP with ⟨hP, hPt⟩ | ⟨hx0, hx1, hy0, hy1, hns, hPt⟩
  · rw [hP, hPt, neg_zero]
    refine Or.inl ⟨?_, rfl⟩
    rw [negate, INF]
    simp
  · refine Or.inr ⟨hx0, hx1, ?_, ?_, ?_⟩
    · show 0 < (ec.p - P.2) % ec.p
      rw [Int.emod_eq_of_lt (by omega) (by omega)]
      omega
    · show (ec.p - P.2) % ec.p < ec.p
      rw [Int.emod_eq_of_lt (by omega) (by omega)]
      omega
    · have hcast : (((ec.p - P.2) % ec.p : ℤ) : ec.F) = (Wc ec).negY (P.1 : ℤ) ((P.2 : ℤ)) := by
        rw [cast_emod h, negY_F]
        push_cast
        rw [show ((ec.p : ℤ) : ec.F) = 0 by rw [p_eq_pn h]; push_cast; simp]
        ring
      rw [hPt, WeierstrassCurve.Affine.Point.neg_some]
      obtain ⟨hns2, hPeq⟩ := some_eq_of_coords (WeierstrassCurve.Affine.nonsingular_neg hns)
        rfl rfl hcast.symm
      exact ⟨hns2, hPeq⟩

/-- mod_inv at 1 is 1. -/
theorem mod_inv_one (h : good ec) : mod_inv 1 ec.p = 1 := by
  haveI : Fact (Nat.Prime ec.pn) := ⟨h.2⟩
  have h3 := p_ge_three h
  haveI : NeZero ec.p.toNat := ⟨by omega⟩
  have hcast : ((mod_inv 1 ec.p : ℤ) : ec.F) = 1 := by
    rw [cast_mod_inv h]
    push_cast
    exact inv_one
  have hval := ZMod.val_lt (((1 : ℤ) : ZMod ec.p.toNat) ^ (ec.p.toNat - 2))
  have hrange : 0 ≤ mod_inv 1 ec.p ∧ mod_inv 1 ec.p < ec.p := by
    rw [mod_inv]
    constructor
    · positivity
    · omega
  refine reduced_cast_inj h hrange.1 hrange.2 (by omega) (by omega) ?_
  rw [hcast]
  push_cast
  rfl

/-- The affine-Jacobian round trip is the identity on canonical encodings. -/
theorem aff_jac_roundtrip [hp : Fact (Nat.Prime ec.pn)] (hv : ec.valid)
    {P : Point} {Pt : (Wc ec).Point} (hP : AffRepr ec P Pt) :
    aff_from_jac ec (jac_from_aff P) = P := by
  have h : good ec := ⟨hv, hp.out⟩
  have h3 := p_ge_three h
  rcases hP with ⟨hP, -⟩ | ⟨hx0, hx1, hy0, hy1, hns, -⟩
  · rw [hP]
    rfl
  · have hyne : P.2 ≠ 0 := by omega
    have hj : jac_from_aff P = (P.1, P.2, 1) := by
      rw [jac_from_aff, if_pos hyne]
    rw [hj, aff_from_jac]
    rw [if_neg (show ¬((P.1, P.2, (1 : ℤ)).2.2 = 0) by norm_num)]
    show ((P.1 * mod_inv (1 * 1) ec.p) % ec.p, (P.2 * mod_inv (1 * 1 * 1) ec.p) % ec.p) = P
    norm_num [mod_inv_one h]
    rw [Int.emod_eq_of_lt hx0 hx1, Int.emod_eq_of_lt (le_of_lt hy0) hy1]

/-- The affine sum of the single multiplications mult(n_i, P_i): the reference
value of the multi_mult claim, folded with the validated add of the code. -/
def aff_sum_mult (ec : CurveGroup) : List (ℤ × JacPoint) → Except String Point
  | [] => .ok INF
  | q :: rest => do
    let s ← aff_sum_mult ec rest
    add ec (aff_from_jac ec (mult ec q.1.toNat q.2)) s

/-- The affine sum of single multiplications computes the canonical encoding
of the represented total. -/
theorem aff_sum_mult_spec [hp : Fact (Nat.Prime ec.pn)] (hv : ec.valid)
    (hnt : no_two_torsion ec) :
    ∀ (ps : List (ℤ × JacPoint)) (S : (Wc ec).Point), PairsRepr ec ps S →
      ∃ P, aff_sum_mult ec ps = .ok P ∧ AffRepr ec P S := by
  intro ps
  induction ps with
  | nil =>
    intro S hS
    refine ⟨INF, rfl, ?_⟩
    rw [show S = 0 from hS]
    exact AffRepr_INF ec
  | cons q rest ih =>
    intro S hS
    obtain ⟨PJ, S', hq0, hJ, hrest, hsum⟩ := hS
    obtain ⟨P', hok, hrep⟩ := ih S' hrest
    have hmul : AffRepr ec (aff_from_jac ec (mult ec q.1.toNat q.2)) (q.1.toNat • PJ) :=
      aff_from_jac_repr hv hnt (mult_repr hv q.1.toNat hJ)
    refine ⟨add_aff ec (aff_from_jac ec (mult ec q.1.toNat q.2)) P', ?_, ?_⟩
    · show (aff_sum_mult ec rest).bind (fun s =>
        add ec (aff_from_jac ec (mult ec q.1.toNat q.2)) s) = _
      rw [hok]
      show add ec (aff_from_jac ec (mult ec q.1.toNat q.2)) P' = _
      rw [add_eq_add_aff hv hmul hrep]
    · rw [hsum]
      exact add_aff_repr hv hnt hmul hrep

/-- The leading digit of a positive number is nonzero. -/
theorem convert_head_ne_zero (i base : ℕ) (hb : 2 ≤ base) (hi : 0 < i) :
    (convert_number_to_base i base).headD 0 ≠ 0 := by
  rw [convert_eq_digits_reverse i base hb, if_neg (by omega)]
  have hne : Nat.digits base i ≠ [] := Nat.digits_ne_nil_iff_ne_zero.mpr (by omega)
  have hlast := Nat.getLast_digit_ne_zero base (show i ≠ 0 by omega)
  rw [List.headD_eq_head?, List.head?_reverse, List.getLast?_eq_getLast _ hne]
  simpa using hlast

/-! The selection behaviour of add_jac at well-formed infinity operands:
the literal facts behind the claim about the four-way candidate choice. -/

theorem add_jac_inf_right [hp : Fact (Nat.Prime ec.pn)] (hv : ec.valid)
    {Q R : JacPoint} {PR : (Wc ec).Point}
    (hQ : JacRepr ec Q 0) (hR : JacRepr ec R PR) (hRfin : R.2.2 ≠ 0) :
    add_jac ec Q R = R := by
  have h : good ec := ⟨hv, hp.out⟩
  obtain ⟨⟨hqx0, hqx1, hqy0, hqy1, hqz0, hqz1⟩, hQ2⟩ := hQ
  obtain ⟨⟨hrx0, hrx1, hry0, hry1, hrz0, hrz1⟩, hR2⟩ := hR
  rcases hQ2 with ⟨hqz, -, t, ht, hqxt, hqyt⟩ | ⟨-, x, y, hns, -, -, hP⟩
  · have hrzF : ((R.2.2 : ℤ) : ec.F) ≠ 0 := cast_ne_zero_of_range h hrz0 hrz1 hRfin
    have hMN : ¬ ((Q.1 * (R.2.2 * R.2.2)) % ec.p = (R.1 * (Q.2.2 * Q.2.2)) % ec.p ∧
        (Q.2.1 * (R.2.2 * R.2.2 * R.2.2)) % ec.p =
          (R.2.1 * (Q.2.2 * Q.2.2 * Q.2.2)) % ec.p) := by
      rintro ⟨hc, -⟩
      rw [emod_eq_emod_iff_cast h] at hc
      push_cast at hc
      rw [hqz] at hc
      push_cast at hc
      rw [hqxt] at hc
      exact mul_ne_zero (pow_ne_zero 2 ht) (mul_ne_zero hrzF hrzF)
        (by linear_combination hc)
    rw [add_jac]
    rw [if_neg hMN, if_pos hqz, if_neg hRfin]
  · exact absurd hP.symm (WeierstrassCurve.Affine.Point.some_ne_zero hns)

theorem add_jac_inf_left [hp : Fact (Nat.Prime ec.pn)] (hv : ec.valid)
    {Q R : JacPoint} {PQ : (Wc ec).Point}
    (hQ : JacRepr ec Q PQ) (hR : JacRepr ec R 0) (hQfin : Q.2.2 ≠ 0) :
    add_jac ec Q R = Q := by
  have h : good ec := ⟨hv, hp.out⟩
  obtain ⟨⟨hqx0, hqx1, hqy0, hqy1, hqz0, hqz1⟩, hQ2⟩ := hQ
  obtain ⟨⟨hrx0, hrx1, hry0, hry1, hrz0, hrz1⟩, hR2⟩ := hR
  rcases hR2 with ⟨hrz, -, t, ht, hrxt, hryt⟩ | ⟨-, x, y, hns, -, -, hP⟩
  · have hqzF : ((Q.2.2 : ℤ) : ec.F) ≠ 0 := cast_ne_zero_of_range h hqz0 hqz1 hQfin
    have hMN : ¬ ((Q.1 * (R.2.2 * R.2.2)) % ec.p = (R.1 * (Q.2.2 * Q.2.2)) % ec.p ∧
        (Q.2.1 * (R.2.2 * R.2.2 * R.2.2)) % ec.p =
          (R.2.1 * (Q.2.2 * Q.2.2 * Q.2.2)) % ec.p) := by
      rintro ⟨hc, -⟩
      rw [emod_eq_emod_iff_cast h] at hc
      push_cast at hc
      rw [hrz] at hc
      push_cast at hc
      rw [hrxt] at hc
      refine mul_ne_zero (pow_ne_zero 2 ht) (mul_ne_zero hqzF hqzF) ?_
      linear_combination - hc
    rw [add_jac]
    rw [if_neg hMN, if_neg hQfin, if_pos hrz]
  · exact absurd hP.symm (WeierstrassCurve.Affine.Point.some_ne_zero hns)

/-- Both operands at infinity: the early doubling branch fires and the result
is a well-formed Z = 0 triple (in general not the INFJ constant). -/
theorem add_jac_both_inf [hp : Fact (Nat.Prime ec.pn)] (hv : ec.valid)
    {Q R : JacPoint} (hQ : JacRepr ec Q 0) (hR : JacRepr ec R 0) :
    JacRepr ec (add_jac ec Q R) 0 ∧ (add_jac ec Q R).2.2 = 0 := by
  have h : good ec := ⟨hv, hp.out⟩
  have hres := add_jac_repr hv hQ hR
  rw [add_zero] at hres
  exact ⟨hres, repr_zero_z h hres⟩

/-! The quadratic-residue selector y_quadratic_residue: Euler criterion facts
for the modelled legendre_symbol and mod_sqrt. -/

theorem legendre_eq_one_iff [hp : Fact (Nat.Prime ec.pn)] (hv : ec.valid) (a : ℤ)
    (ha : ((a : ℤ) : ec.F) ≠ 0) :
    legendre_symbol a ec.p = 1 ↔ IsSquare ((a : ℤ) : ec.F) := by
  have h : good ec := ⟨hv, hp.out⟩
  rw [legendre_symbol, if_neg ((emod_ne_zero_iff_cast h a).mpr ha)]
  constructor
  · intro h1
    by_cases hany : (List.range ec.p.toNat).any (fun r => decide (((r : ℤ) * r - a) % ec.p = 0))
    · obtain ⟨s, -, hs⟩ := List.any_eq_true.mp hany
      rw [decide_eq_true_eq] at hs
      rw [emod_eq_zero_iff_cast h] at hs
      push_cast at hs
      refine ⟨(s : ec.F), ?_⟩
      linear_combination - hs
    · rw [if_neg hany] at h1
      exact absurd h1 (by norm_num)
  · rintro ⟨sF, hsF⟩
    have hany : (List.range ec.p.toNat).any (fun r => decide (((r : ℤ) * r - a) % ec.p = 0)) := by
      rw [List.any_eq_true]
      refine ⟨sF.val, List.mem_range.mpr (ZMod.val_lt sF), ?_⟩
      rw [decide_eq_true_eq, emod_eq_zero_iff_cast h]
      push_cast
      rw [ZMod.natCast_val, ZMod.cast_id]
      linear_combination - hsF
    rw [if_pos hany]

set_option maxHeartbeats 1600000 in
/-- Full behaviour of y_quadratic_residue on a curve with p congruent 3 mod 4
at an x-coordinate whose curve equation has a nonzero root: for quad_res = 1
the returned value is the square-residue root, for quad_res = 0 the
non-residue root. -/
theorem y_quadratic_residue_spec [hp : Fact (Nat.Prime ec.pn)] (hv : ec.valid)
    (hp3 : ec.pIsThreeModFour) (x : ℤ) (hx0 : 0 ≤ x) (hx1 : x < ec.p)
    (y0 : ℤ) (hy00 : 0 < y0) (hy01 : y0 < ec.p) (hy0r : (y0 * y0) % ec.p = y2 ec x) :
    (∃ r, y_quadratic_residue ec x 1 = .ok r ∧ 0 < r ∧ r < ec.p ∧
      (r * r) % ec.p = y2 ec x ∧ IsSquare ((r : ℤ) : ec.F)) ∧
    (∃ r, y_quadratic_residue ec x 0 = .ok r ∧ 0 < r ∧ r < ec.p ∧
      (r * r) % ec.p = y2 ec x ∧ ¬ IsSquare ((r : ℤ) : ec.F)) := by
  have h : good ec := ⟨hv, hp.out⟩
  have h3 := p_ge_three h
  have hpe : ec.p = (ec.pn : ℤ) := p_eq_pn h
  have hpn4 : ec.pn % 4 = 3 := by
    have hpp : ec.p % 4 = 3 := hp3
    omega
  have hpn2 : ec.pn % 2 = 1 := by omega
  have hpnp : 0 < ec.pn := by omega
  have hp0 : ((ec.p : ℤ) : ec.F) = 0 := by
    rw [hpe]
    exact_mod_cast ZMod.natCast_self ec.pn
  have hy2fix : y2 ec x % ec.p = y2 ec x := by
    rw [y2]
    exact Int.emod_emod_of_dvd _ dvd_rfl
  have hy0F : ((y0 : ℤ) : ec.F) ≠ 0 :=
    cast_ne_zero_of_range h (by omega) hy01 (by omega)
  have hA : ((y0 : ℤ) : ec.F) * ((y0 : ℤ) : ec.F) = ((y2 ec x : ℤ) : ec.F) := by
    rw [← hy0r, cast_emod h]
    push_cast
    ring
  have hAne : ((y2 ec x : ℤ) : ec.F) ≠ 0 := by
    rw [← hA]
    exact mul_ne_zero hy0F hy0F
  have hfer := ZMod.pow_card_sub_one_eq_one hy0F
  have hApow : ((y2 ec x : ℤ) : ec.F) ^ ((ec.pn - 1) / 2) = 1 := by
    rw [← hA, ← pow_two, ← pow_mul, show 2 * ((ec.pn - 1) / 2) = ec.pn - 1 by omega]
    exact hfer
  have hediv : ((ec.p + 1) / 4) * 4 = ec.p + 1 := by
    have hpp : ec.p % 4 = 3 := hp3
    omega
  have hsq : (((y2 ec x : ℤ) : ec.F) ^ (((ec.p + 1) / 4).toNat)) *
      (((y2 ec x : ℤ) : ec.F) ^ (((ec.p + 1) / 4).toNat)) = ((y2 ec x : ℤ) : ec.F) := by
    rw [← pow_add, show ((ec.p + 1) / 4).toNat + ((ec.p + 1) / 4).toNat =
      (ec.pn - 1) / 2 + 1 by omega, pow_succ, hApow, one_mul]
  have hrcast : (((y2 ec x ^ (((ec.p + 1) / 4).toNat)) % ec.p : ℤ) : ec.F) =
      ((y2 ec x : ℤ) : ec.F) ^ (((ec.p + 1) / 4).toNat) := by
    rw [cast_emod h]
    push_cast
    rfl
  have hcheck : ((y2 ec x ^ (((ec.p + 1) / 4).toNat)) % ec.p *
      ((y2 ec x ^ (((ec.p + 1) / 4).toNat)) % ec.p)) % ec.p = y2 ec x % ec.p := by
    rw [emod_eq_emod_iff_cast h]
    push_cast
    rw [cast_emod h]
    push_cast
    exact hsq
  have hmodsqrt : mod_sqrt (y2 ec x) ec.p =
      .ok ((y2 ec x ^ (((ec.p + 1) / 4).toNat)) % ec.p) := by
    rw [mod_sqrt, if_pos (show ec.p % 4 = 3 from hp3)]
    show (if _ = _ then _ else _) = _
    rw [if_pos hcheck]
  have hy : y ec x = .ok ((y2 ec x ^ (((ec.p + 1) / 4).toNat)) % ec.p) := by
    rw [y, if_neg (by push_neg; omega), hmodsqrt]
  have hrr := emod_nonneg_lt h (y2 ec x ^ (((ec.p + 1) / 4).toNat))
  have hrF : (((y2 ec x ^ (((ec.p + 1) / 4).toNat)) % ec.p : ℤ) : ec.F) ≠ 0 := by
    rw [hrcast]
    exact pow_ne_zero _ hAne
  have hrne0 : (y2 ec x ^ (((ec.p + 1) / 4).toNat)) % ec.p ≠ 0 :=
    fun hc => hrF (by rw [hc]; exact Int.cast_zero)
  have hrSq : IsSquare ((((y2 ec x ^ (((ec.p + 1) / 4).toNat)) % ec.p : ℤ) : ec.F)) := by
    rw [ZMod.euler_criterion ec.pn hrF, hrcast, ← pow_mul,
      show ((ec.p + 1) / 4).toNat * (ec.pn / 2) = ((ec.pn - 1) / 2) * (((ec.p + 1) / 4).toNat)
        by rw [Nat.mul_comm]; congr 1; omega,
      pow_mul, hApow, one_pow]
  have hleg : legendre_symbol ((y2 ec x ^ (((ec.p + 1) / 4).toNat)) % ec.p) ec.p = 1 :=
    (legendre_eq_one_iff hv _ hrF).mpr hrSq
  have hreq : (((y2 ec x ^ (((ec.p + 1) / 4).toNat)) % ec.p) *
      ((y2 ec x ^ (((ec.p + 1) / 4).toNat)) % ec.p)) % ec.p = y2 ec x := by
    rw [hcheck, hy2fix]
  have hrequire : require_p_ThreeModFour ec = .ok () := by
    rw [require_p_ThreeModFour, if_pos hp3]
  constructor
  · refine ⟨(y2 ec x ^ (((ec.p + 1) / 4).toNat)) % ec.p, ?_, by omega, hrr.2, hreq, hrSq⟩
    rw [y_quadratic_residue, if_neg (by norm_num), hrequire]
    show (y ec x).bind _ = _
    rw [hy]
    show Except.ok (if legendre_symbol ((y2 ec x ^ (((ec.p + 1) / 4).toNat)) % ec.p) ec.p
      = 1 then _ else _) = _
    rw [hleg, if_pos rfl]
  · refine ⟨ec.p - ((y2 ec x ^ (((ec.p + 1) / 4).toNat)) % ec.p), ?_, by omega, by omega,
      ?_, ?_⟩
    · rw [y_quadratic_residue, if_neg (by norm_num), hrequire]
      show (y ec x).bind _ = _
      rw [hy]
      show Except.ok (if legendre_symbol ((y2 ec x ^ (((ec.p + 1) / 4).toNat)) % ec.p) ec.p
        = 0 then _ else _) = _
      rw [hleg, if_neg (by norm_num)]
    · rw [show (ec.p - (y2 ec x ^ (((ec.p + 1) / 4).toNat)) % ec.p) *
          (ec.p - (y2 ec x ^ (((ec.p + 1) / 4).toNat)) % ec.p) =
          ((y2 ec x ^ (((ec.p + 1) / 4).toNat)) % ec.p) *
          ((y2 ec x ^ (((ec.p + 1) / 4).toNat)) % ec.p) +
          ec.p * (ec.p - 2 * ((y2 ec x ^ (((ec.p + 1) / 4).toNat)) % ec.p)) by ring,
        Int.add_mul_emod_self_left]
      exact hreq
    · intro hc
      have hcast2 : ((ec.p - (y2 ec x ^ (((ec.p + 1) / 4).toNat)) % ec.p : ℤ) : ec.F) =
          - (((y2 ec x ^ (((ec.p + 1) / 4).toNat)) % ec.p : ℤ) : ec.F) := by
        push_cast
        rw [hp0]
        ring
      rw [hcast2] at hc
      obtain ⟨u, hu⟩ := hc
      obtain ⟨v, hv2⟩ := hrSq
      have hvne : v ≠ 0 := by
        intro hv0
        rw [hv0, mul_zero] at hv2
        exact hrF hv2
      have hsqneg : IsSquare (-1 : ec.F) := by
        refine ⟨u * v⁻¹, ?_⟩
        have key : u * v⁻¹ * (u * v⁻¹) = (u * u) * (v * v)⁻¹ := by
          rw [mul_inv]
          ring
        rw [key, ← hu, ← hv2, neg_mul, mul_inv_cancel₀ hrF]
      rw [ZMod.exists_sq_eq_neg_one_iff] at hsqneg
      exact hsqneg hpn4

/-- On p not congruent 3 mod 4, y_quadratic_residue fails for every input. -/
theorem y_quadratic_residue_bad_p (ec : CurveGroup) (hnp3 : ¬ ec.pIsThreeModFour)
    (x quad_res : ℤ) : ∃ m, y_quadratic_residue ec x quad_res = .error m := by
  by_cases hq : quad_res ≠ 0 ∧ quad_res ≠ 1
  · exact ⟨"quad_res must be bool or 1/0", by rw [y_quadratic_residue, if_pos hq]⟩
  · refine ⟨"field prime is not equal to 3 mod 4", ?_⟩
    rw [y_quadratic_residue, if_neg hq]
    rw [show require_p_ThreeModFour ec = .error "field prime is not equal to 3 mod 4" by
      rw [require_p_ThreeModFour, if_neg hnp3]]
    rfl

/-- Any scalar below p has at most (psize * 8) / w + 1 digits in base 2 ^ w:
the wordcount used to size the cached_multiples_fixwind table. -/
theorem psize_digits_le (ec : CurveGroup) (w : ℕ) (hw : 1 ≤ w) (m : ℕ)
    (hm : m < ec.pn) :
    (convert_number_to_base m (2 ^ w)).length ≤ ec.psize * 8 / w + 1 := by
  have hB : 2 ≤ 2 ^ w := by
    have := Nat.one_lt_two_pow_iff.mpr (show w ≠ 0 by omega)
    omega
  rw [convert_len_le_iff m (2 ^ w) (ec.psize * 8 / w + 1) hB (Nat.le_add_left 1 _)]
  have h2 : Nat.size ec.p.toNat ≤ ec.psize * 8 := by
    rw [CurveGroup.psize]
    omega
  have hlt : (ec.psize * 8) % w < w := Nat.mod_lt _ (by omega)
  have h3 : ec.psize * 8 < w * (ec.psize * 8 / w + 1) :=
    calc ec.psize * 8 = w * (ec.psize * 8 / w) + ec.psize * 8 % w :=
        (Nat.div_add_mod _ _).symm
      _ < w * (ec.psize * 8 / w) + w := Nat.add_lt_add_left hlt _
      _ = w * (ec.psize * 8 / w + 1) := by rw [Nat.mul_add, Nat.mul_one]
  have hm2 : m < 2 ^ (Nat.size ec.p.toNat) := lt_of_lt_of_le hm (Nat.le_of_lt (Nat.lt_size_self _))
  calc m < 2 ^ (Nat.size ec.p.toNat) := hm2
    _ ≤ 2 ^ (w * (ec.psize * 8 / w + 1)) :=
      Nat.pow_le_pow_right (by omega) (le_trans h2 (le_of_lt h3))
    _ = (2 ^ w) ^ (ec.psize * 8 / w + 1) := by rw [← pow_mul]

end Algorithms

/-! Concrete curves for instantiating the verified statements: small prime
fields where every side condition is decidable. -/

/-- p = 13, a = 7, b = 6: a valid curve carrying the two-torsion point (5, 0). -/
abbrev ec13_11 : CurveGroup := ⟨13, 7, 6⟩

/-- p = 13, a = 0, b = 12: a valid curve whose point (7, 2) has order 6, so that
3 * (7, 2) = (3, 0) is a two-torsion point colliding with the y = 0 infinity
encoding. -/
abbrev ec13_12 : CurveGroup := ⟨13, 0, 12⟩

/-- p = 13, a = 0, b = 2: a valid curve with no two-torsion (the cubic x^3 + 2
has no root mod 13), carrying the point (1, 4). -/
abbrev ecNT : CurveGroup := ⟨13, 0, 2⟩

/-- p = 7, a = 0, b = 5: a valid curve with p congruent 3 mod 4, where x = 3
has the curve-equation roots 2 and 5. -/
abbrev ec7 : CurveGroup := ⟨7, 0, 5⟩

theorem prime13 : Nat.Prime 13 := by norm_num

theorem prime7 : Nat.Prime 7 := by norm_num

instance : Fact (Nat.Prime ecNT.pn) := ⟨prime13⟩

instance : Fact (Nat.Prime ec7.pn) := ⟨prime7⟩

theorem hvNT : ecNT.valid := by decide

theorem goodNT : good ecNT := ⟨hvNT, prime13⟩

theorem hntNT : no_two_torsion ecNT := by
  haveI : NeZero ecNT.pn := ⟨by decide⟩
  show ∀ u : ecNT.F, u ^ 3 + (ecNT.a : ecNT.F) * u + (ecNT.b : ecNT.F) ≠ 0
  decide

theorem eqNT : (Wc ecNT).Equation ((1 : ℤ) : ecNT.F) ((4 : ℤ) : ecNT.F) :=
  (equation_iff_F ecNT _ _).mpr (by decide)

theorem hnsNT : (Wc ecNT).Nonsingular ((1 : ℤ) : ecNT.F) ((4 : ℤ) : ecNT.F) :=
  nonsingular_of_equation goodNT eqNT

/-- The point (1, 4) of ecNT as a Mathlib group element. -/
def PtNT : (Wc ecNT).Point := WeierstrassCurve.Affine.Point.some hnsNT

theorem affNT : AffRepr ecNT (1, 4) PtNT :=
  Or.inr ⟨by norm_num, by norm_num, by norm_num, by norm_num, hnsNT, rfl⟩

theorem jacNT : JacRepr ecNT (jac_from_aff (1, 4)) PtNT := by
  haveI : Fact (Nat.Prime ecNT.pn) := ⟨prime13⟩
  exact jac_from_aff_repr hvNT affNT (WeierstrassCurve.Affine.Point.some_ne_zero hnsNT)

/-- A positive number below the base is its own single digit. -/
theorem convert_single {m base : ℕ} (h2 : 2 ≤ base) (hm : 0 < m) (hlt : m < base) :
    convert_number_to_base m base = [m] := by
  rw [convert_eq_digits_reverse m base h2, if_neg (by omega),
    Nat.digits_def' (by omega : 1 < base) hm, Nat.mod_eq_of_lt hlt,
    Nat.div_eq_of_lt hlt]
  simp

section Claims

/-- Decidable equality of Except values with decidable components, for the
concrete evaluations below. -/
instance {e a : Type} [DecidableEq e] [DecidableEq a] : DecidableEq (Except e a) := fun x y =>
  match x, y with
  | .ok u, .ok v =>
    if h : u = v then .isTrue (by rw [h])
    else .isFalse (by intro hc; injection hc; exact h (by assumption))
  | .error u, .error v =>
    if h : u = v then .isTrue (by rw [h])
    else .isFalse (by intro hc; injection hc; exact h (by assumption))
  | .ok _, .error _ => .isFalse (by intro hc; exact Except.noConfusion hc)
  | .error _, .ok _ => .isFalse (by intro hc; exact Except.noConfusion hc)

variable {ec : CurveGroup}

/-- On canonical data, add of the affine images of two Jacobian representatives
equals the affine image of any representative of the group sum. -/
theorem add_aff_images [hp : Fact (Nat.Prime ec.pn)] (hv : ec.valid)
    (hnt : no_two_torsion ec) {J₁ J₂ J₃ : JacPoint} {P₁ P₂ : (Wc ec).Point}
    (h₁ : JacRepr ec J₁ P₁) (h₂ : JacRepr ec J₂ P₂) (h₃ : JacRepr ec J₃ (P₁ + P₂)) :
    add ec (aff_from_jac ec J₁) (aff_from_jac ec J₂) = .ok (aff_from_jac ec J₃) := by
  have ha₁ := aff_from_jac_repr hv hnt h₁
  have ha₂ := aff_from_jac_repr hv hnt h₂
  have ha₃ := aff_from_jac_repr hv hnt h₃
  rw [add_eq_add_aff hv ha₁ ha₂]
  exact congrArg Except.ok
    (AffRepr_unique hv (add_aff_repr hv hnt ha₁ ha₂) ha₃)

/-- Claim C1: scalar multiplication is linear on a no-two-torsion curve: the
affine image of mult (u + v) is the validated add of the affine images of
mult u and mult v, double_mult agrees with the added single multiplications,
and multi_mult agrees with the validated affine sum of the single
multiplications mult scalar_i point_i. -/
theorem C1_linearity [hp : Fact (Nat.Prime ec.pn)] (hv : ec.valid)
    (hnt : no_two_torsion ec) (u v : ℕ) {HJ QJ : JacPoint} {PH PQ : (Wc ec).Point}
    (hH : JacRepr ec HJ PH) (hQ : JacRepr ec QJ PQ)
    (scalars : List ℤ) (JPoints : List JacPoint) (S : (Wc ec).Point)
    (hlen : scalars.length = JPoints.length)
    (hPR : PairsRepr ec (scalars.zip JPoints) S) :
    add ec (aff_from_jac ec (mult ec u QJ)) (aff_from_jac ec (mult ec v QJ)) =
      .ok (aff_from_jac ec (mult ec (u + v) QJ)) ∧
    add ec (aff_from_jac ec (mult ec u HJ)) (aff_from_jac ec (mult ec v QJ)) =
      .ok (aff_from_jac ec (double_mult ec u HJ v QJ)) ∧
    ∃ R P, multi_mult ec scalars JPoints = .ok R ∧
      aff_sum_mult ec (scalars.zip JPoints) = .ok P ∧ aff_from_jac ec R = P := by
  refine ⟨?_, ?_, ?_⟩
  · have h₃ := mult_repr hv (u + v) hQ
    rw [add_nsmul] at h₃
    exact add_aff_images hv hnt (mult_repr hv u hQ) (mult_repr hv v hQ) h₃
  · exact add_aff_images hv hnt (mult_repr hv u hH) (mult_repr hv v hQ)
      (double_mult_repr hv u v hH hQ)
  · obtain ⟨R, hok, hR⟩ := multi_mult_spec hv scalars JPoints S hlen hPR
    obtain ⟨P, hs, hP⟩ := aff_sum_mult_spec hv hnt (scalars.zip JPoints) S hPR
    exact ⟨R, P, hok, hs, AffRepr_unique hv (aff_from_jac_repr hv hnt hR) hP⟩

/-- C1 at the curve ecNT, point (1, 4), scalars 2 and 3, and the empty
multi_mult input. -/
theorem C1_linearity_witness :
    (add ecNT (aff_from_jac ecNT (mult ecNT 2 (jac_from_aff (1, 4))))
        (aff_from_jac ecNT (mult ecNT 3 (jac_from_aff (1, 4)))) =
      .ok (aff_from_jac ecNT (mult ecNT (2 + 3) (jac_from_aff (1, 4)))) ∧
    add ecNT (aff_from_jac ecNT (mult ecNT 2 (jac_from_aff (1, 4))))
        (aff_from_jac ecNT (mult ecNT 3 (jac_from_aff (1, 4)))) =
      .ok (aff_from_jac ecNT (double_mult ecNT 2 (jac_from_aff (1, 4)) 3 (jac_from_aff (1, 4)))) ∧
    ∃ R P, multi_mult ecNT [] [] = .ok R ∧
      aff_sum_mult ecNT (List.zip [] []) = .ok P ∧ aff_from_jac ecNT R = P) :=
  @C1_linearity ecNT ⟨prime13⟩ hvNT hntNT 2 3 (jac_from_aff (1, 4)) (jac_from_aff (1, 4))
    PtNT PtNT jacNT jacNT [] [] 0 rfl rfl

/-- The literal linearity statement fails on the curve ec13_12 at the order-6
point (7, 2) with u = 3, v = 1: 3 * (7, 2) is the two-torsion point (3, 0),
whose y = 0 coordinate collides with the infinity encoding, so the validated
add returns (7, 2) while 4 * (7, 2) is (0, 8). -/
theorem C1_counterexample :
    add ec13_12 (aff_from_jac ec13_12 (mult ec13_12 3 (jac_from_aff (7, 2))))
        (aff_from_jac ec13_12 (mult ec13_12 1 (jac_from_aff (7, 2)))) ≠
      .ok (aff_from_jac ec13_12 (mult ec13_12 (3 + 1) (jac_from_aff (7, 2)))) := by
  have c1 : convert_number_to_base 1 (2 ^ 4) = [1] :=
    convert_single (by norm_num) (by norm_num) (by norm_num)
  have c3 : convert_number_to_base 3 (2 ^ 4) = [3] :=
    convert_single (by norm_num) (by norm_num) (by norm_num)
  have c4 : convert_number_to_base (3 + 1) (2 ^ 4) = [4] :=
    convert_single (by norm_num) (by norm_num) (by norm_num)
  simp only [mult, mult_fixed_window, c1, c3, c4]
  decide

/-- Claim C2: on a no-two-torsion curve the affine double-and-add equals the
affine image of the Jacobian double-and-add, and the other scalar
multiplication algorithms (Montgomery ladder, base 3, fixed window, cached
fixed window on scalars whose digit count fits the table) agree with it on
the affine image. -/
theorem C2_mult_agreement [hp : Fact (Nat.Prime ec.pn)] (hv : ec.valid)
    (hnt : no_two_torsion ec) (m : ℕ) {QJ : JacPoint} {QA : Point}
    {PQ : (Wc ec).Point} (hQJ : JacRepr ec QJ PQ) (hQA : AffRepr ec QA PQ)
    (w : ℕ) (hw : 1 ≤ w) :
    mult_aff ec m QA = aff_from_jac ec (mult_jac ec m QJ) ∧
    aff_from_jac ec (mult_mont_ladder ec m QJ) = aff_from_jac ec (mult_jac ec m QJ) ∧
    aff_from_jac ec (mult_base_3 ec m QJ) = aff_from_jac ec (mult_jac ec m QJ) ∧
    aff_from_jac ec (mult_fixed_window ec m QJ w) = aff_from_jac ec (mult_jac ec m QJ) ∧
    ((convert_number_to_base m (2 ^ w)).length ≤ ec.psize * 8 / w + 1 →
      ∃ R, mult_fixed_window_cached ec m QJ w = .ok R ∧
        aff_from_jac ec R = aff_from_jac ec (mult_jac ec m QJ)) := by
  have hjac := aff_from_jac_repr hv hnt (mult_jac_repr hv m hQJ)
  refine ⟨AffRepr_unique hv (mult_aff_repr hv hnt m hQA) hjac,
    AffRepr_unique hv (aff_from_jac_repr hv hnt (mult_mont_ladder_repr hv m hQJ)) hjac,
    AffRepr_unique hv (aff_from_jac_repr hv hnt (mult_base_3_repr hv m hQJ)) hjac,
    AffRepr_unique hv (aff_from_jac_repr hv hnt (mult_fixed_window_repr hv m hQJ w hw)) hjac,
    fun hlen => ?_⟩
  obtain ⟨R, hok, hR⟩ := (mult_fixed_window_cached_spec hv hQJ m w hw).1 hlen
  exact ⟨R, hok, AffRepr_unique hv (aff_from_jac_repr hv hnt hR) hjac⟩

/-- C2 at the curve ecNT, scalar 5, point (1, 4), window width 4. -/
theorem C2_mult_agreement_witness :
    (mult_aff ecNT 5 (1, 4) = aff_from_jac ecNT (mult_jac ecNT 5 (jac_from_aff (1, 4))) ∧
    aff_from_jac ecNT (mult_mont_ladder ecNT 5 (jac_from_aff (1, 4))) =
      aff_from_jac ecNT (mult_jac ecNT 5 (jac_from_aff (1, 4))) ∧
    aff_from_jac ecNT (mult_base_3 ecNT 5 (jac_from_aff (1, 4))) =
      aff_from_jac ecNT (mult_jac ecNT 5 (jac_from_aff (1, 4))) ∧
    aff_from_jac ecNT (mult_fixed_window ecNT 5 (jac_from_aff (1, 4)) 4) =
      aff_from_jac ecNT (mult_jac ecNT 5 (jac_from_aff (1, 4))) ∧
    ((convert_number_to_base 5 (2 ^ 4)).length ≤ ecNT.psize * 8 / 4 + 1 →
      ∃ R, mult_fixed_window_cached ecNT 5 (jac_from_aff (1, 4)) 4 = .ok R ∧
        aff_from_jac ecNT R = aff_from_jac ecNT (mult_jac ecNT 5 (jac_from_aff (1, 4))))) :=
  @C2_mult_agreement ecNT ⟨prime13⟩ hvNT hntNT 5 (jac_from_aff (1, 4)) (1, 4)
    PtNT jacNT affNT 4 (by norm_num)

/-- The literal refinement statement fails on ec13_12 at the order-6 point
(7, 2) with m = 7: the affine loop collapses the intermediate two-torsion
value (3, 0) into the infinity encoding, yielding (0, 8), while the Jacobian
loop correctly returns a representative of 7 * (7, 2) = (7, 2). -/
theorem C2_counterexample :
    mult_aff ec13_12 7 (7, 2) ≠
      aff_from_jac ec13_12 (mult_jac ec13_12 7 (jac_from_aff (7, 2))) := by
  rw [mult_aff, mult_jac, mult_aff_loop_eq, mult_aff_loop_eq, mult_aff_loop_eq,
    mult_jac_loop_eq, mult_jac_loop_eq, mult_jac_loop_eq]
  decide

/-- Claim C3: add_jac on well-formed Jacobian representatives computes a
representative of the group sum; a Z = 0 operand against a finite operand
returns the other operand verbatim; two Z = 0 operands produce a Z = 0 triple
(through the early doubling branch, in general not the INFJ constant). -/
theorem C3_add_jac_selection [hp : Fact (Nat.Prime ec.pn)] (hv : ec.valid)
    {Q R : JacPoint} {PQ PR : (Wc ec).Point}
    (hQ : JacRepr ec Q PQ) (hR : JacRepr ec R PR) :
    JacRepr ec (add_jac ec Q R) (PQ + PR) ∧
    (PQ = 0 → R.2.2 ≠ 0 → add_jac ec Q R = R) ∧
    (PR = 0 → Q.2.2 ≠ 0 → add_jac ec Q R = Q) ∧
    (PQ = 0 → PR = 0 → (add_jac ec Q R).2.2 = 0) := by
  refine ⟨add_jac_repr hv hQ hR, fun h0 hfin => ?_, fun h0 hfin => ?_, fun h0 h1 => ?_⟩
  · rw [h0] at hQ
    exact add_jac_inf_right hv hQ hR hfin
  · rw [h0] at hR
    exact add_jac_inf_left hv hQ hR hfin
  · rw [h0] at hQ
    rw [h1] at hR
    exact (add_jac_both_inf hv hQ hR).2

/-- C3 at the curve ecNT with both operands the finite point (1, 4). -/
theorem C3_add_jac_selection_witness :
    (JacRepr ecNT (add_jac ecNT (jac_from_aff (1, 4)) (jac_from_aff (1, 4))) (PtNT + PtNT) ∧
    (PtNT = 0 → (jac_from_aff (1, 4)).2.2 ≠ 0 →
      add_jac ecNT (jac_from_aff (1, 4)) (jac_from_aff (1, 4)) = jac_from_aff (1, 4)) ∧
    (PtNT = 0 → (jac_from_aff (1, 4)).2.2 ≠ 0 →
      add_jac ecNT (jac_from_aff (1, 4)) (jac_from_aff (1, 4)) = jac_from_aff (1, 4)) ∧
    (PtNT = 0 → PtNT = 0 →
      (add_jac ecNT (jac_from_aff (1, 4)) (jac_from_aff (1, 4))).2.2 = 0)) :=
  @C3_add_jac_selection ecNT ⟨prime13⟩ hvNT (jac_from_aff (1, 4)) (jac_from_aff (1, 4))
    PtNT PtNT jacNT jacNT

/-- The literal selection statement fails when both operands are the valid
infinity representative (4, 8, 0) (with 4 = 2 ^ 2 and 8 = 2 ^ 3 mod 13): the
early doubling branch fires before the four-way selection and returns the
Z = 0 triple (9, 1, 0) instead of the INFJ infinity constant. -/
theorem C3_counterexample :
    add_jac ec13_11 (4, 8, 0) (4, 8, 0) ≠ INFJ ∧
    (add_jac ec13_11 (4, 8, 0) (4, 8, 0)).2.2 = 0 := by decide

/-- Claim C4: on the canonical encoding of a point (the INF constant for zero,
reduced coordinates with nonzero y otherwise) over a no-two-torsion curve:
double negation is the identity, the validated add of a point and its negation
is INF, adding INF is the identity, and the Jacobian round trip is the
identity. -/
theorem C4_affine_ops [hp : Fact (Nat.Prime ec.pn)] (hv : ec.valid)
    (hnt : no_two_torsion ec) {P : Point} {Pt : (Wc ec).Point}
    (hP : AffRepr ec P Pt) :
    negate ec (negate ec P) = P ∧
    add ec P (negate ec P) = .ok INF ∧
    add ec P INF = .ok P ∧
    aff_from_jac ec (jac_from_aff P) = P := by
  have hN := negate_repr hv hP
  have hNN := negate_repr hv hN
  rw [neg_neg] at hNN
  refine ⟨AffRepr_unique hv hNN hP, ?_, ?_, aff_jac_roundtrip hv hP⟩
  · rw [add_eq_add_aff hv hP hN]
    have hsum := add_aff_repr hv hnt hP hN
    rw [add_neg_cancel] at hsum
    exact congrArg Except.ok (AffRepr_unique hv hsum (AffRepr_INF ec))
  · rw [add_eq_add_aff hv hP (AffRepr_INF ec)]
    exact congrArg Except.ok (add_aff_INF_right ec P)

/-- C4 at the curve ecNT, point (1, 4). -/
theorem C4_affine_ops_witness :
    (negate ecNT (negate ecNT (1, 4)) = (1, 4) ∧
    add ecNT (1, 4) (negate ecNT (1, 4)) = .ok INF ∧
    add ecNT (1, 4) INF = .ok (1, 4) ∧
    aff_from_jac ecNT (jac_from_aff (1, 4)) = (1, 4)) :=
  @C4_affine_ops ecNT ⟨prime13⟩ hvNT hntNT (1, 4) PtNT affNT

/-- The literal statement fails at the point (5, 0) of ec13_11, which
is_on_curve accepts (y = 0 reads as infinity): adding its negation returns
the point itself rather than INF, and the Jacobian round trip collapses it
to INF. -/
theorem C4_counterexample :
    is_on_curve ec13_11 (5, 0) = .ok true ∧
    add ec13_11 (5, 0) (negate ec13_11 (5, 0)) ≠ .ok INF ∧
    aff_from_jac ec13_11 (jac_from_aff (5, 0)) ≠ (5, 0) := by decide

/-- Claim C5: multi_mult raises on a length mismatch and on a negative scalar,
drops zero scalars (the four-term call [k, 0, 0, 0] is a single mult), and
returns the Jacobian infinity constant on empty input. -/
theorem C5_multi_mult_edges (ec : CurveGroup) (scalars : List ℤ)
    (JPoints : List JacPoint) (k : ℤ) (hk : 0 ≤ k) (G H : JacPoint) :
    (scalars.length ≠ JPoints.length →
      multi_mult ec scalars JPoints =
        .error "mismatch between number of scalars and points") ∧
    (scalars.length = JPoints.length → (∃ q ∈ scalars.zip JPoints, q.1 < 0) →
      ∃ m, multi_mult ec scalars JPoints = .error m) ∧
    multi_mult ec [k, 0, 0, 0] [G, H, G, H] = .ok (mult ec k.toNat G) ∧
    multi_mult ec [] [] = .ok INFJ :=
  ⟨fun hne => multi_mult_mismatch ec scalars JPoints hne,
    fun hlen hneg => multi_mult_neg ec scalars JPoints hlen hneg,
    multi_mult_zero_drop ec k hk G H,
    multi_mult_nil ec⟩

/-- C5 at ec13_11 with a length-1 versus length-0 input, k = 2 and the
points (4, 8, 0). -/
theorem C5_multi_mult_edges_witness :
    ((([1] : List ℤ).length ≠ ([] : List JacPoint).length →
      multi_mult ec13_11 [1] [] =
        .error "mismatch between number of scalars and points") ∧
    (([1] : List ℤ).length = ([] : List JacPoint).length →
      (∃ q ∈ List.zip ([1] : List ℤ) ([] : List JacPoint), q.1 < 0) →
      ∃ m, multi_mult ec13_11 [1] [] = .error m) ∧
    multi_mult ec13_11 [2, 0, 0, 0] [(4, 8, 0), (4, 8, 0), (4, 8, 0), (4, 8, 0)] =
      .ok (mult ec13_11 (2 : ℤ).toNat (4, 8, 0)) ∧
    multi_mult ec13_11 [] [] = .ok INFJ) :=
  C5_multi_mult_edges ec13_11 [1] [] 2 (by norm_num) (4, 8, 0) (4, 8, 0)

/-- Claim C6: on a valid prime-field curve with p congruent 3 mod 4, at any
in-range x whose curve equation has a nonzero root, y_quadratic_residue with
quad_res = 1 returns the quadratic-residue root and with quad_res = 0 the
non-residue root; with p not congruent 3 mod 4 it raises for every input. -/
theorem C6_y_quadratic_residue [hp : Fact (Nat.Prime ec.pn)] (hv : ec.valid) :
    (∀ x y0 : ℤ, ec.pIsThreeModFour → 0 ≤ x → x < ec.p → 0 < y0 → y0 < ec.p →
      (y0 * y0) % ec.p = y2 ec x →
      (∃ r, y_quadratic_residue ec x 1 = .ok r ∧ 0 < r ∧ r < ec.p ∧
        (r * r) % ec.p = y2 ec x ∧ IsSquare ((r : ℤ) : ec.F)) ∧
      (∃ r, y_quadratic_residue ec x 0 = .ok r ∧ 0 < r ∧ r < ec.p ∧
        (r * r) % ec.p = y2 ec x ∧ ¬ IsSquare ((r : ℤ) : ec.F))) ∧
    (¬ ec.pIsThreeModFour →
      ∀ x quad_res : ℤ, ∃ m, y_quadratic_residue ec x quad_res = .error m) :=
  ⟨fun x y0 h1 h2 h3 h4 h5 h6 => y_quadratic_residue_spec hv h1 x h2 h3 y0 h4 h5 h6,
    fun hn x q => y_quadratic_residue_bad_p ec hn x q⟩

/-- C6 at the curve ec7 (p = 7 congruent 3 mod 4) at x = 3 with root 2. -/
theorem C6_y_quadratic_residue_witness :
    ((∃ r, y_quadratic_residue ec7 3 1 = .ok r ∧ 0 < r ∧ r < ec7.p ∧
      (r * r) % ec7.p = y2 ec7 3 ∧ IsSquare ((r : ℤ) : ec7.F)) ∧
    (∃ r, y_quadratic_residue ec7 3 0 = .ok r ∧ 0 < r ∧ r < ec7.p ∧
      (r * r) % ec7.p = y2 ec7 3 ∧ ¬ IsSquare ((r : ℤ) : ec7.F))) :=
  (@C6_y_quadratic_residue ec7 ⟨prime7⟩ (by decide)).1 3 2 (by decide) (by decide)
    (by decide) (by decide) (by decide) (by decide)

/-- Claim C7: is_on_curve never range-checks the x-coordinate: y = 0 is the
infinity point and returns true with no further check, an out-of-range
nonzero y is the only validation error, and an in-range nonzero y evaluates
the curve equation whatever x is. -/
theorem C7_is_on_curve_checks (ec : CurveGroup) (P : Point) :
    (P.2 = 0 → is_on_curve ec P = .ok true) ∧
    (P.2 ≠ 0 → ¬(0 < P.2 ∧ P.2 < ec.p) →
      is_on_curve ec P = .error "y-coordinate not in 1..p-1") ∧
    (P.2 ≠ 0 → 0 < P.2 → P.2 < ec.p →
      is_on_curve ec P = .ok (y2 ec P.1 = (P.2 * P.2) % ec.p)) := by
  refine ⟨fun h0 => ?_, fun hne hr => ?_, fun hne h1 h2 => ?_⟩
  · rw [is_on_curve, if_pos h0]
  · rw [is_on_curve, if_neg hne, if_pos hr]
  · rw [is_on_curve, if_neg hne, if_neg (not_not_intro ⟨h1, h2⟩)]

/-- C7 at ec13_11 and the out-of-range point (14, 1). -/
theorem C7_is_on_curve_checks_witness :
    (((14, 1) : Point).2 = 0 → is_on_curve ec13_11 (14, 1) = .ok true) ∧
    (((14, 1) : Point).2 ≠ 0 → ¬(0 < ((14, 1) : Point).2 ∧ ((14, 1) : Point).2 < ec13_11.p) →
      is_on_curve ec13_11 (14, 1) = .error "y-coordinate not in 1..p-1") ∧
    (((14, 1) : Point).2 ≠ 0 → 0 < ((14, 1) : Point).2 → ((14, 1) : Point).2 < ec13_11.p →
      is_on_curve ec13_11 (14, 1) = .ok (y2 ec13_11 14 = (1 * 1) % ec13_11.p)) :=
  C7_is_on_curve_checks ec13_11 (14, 1)

/-- The literal statement fails at the point (14, 1) on ec13_11: the
x-coordinate 14 is outside [0, 13) and y = 1 is finite, yet is_on_curve
evaluates the equation and returns true instead of a validation error. -/
theorem C7_counterexample : is_on_curve ec13_11 (14, 1) = .ok true := by decide

/-- Claim C8: multiples raises for size below 2, and otherwise returns a list
of exactly size Jacobian representatives of 0 Q, 1 Q, ..., (size - 1) Q built
by the recurrence T[2k] = double(T[k]) and T[2k + 1] = T[2k] + Q. -/
theorem C8_multiples_table [hp : Fact (Nat.Prime ec.pn)] (hv : ec.valid)
    {Q : JacPoint} {PQ : (Wc ec).Point} (hQ : JacRepr ec Q PQ) (size : ℤ) :
    (size < 2 → multiples ec Q size = .error "size too low") ∧
    (2 ≤ size → ∃ T, multiples ec Q size = .ok T ∧ T.length = size.toNat ∧
      (∀ k, k < size.toNat → JacRepr ec (T.getD k INFJ) (k • PQ)) ∧
      (∀ k, 1 ≤ k → 2 * k < size.toNat →
        T.getD (2 * k) INFJ = double_jac ec (T.getD k INFJ)) ∧
      (∀ k, 1 ≤ k → 2 * k + 1 < size.toNat →
        T.getD (2 * k + 1) INFJ = add_jac ec (T.getD (2 * k) INFJ) Q)) := by
  refine ⟨(multiples_spec hv hQ size).1, fun h2 => ?_⟩
  refine ⟨multiples_list ec Q size.toNat, (multiples_spec hv hQ size).2 h2, ?_⟩
  exact multiples_list_spec hv hQ size.toNat (by omega)

/-- C8 at the curve ecNT, point (1, 4), size 6. -/
theorem C8_multiples_table_witness :
    (((6 : ℤ) < 2 → multiples ecNT (jac_from_aff (1, 4)) 6 = .error "size too low") ∧
    ((2 : ℤ) ≤ 6 → ∃ T, multiples ecNT (jac_from_aff (1, 4)) 6 = .ok T ∧
      T.length = (6 : ℤ).toNat ∧
      (∀ k, k < (6 : ℤ).toNat → JacRepr ecNT (T.getD k INFJ) (k • PtNT)) ∧
      (∀ k, 1 ≤ k → 2 * k < (6 : ℤ).toNat →
        T.getD (2 * k) INFJ = double_jac ecNT (T.getD k INFJ)) ∧
      (∀ k, 1 ≤ k → 2 * k + 1 < (6 : ℤ).toNat →
        T.getD (2 * k + 1) INFJ = add_jac ecNT (T.getD (2 * k) INFJ) (jac_from_aff (1, 4))))) :=
  @C8_multiples_table ecNT ⟨prime13⟩ hvNT (jac_from_aff (1, 4)) PtNT jacNT 6

/-- The claimed recurrence T[2k + 1] = double(T[k]) fails on the table of the
point (1, 4, 1) of ecNT at size 6, k = 1: entry 3 represents 3 Q while the
double of entry 1 represents 2 Q. -/
theorem C8_counterexample :
    multiples ecNT (1, 4, 1) 6 = .ok (multiples_list ecNT (1, 4, 1) 6) ∧
    (multiples_list ecNT (1, 4, 1) 6).getD 3 INFJ ≠
      double_jac ecNT ((multiples_list ecNT (1, 4, 1) 6).getD 1 INFJ) := by decide

/-- Claim C9: convert_number_to_base of a nonnegative integer in a base at
least 2 returns a non-empty big-endian digit list: digits below the base,
Horner evaluation recovers the number, a positive number has a nonzero
leading digit, and zero yields exactly [0]. -/
theorem C9_convert_digits (i base : ℕ) (hb : 2 ≤ base) :
    convert_number_to_base i base ≠ [] ∧
    (∀ d ∈ convert_number_to_base i base, d < base) ∧
    horner base 0 (convert_number_to_base i base) = i ∧
    (0 < i → (convert_number_to_base i base).headD 0 ≠ 0) ∧
    (i = 0 → convert_number_to_base i base = [0]) :=
  ⟨convert_ne_nil i base hb, convert_digit_lt i base hb, horner_convert i base hb,
    fun hi => convert_head_ne_zero i base hb hi,
    fun h0 => by rw [convert_eq_digits_reverse i base hb, if_pos h0]⟩

/-- C9 at i = 5, base = 3. -/
theorem C9_convert_digits_witness :
    (convert_number_to_base 5 3 ≠ [] ∧
    (∀ d ∈ convert_number_to_base 5 3, d < 3) ∧
    horner 3 0 (convert_number_to_base 5 3) = 5 ∧
    ((0 : ℕ) < 5 → (convert_number_to_base 5 3).headD 0 ≠ 0) ∧
    ((5 : ℕ) = 0 → convert_number_to_base 5 3 = [0])) :=
  C9_convert_digits 5 3 (by norm_num)

/-- Claim C10: the cached_multiples_fixwind table has exactly
psize * 8 / w + 1 window sublists of 2 ^ w entries each;
mult_fixed_window_cached succeeds (with a representative of m Q) exactly when
the base-2 ^ w digit count of m is at most the window count — in particular
for every m below p — and raises IndexError for longer digit strings. -/
theorem C10_cached_window_bounds [hp : Fact (Nat.Prime ec.pn)] (hv : ec.valid)
    {Q : JacPoint} {PQ : (Wc ec).Point} (hQ : JacRepr ec Q PQ)
    (m w : ℕ) (hw : 1 ≤ w) :
    (cached_multiples_fixwind ec Q w).length = ec.psize * 8 / w + 1 ∧
    (∀ t, t < ec.psize * 8 / w + 1 →
      ((cached_multiples_fixwind ec Q w).getD t []).length = 2 ^ w) ∧
    ((convert_number_to_base m (2 ^ w)).length ≤ ec.psize * 8 / w + 1 →
      ∃ R, mult_fixed_window_cached ec m Q w = .ok R ∧ JacRepr ec R (m • PQ)) ∧
    (m < ec.pn →
      ∃ R, mult_fixed_window_cached ec m Q w = .ok R ∧ JacRepr ec R (m • PQ)) ∧
    (ec.psize * 8 / w + 1 < (convert_number_to_base m (2 ^ w)).length →
      mult_fixed_window_cached ec m Q w = .error "IndexError") := by
  have hcm := cmf_go_spec hv w hw (ec.psize * 8 / w + 1) hQ
  have hspec := mult_fixed_window_cached_spec hv hQ m w hw
  exact ⟨hcm.1, fun t ht => (hcm.2 t ht).1, hspec.1,
    fun hm => hspec.1 (psize_digits_le ec w hw m hm), hspec.2⟩

/-- C10 at the curve ecNT, point (1, 4), scalar 1, window width 1. -/
theorem C10_cached_window_bounds_witness :
    ((cached_multiples_fixwind ecNT (jac_from_aff (1, 4)) 1).length =
      ecNT.psize * 8 / 1 + 1 ∧
    (∀ t, t < ecNT.psize * 8 / 1 + 1 →
      ((cached_multiples_fixwind ecNT (jac_from_aff (1, 4)) 1).getD t []).length = 2 ^ 1) ∧
    ((convert_number_to_base 1 (2 ^ 1)).length ≤ ecNT.psize * 8 / 1 + 1 →
      ∃ R, mult_fixed_window_cached ecNT 1 (jac_from_aff (1, 4)) 1 = .ok R ∧
        JacRepr ecNT R ((1 : ℕ) • PtNT)) ∧
    ((1 : ℕ) < ecNT.pn →
      ∃ R, mult_fixed_window_cached ecNT 1 (jac_from_aff (1, 4)) 1 = .ok R ∧
        JacRepr ecNT R ((1 : ℕ) • PtNT)) ∧
    (ecNT.psize * 8 / 1 + 1 < (convert_number_to_base 1 (2 ^ 1)).length →
      mult_fixed_window_cached ecNT 1 (jac_from_aff (1, 4)) 1 = .error "IndexError")) :=
  @C10_cached_window_bounds ecNT ⟨prime13⟩ hvNT (jac_from_aff (1, 4)) PtNT jacNT 1 1
    (by norm_num)

end Claims

end Btclib